import Mathlib

/-!
Verification of the pycfg control-flow-graph builder.

This file gives a shallow embedding of the repository's core
(`cfg/token.py`, `cfg/tokenizer.py`, `cfg/node.py`, `cfg/parser.py`,
`cfg/cfg.py`) and proves or refutes the frozen claims about it.

Python objects with identity (Node) are modelled by an arena: a heap
function `Nat → PyNode` together with the next free index; object
identity is index equality, and Python `__eq__` is modelled separately,
faithfully to the source (including its quirks).  Exceptions are
modelled with `Except`; a `print(str + obj)` in the source, which in
Python raises `TypeError` before printing, is modelled as the error it
raises.  Loops whose Python termination is not structural take a fuel
parameter and return a distinguished `fuelOut` error when it runs out;
theorems about completed runs quantify over the fuel.
-/

namespace PyCfg

/-- Token kinds, mirroring `TokenState` in `cfg/parser.py` (declaration
order fixes the enum values used to index the FSM table). -/
inductive TokenState where
  | ERROR | INIT_START | FUNCTION | STATEMENT | SEMICOLON | WHILE | DO | FOR
  | IF | ELSE | PAREN_OPEN | PAREN_CLOSE | BRACE_OPEN | BRACE_CLOSE | LAMBDA
deriving DecidableEq

/-- Parser states, mirroring `FSMState` in `cfg/parser.py`. -/
inductive FSMState where
  | ERROR
  | INIT_START
  | STATEMENT_START | STATEMENT_MID | STATEMENT_END
  | IF_START | IF_PAREN_OPEN | IF_PAREN_STATEMENT | IF_PAREN_CLOSE
  | IF_THEN_BRACE_OPEN | IF_THEN_STATEMENT | IF_THEN_SINGLE_STATEMENT | IF_THEN_END
  | ELSE_IF_STATEMENT | ELSE_IF_END
  | IF_ELSE | IF_ELSE_BRACE_OPEN | IF_ELSE_STATEMENT | IF_ELSE_SINGLE_STATEMENT | IF_ELSE_END
  | WHILE_START | WHILE_PAREN_OPEN | WHILE_PAREN_STATEMENT | WHILE_PAREN_CLOSE
  | WHILE_BRACE_OPEN | WHILE_STATEMENT | WHILE_SINGLE_STATEMENT | WHILE_END
  | DO_WHILE_START | DO_WHILE_BRACE_OPEN | DO_WHILE_STATEMENT | DO_WHILE_BRACE_CLOSE
  | DO_WHILE_KEYWORD | DO_WHILE_PAREN_OPEN | DO_WHILE_PAREN_STATEMENT | DO_WHILE_PAREN_CLOSE
  | DO_WHILE_END
  | FOR_START | FOR_PAREN_OPEN | FOR_INIT | FOR_INIT_END | FOR_COND | FOR_COND_END
  | FOR_MODIFY | FOR_PAREN_CLOSE | FOR_BRACE_OPEN | FOR_STATEMENT | FOR_SINGLE_STATEMENT
  | FOR_END
  | FUNC_START | FUNC_BRACE_OPEN | FUNC_STATEMENT | FUNC_END
deriving DecidableEq

/-- Decomposition kinds, mirroring `DecompStates` in `cfg/parser.py`. -/
inductive DecompStates where
  | C1 | C1_END | D0 | D0_END | D1 | D1_END | D2 | D2_END | D3 | D3_END
  | F1 | F1_END | P1
deriving DecidableEq

/-- Enum value of a `TokenState` member (its position in declaration
order, as produced by `auto()`). -/
def TokenState.idx : TokenState → Nat
  | .ERROR => 0 | .INIT_START => 1 | .FUNCTION => 2 | .STATEMENT => 3
  | .SEMICOLON => 4 | .WHILE => 5 | .DO => 6 | .FOR => 7 | .IF => 8
  | .ELSE => 9 | .PAREN_OPEN => 10 | .PAREN_CLOSE => 11 | .BRACE_OPEN => 12
  | .BRACE_CLOSE => 13 | .LAMBDA => 14

/-- Enum value of a `DecompStates` member. -/
def DecompStates.idx : DecompStates → Nat
  | .C1 => 0 | .C1_END => 1 | .D0 => 2 | .D0_END => 3 | .D1 => 4 | .D1_END => 5
  | .D2 => 6 | .D2_END => 7 | .D3 => 8 | .D3_END => 9 | .F1 => 10
  | .F1_END => 11 | .P1 => 12

/-- The `TokenState` member with a given enum value (total, defaulting to
`ERROR` outside the range; only values 0–14 occur). -/
def tsOfIdx : Nat → TokenState
  | 0 => .ERROR | 1 => .INIT_START | 2 => .FUNCTION | 3 => .STATEMENT
  | 4 => .SEMICOLON | 5 => .WHILE | 6 => .DO | 7 => .FOR | 8 => .IF
  | 9 => .ELSE | 10 => .PAREN_OPEN | 11 => .PAREN_CLOSE | 12 => .BRACE_OPEN
  | 13 => .BRACE_CLOSE | _ => .LAMBDA

/-- Enum value of an `FSMState` member (declaration order). -/
def FSMState.idx : FSMState → Nat
  | .ERROR => 0
  | .INIT_START => 1
  | .STATEMENT_START => 2 | .STATEMENT_MID => 3 | .STATEMENT_END => 4
  | .IF_START => 5 | .IF_PAREN_OPEN => 6 | .IF_PAREN_STATEMENT => 7
  | .IF_PAREN_CLOSE => 8 | .IF_THEN_BRACE_OPEN => 9 | .IF_THEN_STATEMENT => 10
  | .IF_THEN_SINGLE_STATEMENT => 11 | .IF_THEN_END => 12
  | .ELSE_IF_STATEMENT => 13 | .ELSE_IF_END => 14
  | .IF_ELSE => 15 | .IF_ELSE_BRACE_OPEN => 16 | .IF_ELSE_STATEMENT => 17
  | .IF_ELSE_SINGLE_STATEMENT => 18 | .IF_ELSE_END => 19
  | .WHILE_START => 20 | .WHILE_PAREN_OPEN => 21 | .WHILE_PAREN_STATEMENT => 22
  | .WHILE_PAREN_CLOSE => 23 | .WHILE_BRACE_OPEN => 24 | .WHILE_STATEMENT => 25
  | .WHILE_SINGLE_STATEMENT => 26 | .WHILE_END => 27
  | .DO_WHILE_START => 28 | .DO_WHILE_BRACE_OPEN => 29 | .DO_WHILE_STATEMENT => 30
  | .DO_WHILE_BRACE_CLOSE => 31 | .DO_WHILE_KEYWORD => 32 | .DO_WHILE_PAREN_OPEN => 33
  | .DO_WHILE_PAREN_STATEMENT => 34 | .DO_WHILE_PAREN_CLOSE => 35 | .DO_WHILE_END => 36
  | .FOR_START => 37 | .FOR_PAREN_OPEN => 38 | .FOR_INIT => 39 | .FOR_INIT_END => 40
  | .FOR_COND => 41 | .FOR_COND_END => 42 | .FOR_MODIFY => 43 | .FOR_PAREN_CLOSE => 44
  | .FOR_BRACE_OPEN => 45 | .FOR_STATEMENT => 46 | .FOR_SINGLE_STATEMENT => 47
  | .FOR_END => 48
  | .FUNC_START => 49 | .FUNC_BRACE_OPEN => 50 | .FUNC_STATEMENT => 51 | .FUNC_END => 52

/-- A token's `type` field.  The tokenizer only produces `TokenState`
members, but `cfg/parser.py` also builds placeholder tokens whose type
is `DecompStates.P1` (empty-body nodes), so the field ranges over the
union of the two enums. -/
inductive TokKind where
  | ts (k : TokenState)
  | ds (d : DecompStates)
deriving DecidableEq

/-- `Token` from `cfg/token.py`: line number, type, matched lexeme. -/
structure Token where
  line : Int
  type : TokKind
  sequence : List Char
deriving DecidableEq

/-- `Token.__eq__` from `cfg/token.py`, verbatim: it compares `line` and
`type`, but its third conjunct is `self.sequence == self.sequence`
(comparing the receiver's sequence with itself), so the other token's
sequence is never consulted. -/
def pyTokenEq (a b : Token) : Bool :=
  a.line == b.line && a.type == b.type && a.sequence == a.sequence

/- ### Tokenizer (`cfg/tokenizer.py`) -/

/-- Python `str.strip()` whitespace (ASCII). -/
def pyIsSpace (c : Char) : Bool :=
  c = ' ' || c = '\t' || c = '\n' || c = '\r' || c = '\x0b' || c = '\x0c'

/-- The delimiter characters excluded by the negated character classes
of the tokenizer rules in `Parser._init_tokenizer`. -/
def isDelim (c : Char) : Bool :=
  c = '(' || c = ')' || c = ';' || c = '\x7b' || c = '\x7d'

/-- `str.strip()`. -/
def pyStrip (s : List Char) : List Char :=
  ((s.dropWhile pyIsSpace).reverse.dropWhile pyIsSpace).reverse

/-- Length of the longest prefix satisfying `p`. -/
def countWhile (p : Char → Bool) : List Char → Nat
  | [] => 0
  | c :: rest => if p c then countWhile p rest + 1 else 0

/-- One tokenizer rule.  `lit c` is a single-character literal pattern;
`kw c w` is the case-insensitive keyword `c :: w`; `fn` is the function
pattern; `stmt` is the fallback statement pattern. -/
inductive RuleSpec where
  | lit (c : Char)
  | kw (c : Char) (w : List Char)
  | fn
  | stmt
deriving DecidableEq

/-- Length of the prefix of `s` matched by a rule, if it matches.  This
mirrors anchored, case-insensitive `re.match`:
`lit` matches its character; `kw` matches its word ignoring letter case;
`fn` (pattern split over two lines in the source,
so that the whole pattern reads as nonempty-run `(` run `)` of
non-delimiter characters) matches when the first delimiter of `s` is a
`(` at position at least 1 and the first delimiter after it is `)`;
`stmt` matches a nonempty run of non-delimiter characters. -/
def matchLen : RuleSpec → List Char → Option Nat
  | .lit c, s =>
      match s with
      | [] => none
      | c0 :: _ => if c0 = c then some 1 else none
  | .kw c w, s =>
      if w.length + 1 ≤ s.length ∧ (s.take (w.length + 1)).map Char.toLower = c :: w then
        some (w.length + 1)
      else none
  | .fn, s =>
      let a := countWhile (fun c => !isDelim c) s
      if a = 0 then none
      else if s.get? a ≠ some '(' then none
      else
        let b := countWhile (fun c => !isDelim c) (s.drop (a + 1))
        if s.get? (a + 1 + b) = some ')' then some (a + b + 2) else none
  | .stmt, s =>
      let a := countWhile (fun c => !isDelim c) s
      if a = 0 then none else some a

/-- The rule table of `Parser._init_tokenizer`, in priority order. -/
def tokenInfos : List (RuleSpec × TokenState) :=
  [ (.lit ';', .SEMICOLON)
  , (.kw 'i' ['f'], .IF)
  , (.kw 'e' ['l', 's', 'e'], .ELSE)
  , (.kw 'w' ['h', 'i', 'l', 'e'], .WHILE)
  , (.kw 'd' ['o'], .DO)
  , (.kw 'f' ['o', 'r'], .FOR)
  , (.fn, .FUNCTION)
  , (.lit '(', .PAREN_OPEN)
  , (.lit ')', .PAREN_CLOSE)
  , (.lit '\x7b', .BRACE_OPEN)
  , (.lit '\x7d', .BRACE_CLOSE)
  , (.stmt, .STATEMENT) ]

/-- First rule of a list that matches, with the matched length. -/
def firstMatchAux : List (RuleSpec × TokenState) → List Char → Option (Nat × TokenState)
  | [], _ => none
  | (r, k) :: rest, s =>
      match matchLen r s with
      | some n => some (n, k)
      | none => firstMatchAux rest s

/-- First matching rule of the tokenizer's rule table. -/
def firstMatch (s : List Char) : Option (Nat × TokenState) :=
  firstMatchAux tokenInfos s

/-- The tokenizer's only real error: no rule matched a nonempty
remainder (`TokenizerError`).  `fuelOut` marks exhausted fuel; the
default fuel of `tokenize` provably suffices, so it never occurs. -/
inductive TokErr where
  | noMatch
  | fuelOut
deriving DecidableEq

theorem countWhile_le (p : Char → Bool) (s : List Char) : countWhile p s ≤ s.length := by
  induction s with
  | nil => simp [countWhile]
  | cons c rest ih =>
      simp only [countWhile, List.length_cons]
      split <;> omega

theorem length_dropWhile_le (p : Char → Bool) (l : List Char) :
    (l.dropWhile p).length ≤ l.length := by
  induction l with
  | nil => simp [List.dropWhile]
  | cons c rest ih =>
      rw [List.dropWhile]
      split
      · exact le_trans ih (by simp)
      · simp

theorem matchLen_pos {r : RuleSpec} {s : List Char} {n : Nat}
    (h : matchLen r s = some n) : 0 < n := by
  cases r with
  | lit c =>
      cases s with
      | nil => simp [matchLen] at h
      | cons c0 rest =>
          simp only [matchLen] at h
          split at h
          · simp at h; omega
          · simp at h
  | kw c w =>
      simp only [matchLen] at h
      split at h
      · simp at h; omega
      · simp at h
  | fn =>
      simp only [matchLen] at h
      split at h
      · simp at h
      · split at h
        · simp at h
        · split at h
          · simp at h; omega
          · simp at h
  | stmt =>
      simp only [matchLen] at h
      split at h
      · simp at h
      · next hne => simp at h; omega

theorem matchLen_le {r : RuleSpec} {s : List Char} {n : Nat}
    (h : matchLen r s = some n) : n ≤ s.length := by
  cases r with
  | lit c =>
      cases s with
      | nil => simp [matchLen] at h
      | cons c0 rest =>
          simp only [matchLen] at h
          split at h
          · simp at h; simp [← h]
          · simp at h
  | kw c w =>
      simp only [matchLen] at h
      split at h
      · next hcond => simp at h; omega
      · simp at h
  | fn =>
      simp only [matchLen] at h
      split at h
      · simp at h
      · split at h
        · simp at h
        · split at h
          · next hget =>
              simp at h
              rw [List.get?_eq_some] at hget
              obtain ⟨hlt, -⟩ := hget
              omega
          · simp at h
  | stmt =>
      simp only [matchLen] at h
      split at h
      · simp at h
      · simp at h
        have := countWhile_le (fun c => !isDelim c) s
        omega

theorem firstMatchAux_pos {rs : List (RuleSpec × TokenState)} {s : List Char}
    {n : Nat} {k : TokenState} (h : firstMatchAux rs s = some (n, k)) : 0 < n := by
  induction rs with
  | nil => simp [firstMatchAux] at h
  | cons rk rest ih =>
      simp only [firstMatchAux] at h
      split at h
      · next hm =>
          simp at h
          exact h.1 ▸ matchLen_pos hm
      · exact ih h

theorem firstMatchAux_le {rs : List (RuleSpec × TokenState)} {s : List Char}
    {n : Nat} {k : TokenState} (h : firstMatchAux rs s = some (n, k)) : n ≤ s.length := by
  induction rs with
  | nil => simp [firstMatchAux] at h
  | cons rk rest ih =>
      simp only [firstMatchAux] at h
      split at h
      · next hm =>
          simp at h
          exact h.1 ▸ matchLen_le hm
      · exact ih h

theorem pyStrip_length_le (s : List Char) : (pyStrip s).length ≤ s.length := by
  unfold pyStrip
  have h1 : (s.dropWhile pyIsSpace).length ≤ s.length := length_dropWhile_le pyIsSpace s
  have h2 : ((s.dropWhile pyIsSpace).reverse.dropWhile pyIsSpace).length ≤
      (s.dropWhile pyIsSpace).reverse.length :=
    length_dropWhile_le _ _
  simp only [List.length_reverse] at h2 ⊢
  omega

/-- `Tokenizer.tokenize`'s main loop: while the string is nonempty, try
the rules in order; on a match emit a token for the matched prefix,
remove it, strip whitespace, and continue; if no rule matched, raise.
Each match removes at least one character, so fuel `s.length + 1` always
suffices (proved below). -/
def tokLoop (fuel : Nat) (line : Int) (s : List Char) : Except TokErr (List Token) :=
  match fuel with
  | 0 => .error .fuelOut
  | fuel + 1 =>
    match s with
    | [] => .ok []
    | c :: rest =>
        match firstMatch (c :: rest) with
        | none => .error .noMatch
        | some (n, k) =>
            match tokLoop fuel line (pyStrip ((c :: rest).drop n)) with
            | .error e => .error e
            | .ok toks => .ok (⟨line, .ts k, (c :: rest).take n⟩ :: toks)

/-- `Tokenizer.tokenize`: strip the input, then run the matching loop. -/
def tokenize (line : Int) (s : List Char) : Except TokErr (List Token) :=
  tokLoop (s.length + 1) line (pyStrip s)

/-- The FSM transition table built by `Parser._init_states` and the
`init_*_states` methods: one entry per `_add_state_rule` call (the
source registers 181 rules, one of which is a repeat of an identical
rule, and no two rules conflict); unset entries default to `ERROR`. -/
def fsmT (s : FSMState) (t : TokenState) : FSMState :=
  match s, t with
  | .INIT_START, .ERROR => .ERROR
  | .INIT_START, .STATEMENT => .STATEMENT_START
  | .INIT_START, .SEMICOLON => .STATEMENT_START
  | .INIT_START, .IF => .IF_START
  | .INIT_START, .WHILE => .WHILE_START
  | .INIT_START, .DO => .DO_WHILE_START
  | .INIT_START, .FOR => .FOR_START
  | .INIT_START, .FUNCTION => .FUNC_START
  | .STATEMENT_START, .STATEMENT => .STATEMENT_MID
  | .STATEMENT_MID, .STATEMENT => .STATEMENT_MID
  | .STATEMENT_MID, .SEMICOLON => .STATEMENT_END
  | .STATEMENT_START, .SEMICOLON => .STATEMENT_END
  | .STATEMENT_END, .STATEMENT => .STATEMENT_MID
  | .STATEMENT_END, .SEMICOLON => .STATEMENT_END
  | .WHILE_START, .PAREN_OPEN => .WHILE_PAREN_OPEN
  | .WHILE_PAREN_OPEN, .STATEMENT => .WHILE_PAREN_STATEMENT
  | .WHILE_PAREN_STATEMENT, .STATEMENT => .WHILE_PAREN_STATEMENT
  | .WHILE_PAREN_STATEMENT, .PAREN_CLOSE => .WHILE_PAREN_CLOSE
  | .WHILE_PAREN_STATEMENT, .DO => .WHILE_PAREN_CLOSE
  | .WHILE_PAREN_CLOSE, .BRACE_OPEN => .WHILE_BRACE_OPEN
  | .WHILE_PAREN_CLOSE, .SEMICOLON => .WHILE_END
  | .WHILE_PAREN_CLOSE, .STATEMENT => .WHILE_SINGLE_STATEMENT
  | .WHILE_PAREN_CLOSE, .IF => .WHILE_SINGLE_STATEMENT
  | .WHILE_PAREN_CLOSE, .WHILE => .WHILE_SINGLE_STATEMENT
  | .WHILE_PAREN_CLOSE, .DO => .WHILE_SINGLE_STATEMENT
  | .WHILE_PAREN_CLOSE, .FOR => .WHILE_SINGLE_STATEMENT
  | .WHILE_PAREN_CLOSE, .FUNCTION => .WHILE_SINGLE_STATEMENT
  | .WHILE_SINGLE_STATEMENT, .LAMBDA => .WHILE_END
  | .WHILE_BRACE_OPEN, .BRACE_CLOSE => .WHILE_END
  | .WHILE_BRACE_OPEN, .SEMICOLON => .WHILE_STATEMENT
  | .WHILE_BRACE_OPEN, .STATEMENT => .WHILE_STATEMENT
  | .WHILE_BRACE_OPEN, .IF => .WHILE_STATEMENT
  | .WHILE_BRACE_OPEN, .WHILE => .WHILE_STATEMENT
  | .WHILE_BRACE_OPEN, .DO => .WHILE_STATEMENT
  | .WHILE_BRACE_OPEN, .FOR => .WHILE_STATEMENT
  | .WHILE_BRACE_OPEN, .FUNCTION => .WHILE_STATEMENT
  | .WHILE_STATEMENT, .SEMICOLON => .WHILE_STATEMENT
  | .WHILE_STATEMENT, .STATEMENT => .WHILE_STATEMENT
  | .WHILE_STATEMENT, .IF => .WHILE_STATEMENT
  | .WHILE_STATEMENT, .WHILE => .WHILE_STATEMENT
  | .WHILE_STATEMENT, .DO => .WHILE_STATEMENT
  | .WHILE_STATEMENT, .FOR => .WHILE_STATEMENT
  | .WHILE_STATEMENT, .FUNCTION => .WHILE_STATEMENT
  | .WHILE_STATEMENT, .BRACE_CLOSE => .WHILE_END
  | .DO_WHILE_START, .BRACE_OPEN => .DO_WHILE_BRACE_OPEN
  | .DO_WHILE_BRACE_OPEN, .BRACE_CLOSE => .DO_WHILE_BRACE_CLOSE
  | .DO_WHILE_BRACE_OPEN, .SEMICOLON => .DO_WHILE_STATEMENT
  | .DO_WHILE_BRACE_OPEN, .STATEMENT => .DO_WHILE_STATEMENT
  | .DO_WHILE_BRACE_OPEN, .IF => .DO_WHILE_STATEMENT
  | .DO_WHILE_BRACE_OPEN, .WHILE => .DO_WHILE_STATEMENT
  | .DO_WHILE_BRACE_OPEN, .DO => .DO_WHILE_STATEMENT
  | .DO_WHILE_BRACE_OPEN, .FOR => .DO_WHILE_STATEMENT
  | .DO_WHILE_BRACE_OPEN, .FUNCTION => .DO_WHILE_STATEMENT
  | .DO_WHILE_STATEMENT, .SEMICOLON => .DO_WHILE_STATEMENT
  | .DO_WHILE_STATEMENT, .STATEMENT => .DO_WHILE_STATEMENT
  | .DO_WHILE_STATEMENT, .IF => .DO_WHILE_STATEMENT
  | .DO_WHILE_STATEMENT, .WHILE => .DO_WHILE_STATEMENT
  | .DO_WHILE_STATEMENT, .DO => .DO_WHILE_STATEMENT
  | .DO_WHILE_STATEMENT, .FOR => .DO_WHILE_STATEMENT
  | .DO_WHILE_STATEMENT, .FUNCTION => .DO_WHILE_STATEMENT
  | .DO_WHILE_STATEMENT, .BRACE_CLOSE => .DO_WHILE_BRACE_CLOSE
  | .DO_WHILE_BRACE_CLOSE, .WHILE => .DO_WHILE_KEYWORD
  | .DO_WHILE_KEYWORD, .PAREN_OPEN => .DO_WHILE_PAREN_OPEN
  | .DO_WHILE_PAREN_OPEN, .SEMICOLON => .DO_WHILE_PAREN_STATEMENT
  | .DO_WHILE_PAREN_OPEN, .STATEMENT => .DO_WHILE_PAREN_STATEMENT
  | .DO_WHILE_PAREN_STATEMENT, .SEMICOLON => .DO_WHILE_PAREN_STATEMENT
  | .DO_WHILE_PAREN_STATEMENT, .STATEMENT => .DO_WHILE_PAREN_STATEMENT
  | .DO_WHILE_PAREN_STATEMENT, .PAREN_CLOSE => .DO_WHILE_PAREN_CLOSE
  | .DO_WHILE_PAREN_CLOSE, .SEMICOLON => .DO_WHILE_END
  | .IF_START, .PAREN_OPEN => .IF_PAREN_OPEN
  | .IF_START, .SEMICOLON => .IF_THEN_END
  | .IF_PAREN_OPEN, .STATEMENT => .IF_PAREN_STATEMENT
  | .IF_PAREN_STATEMENT, .STATEMENT => .IF_PAREN_STATEMENT
  | .IF_PAREN_STATEMENT, .PAREN_CLOSE => .IF_PAREN_CLOSE
  | .IF_PAREN_CLOSE, .BRACE_OPEN => .IF_THEN_BRACE_OPEN
  | .IF_PAREN_CLOSE, .SEMICOLON => .IF_THEN_END
  | .IF_PAREN_CLOSE, .STATEMENT => .IF_THEN_SINGLE_STATEMENT
  | .IF_PAREN_CLOSE, .IF => .IF_THEN_SINGLE_STATEMENT
  | .IF_PAREN_CLOSE, .WHILE => .IF_THEN_SINGLE_STATEMENT
  | .IF_PAREN_CLOSE, .DO => .IF_THEN_SINGLE_STATEMENT
  | .IF_PAREN_CLOSE, .FOR => .IF_THEN_SINGLE_STATEMENT
  | .IF_PAREN_CLOSE, .FUNCTION => .IF_THEN_SINGLE_STATEMENT
  | .IF_THEN_SINGLE_STATEMENT, .ELSE => .IF_ELSE
  | .IF_THEN_BRACE_OPEN, .BRACE_CLOSE => .IF_THEN_END
  | .IF_THEN_BRACE_OPEN, .SEMICOLON => .IF_THEN_STATEMENT
  | .IF_THEN_BRACE_OPEN, .STATEMENT => .IF_THEN_STATEMENT
  | .IF_THEN_BRACE_OPEN, .IF => .IF_THEN_STATEMENT
  | .IF_THEN_BRACE_OPEN, .WHILE => .IF_THEN_STATEMENT
  | .IF_THEN_BRACE_OPEN, .DO => .IF_THEN_STATEMENT
  | .IF_THEN_BRACE_OPEN, .FOR => .IF_THEN_STATEMENT
  | .IF_THEN_BRACE_OPEN, .FUNCTION => .IF_THEN_STATEMENT
  | .IF_THEN_STATEMENT, .SEMICOLON => .IF_THEN_STATEMENT
  | .IF_THEN_STATEMENT, .STATEMENT => .IF_THEN_STATEMENT
  | .IF_THEN_STATEMENT, .IF => .IF_THEN_STATEMENT
  | .IF_THEN_STATEMENT, .WHILE => .IF_THEN_STATEMENT
  | .IF_THEN_STATEMENT, .DO => .IF_THEN_STATEMENT
  | .IF_THEN_STATEMENT, .FOR => .IF_THEN_STATEMENT
  | .IF_THEN_STATEMENT, .FUNCTION => .IF_THEN_STATEMENT
  | .IF_THEN_STATEMENT, .BRACE_CLOSE => .IF_THEN_END
  | .IF_ELSE, .IF => .ELSE_IF_STATEMENT
  | .ELSE_IF_STATEMENT, .LAMBDA => .ELSE_IF_END
  | .ELSE_IF_STATEMENT, .ELSE => .IF_ELSE
  | .IF_THEN_END, .ELSE => .IF_ELSE
  | .IF_ELSE, .SEMICOLON => .IF_ELSE_END
  | .IF_ELSE, .STATEMENT => .IF_ELSE_SINGLE_STATEMENT
  | .IF_ELSE, .WHILE => .IF_ELSE_SINGLE_STATEMENT
  | .IF_ELSE, .DO => .IF_ELSE_SINGLE_STATEMENT
  | .IF_ELSE, .FOR => .IF_ELSE_SINGLE_STATEMENT
  | .IF_ELSE, .FUNCTION => .IF_ELSE_SINGLE_STATEMENT
  | .IF_ELSE_SINGLE_STATEMENT, .LAMBDA => .IF_ELSE_END
  | .IF_ELSE, .BRACE_OPEN => .IF_ELSE_BRACE_OPEN
  | .IF_ELSE_BRACE_OPEN, .BRACE_CLOSE => .IF_ELSE_END
  | .IF_ELSE_BRACE_OPEN, .SEMICOLON => .IF_ELSE_STATEMENT
  | .IF_ELSE_BRACE_OPEN, .STATEMENT => .IF_ELSE_STATEMENT
  | .IF_ELSE_BRACE_OPEN, .IF => .IF_ELSE_STATEMENT
  | .IF_ELSE_BRACE_OPEN, .WHILE => .IF_ELSE_STATEMENT
  | .IF_ELSE_BRACE_OPEN, .DO => .IF_ELSE_STATEMENT
  | .IF_ELSE_BRACE_OPEN, .FOR => .IF_ELSE_STATEMENT
  | .IF_ELSE_BRACE_OPEN, .FUNCTION => .IF_ELSE_STATEMENT
  | .IF_ELSE_STATEMENT, .SEMICOLON => .IF_ELSE_STATEMENT
  | .IF_ELSE_STATEMENT, .STATEMENT => .IF_ELSE_STATEMENT
  | .IF_ELSE_STATEMENT, .IF => .IF_ELSE_STATEMENT
  | .IF_ELSE_STATEMENT, .WHILE => .IF_ELSE_STATEMENT
  | .IF_ELSE_STATEMENT, .DO => .IF_ELSE_STATEMENT
  | .IF_ELSE_STATEMENT, .FOR => .IF_ELSE_STATEMENT
  | .IF_ELSE_STATEMENT, .FUNCTION => .IF_ELSE_STATEMENT
  | .IF_ELSE_STATEMENT, .BRACE_CLOSE => .IF_ELSE_END
  | .FOR_START, .PAREN_OPEN => .FOR_PAREN_OPEN
  | .FOR_PAREN_OPEN, .SEMICOLON => .FOR_INIT_END
  | .FOR_PAREN_OPEN, .STATEMENT => .FOR_INIT
  | .FOR_INIT, .SEMICOLON => .FOR_INIT_END
  | .FOR_INIT_END, .SEMICOLON => .FOR_COND_END
  | .FOR_INIT_END, .STATEMENT => .FOR_COND
  | .FOR_COND, .SEMICOLON => .FOR_COND_END
  | .FOR_COND_END, .PAREN_CLOSE => .FOR_PAREN_CLOSE
  | .FOR_COND_END, .STATEMENT => .FOR_MODIFY
  | .FOR_MODIFY, .PAREN_CLOSE => .FOR_PAREN_CLOSE
  | .FOR_PAREN_CLOSE, .SEMICOLON => .FOR_END
  | .FOR_PAREN_CLOSE, .STATEMENT => .FOR_SINGLE_STATEMENT
  | .FOR_PAREN_CLOSE, .IF => .FOR_SINGLE_STATEMENT
  | .FOR_PAREN_CLOSE, .WHILE => .FOR_SINGLE_STATEMENT
  | .FOR_PAREN_CLOSE, .DO => .FOR_SINGLE_STATEMENT
  | .FOR_PAREN_CLOSE, .FOR => .FOR_SINGLE_STATEMENT
  | .FOR_PAREN_CLOSE, .FUNCTION => .FOR_SINGLE_STATEMENT
  | .FOR_SINGLE_STATEMENT, .LAMBDA => .FOR_END
  | .FOR_PAREN_CLOSE, .BRACE_OPEN => .FOR_BRACE_OPEN
  | .FOR_BRACE_OPEN, .BRACE_CLOSE => .FOR_END
  | .FOR_BRACE_OPEN, .SEMICOLON => .FOR_STATEMENT
  | .FOR_BRACE_OPEN, .STATEMENT => .FOR_STATEMENT
  | .FOR_BRACE_OPEN, .IF => .FOR_STATEMENT
  | .FOR_BRACE_OPEN, .WHILE => .FOR_STATEMENT
  | .FOR_BRACE_OPEN, .DO => .FOR_STATEMENT
  | .FOR_BRACE_OPEN, .FOR => .FOR_STATEMENT
  | .FOR_BRACE_OPEN, .FUNCTION => .FOR_STATEMENT
  | .FOR_STATEMENT, .SEMICOLON => .FOR_STATEMENT
  | .FOR_STATEMENT, .STATEMENT => .FOR_STATEMENT
  | .FOR_STATEMENT, .IF => .FOR_STATEMENT
  | .FOR_STATEMENT, .WHILE => .FOR_STATEMENT
  | .FOR_STATEMENT, .DO => .FOR_STATEMENT
  | .FOR_STATEMENT, .FOR => .FOR_STATEMENT
  | .FOR_STATEMENT, .FUNCTION => .FOR_STATEMENT
  | .FOR_STATEMENT, .BRACE_CLOSE => .FOR_END
  | .FUNC_START, .BRACE_OPEN => .FUNC_BRACE_OPEN
  | .FUNC_START, .SEMICOLON => .FUNC_END
  | .FUNC_BRACE_OPEN, .BRACE_CLOSE => .FUNC_END
  | .FUNC_BRACE_OPEN, .SEMICOLON => .FUNC_STATEMENT
  | .FUNC_BRACE_OPEN, .STATEMENT => .FUNC_STATEMENT
  | .FUNC_BRACE_OPEN, .IF => .FUNC_STATEMENT
  | .FUNC_BRACE_OPEN, .WHILE => .FUNC_STATEMENT
  | .FUNC_BRACE_OPEN, .DO => .FUNC_STATEMENT
  | .FUNC_BRACE_OPEN, .FOR => .FUNC_STATEMENT
  | .FUNC_BRACE_OPEN, .FUNCTION => .FUNC_STATEMENT
  | .FUNC_STATEMENT, .SEMICOLON => .FUNC_STATEMENT
  | .FUNC_STATEMENT, .STATEMENT => .FUNC_STATEMENT
  | .FUNC_STATEMENT, .IF => .FUNC_STATEMENT
  | .FUNC_STATEMENT, .WHILE => .FUNC_STATEMENT
  | .FUNC_STATEMENT, .DO => .FUNC_STATEMENT
  | .FUNC_STATEMENT, .FOR => .FUNC_STATEMENT
  | .FUNC_STATEMENT, .FUNCTION => .FUNC_STATEMENT
  | .FUNC_STATEMENT, .BRACE_CLOSE => .FUNC_END
  | _, _ => .ERROR

/-- The token-kind column that a token's `type` selects in the FSM
table.  Queue tokens always carry a `TokenState`; a placeholder token
carrying a `DecompStates` would select the `TokenState` column with the
same enum value (Python indexes the row by `input.value`). -/
def colTS : TokKind → TokenState
  | .ts k => k
  | .ds d => tsOfIdx d.idx

/-- `Parser._map_FSM_to_Decomp`.  The comparisons use the enum values in
declaration order; the repository's `cfg/enum.py` (class `OrderedEnum`,
not present under `src/`) is modelled as value-ordered comparison, the
standard ordered-enum recipe, which also matches the mapping table in
the specification.  States outside every range (ERROR, INIT_START) fall
through and yield `none` (Python returns `None`). -/
def mapFSMToDecomp (state : FSMState) : Option DecompStates :=
  if FSMState.STATEMENT_START.idx ≤ state.idx ∧ state.idx ≤ FSMState.STATEMENT_END.idx then
    some .P1
  else if FSMState.IF_START.idx ≤ state.idx ∧ state.idx ≤ FSMState.IF_ELSE_END.idx then
    if state = .IF_START then some .D0
    else if FSMState.IF_START.idx < state.idx ∧ state.idx ≤ FSMState.IF_THEN_END.idx then
      some .D0_END
    else if state = .IF_ELSE then some .D1
    else some .D1_END
  else if FSMState.WHILE_START.idx ≤ state.idx ∧ state.idx ≤ FSMState.WHILE_END.idx then
    if state = .WHILE_START then some .D2 else some .D2_END
  else if FSMState.DO_WHILE_START.idx ≤ state.idx ∧ state.idx ≤ FSMState.DO_WHILE_END.idx then
    if state = .DO_WHILE_START then some .D3 else some .D3_END
  else if FSMState.FOR_START.idx ≤ state.idx ∧ state.idx ≤ FSMState.FOR_END.idx then
    if FSMState.FOR_START.idx ≤ state.idx ∧ state.idx ≤ FSMState.FOR_INIT_END.idx then
      some .P1
    else if FSMState.FOR_COND.idx ≤ state.idx ∧ state.idx ≤ FSMState.FOR_COND_END.idx then
      some .D0
    else some .D0_END
  else if FSMState.FUNC_START.idx ≤ state.idx ∧ state.idx ≤ FSMState.FUNC_END.idx then
    if state = .FUNC_START then some .F1 else some .F1_END
  else none

/-- `Parser.is_fsm_start_state`. -/
def isFsmStartState (state : FSMState) : Bool :=
  state = .STATEMENT_START || state = .IF_START || state = .WHILE_START ||
  state = .DO_WHILE_START || state = .FOR_START || state = .FUNC_START

/- ### Nodes and the object heap (`cfg/node.py`) -/

/-- `Node` from `cfg/node.py`.  Adjacency lists hold heap indices
(Python object references); `val` is the node id, `type` the
decomposition kind (`None` until assigned). -/
structure PyNode where
  val : Int
  type : Option DecompStates
  tokens : List Token
  children : List Nat
  parents : List Nat
deriving DecidableEq

instance : Inhabited PyNode := ⟨⟨0, none, [], [], []⟩⟩

/-- `Node.__eq__`: same `val`, same `type`, tokens pairwise equal under
`Token.__eq__` (which, per `pyTokenEq`, ignores the sequences).  Object
identity (`self is o`) implies this predicate, so it models Python
equality on nodes exactly. -/
def pyNodeEq (a b : PyNode) : Bool :=
  a.val == b.val && a.type == b.type && a.tokens.length == b.tokens.length &&
    (List.zip a.tokens b.tokens).all fun p => pyTokenEq p.1 p.2

/-- The mutable state shared by `Parser` and `ControlFlowGraph`: the
object heap (all `Node` objects ever created, indexed by allocation
order), its size, and the master node list `self.nodes`. -/
structure PState where
  heap : Nat → PyNode
  hsize : Nat
  nodes : List Nat

/-- Dereference a node id. -/
def hget (st : PState) (i : Nat) : PyNode := st.heap i

/-- Overwrite the node stored at id `i`. -/
def hset (st : PState) (i : Nat) (n : PyNode) : PState :=
  { st with heap := fun j => if j = i then n else st.heap j }

/-- `Node(val)` with an optional initial token list: allocate a fresh
object; its id is the previous heap size. -/
def allocNode (st : PState) (val : Int) (toks : List Token) : PState × Nat :=
  ({ st with
      heap := fun j => if j = st.hsize then ⟨val, none, toks, [], []⟩ else st.heap j
      hsize := st.hsize + 1 }, st.hsize)

/-- `node.tokens.append(t)`. -/
def pushToken (st : PState) (i : Nat) (t : Token) : PState :=
  hset st i { hget st i with tokens := (hget st i).tokens ++ [t] }

/-- `node.children.append(c)`. -/
def pushChild (st : PState) (i c : Nat) : PState :=
  hset st i { hget st i with children := (hget st i).children ++ [c] }

/-- `node.parents.append(p)`. -/
def pushParent (st : PState) (i p : Nat) : PState :=
  hset st i { hget st i with parents := (hget st i).parents ++ [p] }

/-- `node.type = ty`. -/
def setType (st : PState) (i : Nat) (ty : Option DecompStates) : PState :=
  hset st i { hget st i with type := ty }

/-- `node.val = v`. -/
def setVal (st : PState) (i : Nat) (v : Int) : PState :=
  hset st i { hget st i with val := v }

/-- `self.nodes.append(node)`. -/
def appendNodeList (st : PState) (i : Nat) : PState :=
  { st with nodes := st.nodes ++ [i] }

/-- The empty parser state. -/
def emptyState : PState := ⟨fun _ => default, 0, []⟩

/-- Python exceptions that the embedded code can raise, plus the
`fuelOut` marker for exhausted fuel (no Python counterpart; theorems
about completed runs quantify over the fuel).  `typeError` is raised by
the diagnostic `print("..." + token)` expressions, which concatenate a
`str` with a non-`str`; `nameError` by the one diagnostic that reads
`peek_token` when the loop never bound it; `noneWalker` stands for the
`AttributeError` of using a `None` walker (unreachable from the call
sites, see the builder loops). -/
inductive PyErr where
  | typeError | valueError | indexError | nameError | attrError | noneWalker | fuelOut
deriving DecidableEq

/- ### The six sub-builders (`cfg/parser.py`) -/

mutual

/-- `Parser.build_tree`: dispatch on `T[INIT_START][peek.kind]`.  Every
call site passes `state=None`, so the state is always recomputed from
the peeked token.  Returns `none` (Python `None`) when the dispatch
state is not a start state, consuming nothing. -/
def buildTree (fuel : Nat) (st : PState) (root : Nat) (tokens : List Token) :
    Except PyErr (PState × List Token × Option Nat) :=
  match fuel with
  | 0 => .error .fuelOut
  | fuel + 1 =>
    match tokens with
    | [] => .error .indexError
    | peek :: _ =>
      let state := fsmT .INIT_START (colTS peek.type)
      if ¬ isFsmStartState state then .ok (st, tokens, none)
      else if state = .STATEMENT_START then
        match buildStatementTree fuel st root tokens with
        | .error e => .error e
        | .ok (st, tks, w) => .ok (st, tks, some w)
      else if state = .IF_START then
        match buildIfTree fuel st root tokens with
        | .error e => .error e
        | .ok (st, tks, w) => .ok (st, tks, some w)
      else if state = .WHILE_START then
        match buildWhileTree fuel st root tokens with
        | .error e => .error e
        | .ok (st, tks, w) => .ok (st, tks, some w)
      else if state = .DO_WHILE_START then
        match buildDoWhileTree fuel st root tokens with
        | .error e => .error e
        | .ok (st, tks, w) => .ok (st, tks, some w)
      else if state = .FOR_START then
        match buildForTree fuel st root tokens with
        | .error e => .error e
        | .ok (st, tks, w) => .ok (st, tks, some w)
      else if state = .FUNC_START then
        match buildFunctionTree fuel st root tokens with
        | .error e => .error e
        | .ok (st, tks, w) => .ok (st, tks, some w)
      else .ok (st, tokens, none)

termination_by structural fuel

/-- `Parser.build_statement_tree`.  The callers always pass a real node,
so the `if not root` guard is omitted.  If the popped token does not
dispatch to `STATEMENT_START` the walker is returned unchanged (minus
the consumed token).  If the walker is already a `P1` node the token is
appended to it (statement coalescing); otherwise a fresh `P1` child is
created. -/
def buildStatementTree (fuel : Nat) (st : PState) (root : Nat) (tokens : List Token) :
    Except PyErr (PState × List Token × Nat) :=
  match fuel with
  | 0 => .error .fuelOut
  | fuel + 1 =>
    match tokens with
    | [] => .error .indexError
    | token :: rest =>
      let state := fsmT .INIT_START (colTS token.type)
      if state ≠ .STATEMENT_START then .ok (st, rest, root)
      else if (hget st root).type ≠ some .P1 then
        let (st, sid) := allocNode st ((hget st root).val + 1) [token]
        let st := setType st sid (mapFSMToDecomp state)
        let st := pushParent st sid root
        let st := pushChild st root sid
        let st := appendNodeList st sid
        stmtLoop fuel st sid state rest
      else
        let st := pushToken st root token
        stmtLoop fuel st root state rest

/-- The `while tokens` loop of `build_statement_tree`: peek, look up the
transition, raise on `ERROR` (the diagnostic `print` concatenates a
string with the token and raises `TypeError`), otherwise consume the
token into the walker, stopping after `STATEMENT_END`. -/
def stmtLoop (fuel : Nat) (st : PState) (walker : Nat) (state : FSMState)
    (tokens : List Token) : Except PyErr (PState × List Token × Nat) :=
  match fuel with
  | 0 => .error .fuelOut
  | fuel + 1 =>
    match tokens with
    | [] => .ok (st, [], walker)
    | peek :: rest =>
      let ps := fsmT state (colTS peek.type)
      if ps = .ERROR then .error .typeError
      else
        let st := pushToken st walker peek
        if ps = .STATEMENT_END then .ok (st, rest, walker)
        else stmtLoop fuel st walker ps rest

termination_by structural fuel

/-- `Parser.build_if_tree`: pop the `if` token, create the `D0` start
node under the caller's walker, then run the loop and stitch the join
node. -/
def buildIfTree (fuel : Nat) (st : PState) (root : Nat) (tokens : List Token) :
    Except PyErr (PState × List Token × Nat) :=
  match fuel with
  | 0 => .error .fuelOut
  | fuel + 1 =>
    match tokens with
    | [] => .error .indexError
    | token :: rest =>
      let state := fsmT .INIT_START (colTS token.type)
      if state ≠ .IF_START then .ok (st, rest, root)
      else
        let (st, start) := allocNode st ((hget st root).val + 1) []
        let st := pushToken st start token
        let st := setType st start (mapFSMToDecomp state)
        let st := pushParent st start root
        let st := pushChild st root start
        let st := appendNodeList st start
        match ifLoop fuel st start start state rest [] false with
        | .error e => .error e
        | .ok (st, tks, walker, state, lastWalkers) =>
          match (hget st walker).tokens.getLast? with
          | none => .error .indexError
          | some lastTok =>
            let (st, endN) := allocNode st ((hget st walker).val + 1) []
            let st := pushToken st endN lastTok
            let st := setType st endN (mapFSMToDecomp state)
            let st := appendNodeList st endN
            let st :=
              if (hget st start).children.length < 2 then
                pushChild (pushParent st endN start) start endN
              else st
            let st := lastWalkers.foldl
              (fun st lw => pushChild (pushParent st endN lw) lw endN) st
            .ok (st, tks, endN)

termination_by structural fuel

/-- The loop of `build_if_tree`.  Returns the state needed by the
stitching code: remaining tokens, current walker, current FSM state and
the accumulated `last_walkers`. -/
def ifLoop (fuel : Nat) (st : PState) (start walker : Nat) (state : FSMState)
    (tokens : List Token) (lastWalkers : List Nat) (isSuccess : Bool) :
    Except PyErr (PState × List Token × Nat × FSMState × List Nat) :=
  match fuel with
  | 0 => .error .fuelOut
  | fuel + 1 =>
    match tokens with
    | [] => .ok (st, [], walker, state, lastWalkers)
    | peek :: rest =>
      let ps := fsmT state (colTS peek.type)
      if ps = .ERROR then
        if isSuccess then .ok (st, peek :: rest, walker, state, lastWalkers)
        else .error .typeError
      else if ps = .IF_THEN_SINGLE_STATEMENT ∨ ps = .ELSE_IF_STATEMENT ∨
          ps = .IF_ELSE_SINGLE_STATEMENT then
        match buildTree fuel st walker (peek :: rest) with
        | .error e => .error e
        | .ok (st, tks, w?) =>
          match w? with
          | none => .error .noneWalker
          | some w =>
            match (hget st w).tokens.getLast? with
            | none => .error .indexError
            | some lastTok =>
              let (st, lw) := allocNode st ((hget st w).val + 1) []
              let st := pushToken st lw lastTok
              let st := setType st lw (mapFSMToDecomp ps)
              let st := pushParent st lw w
              let st := pushChild st w lw
              let st := appendNodeList st lw
              ifLoop fuel st start lw ps tks (lastWalkers ++ [lw]) true
      else if ps = .IF_THEN_STATEMENT ∨ ps = .IF_ELSE_STATEMENT then
        match buildTree fuel st walker (peek :: rest) with
        | .error e => .error e
        | .ok (st, tks, w?) =>
          match w? with
          | none => .error .noneWalker
          | some w => ifLoop fuel st start w ps tks lastWalkers isSuccess
      else if ps = .IF_ELSE then
        let (st, newN) := allocNode st ((hget st walker).val + 1) []
        let st := pushToken st newN peek
        let st := pushParent st newN start
        let st := pushChild st start newN
        let st := appendNodeList st newN
        let st := setType st start (some .D1)
        ifLoop fuel st start newN ps rest lastWalkers isSuccess
      else if ps = .IF_THEN_END ∨ ps = .ELSE_IF_END ∨ ps = .IF_ELSE_END then
        let withEmpty : Except PyErr (PState × Nat) :=
          if state = .IF_THEN_BRACE_OPEN ∨ state = .IF_ELSE_BRACE_OPEN then
            match (hget st walker).tokens.getLast? with
            | none => .error .indexError
            | some lt =>
              let (st, emptyN) := allocNode st ((hget st walker).val + 1) []
              let st := pushToken st emptyN ⟨lt.line, .ds .P1, []⟩
              let st := setType st emptyN (some .P1)
              let st := pushParent st emptyN walker
              let st := pushChild st walker emptyN
              let st := appendNodeList st emptyN
              .ok (st, emptyN)
          else .ok (st, walker)
        match withEmpty with
        | .error e => .error e
        | .ok (st, walker) =>
          let (st, lw) := allocNode st ((hget st walker).val + 1) []
          let st := pushToken st lw peek
          let st := setType st lw (mapFSMToDecomp ps)
          let st := pushParent st lw walker
          let st := pushChild st walker lw
          let st := appendNodeList st lw
          ifLoop fuel st start lw ps rest (lastWalkers ++ [lw]) true
      else
        let st := pushToken st walker peek
        ifLoop fuel st start walker ps rest lastWalkers isSuccess

termination_by structural fuel

/-- `Parser.build_while_tree`. -/
def buildWhileTree (fuel : Nat) (st : PState) (root : Nat) (tokens : List Token) :
    Except PyErr (PState × List Token × Nat) :=
  match fuel with
  | 0 => .error .fuelOut
  | fuel + 1 =>
    match tokens with
    | [] => .error .indexError
    | token :: rest =>
      let state := fsmT .INIT_START (colTS token.type)
      if state ≠ .WHILE_START then .ok (st, rest, root)
      else
        let (st, start) := allocNode st ((hget st root).val + 1) []
        let st := pushToken st start token
        let st := setType st start (mapFSMToDecomp state)
        let st := pushParent st start root
        let st := pushChild st root start
        let st := appendNodeList st start
        match whileLoop fuel st start start state rest none false with
        | .error e => .error e
        | .ok (st, tks, walker, state, endNode?) =>
          let st := pushChild st walker start
          let st := pushParent st start walker
          let mkEnd : Except PyErr (PState × Nat) :=
            match endNode? with
            | some e => .ok (st, e)
            | none =>
              match (hget st walker).tokens.getLast? with
              | none => .error .indexError
              | some lastTok =>
                let (st, endN) := allocNode st ((hget st walker).val + 1) []
                let st := pushToken st endN lastTok
                let st := setType st endN (mapFSMToDecomp state)
                let st := appendNodeList st endN
                .ok (st, endN)
          match mkEnd with
          | .error e => .error e
          | .ok (st, endN) =>
            let st := pushParent st endN start
            let st := pushChild st start endN
            .ok (st, tks, endN)

termination_by structural fuel

/-- The loop of `build_while_tree`. -/
def whileLoop (fuel : Nat) (st : PState) (start walker : Nat) (state : FSMState)
    (tokens : List Token) (endNode? : Option Nat) (isSuccess : Bool) :
    Except PyErr (PState × List Token × Nat × FSMState × Option Nat) :=
  match fuel with
  | 0 => .error .fuelOut
  | fuel + 1 =>
    match tokens with
    | [] => .ok (st, [], walker, state, endNode?)
    | peek :: rest =>
      let ps := fsmT state (colTS peek.type)
      if ps = .ERROR then
        if isSuccess then .ok (st, peek :: rest, walker, state, endNode?)
        else .error .typeError
      else if ps = .WHILE_STATEMENT ∨ ps = .WHILE_SINGLE_STATEMENT then
        match buildTree fuel st walker (peek :: rest) with
        | .error e => .error e
        | .ok (st, tks, w?) =>
          match w? with
          | none => .error .noneWalker
          | some w =>
            if ps = .WHILE_SINGLE_STATEMENT then
              .ok (st, tks, w, state, endNode?)
            else whileLoop fuel st start w ps tks endNode? isSuccess
      else if ps = .WHILE_END then
        let withEmpty : Except PyErr (PState × Nat) :=
          if state = .WHILE_BRACE_OPEN then
            match (hget st walker).tokens.getLast? with
            | none => .error .indexError
            | some lt =>
              let (st, emptyN) := allocNode st ((hget st walker).val + 1) []
              let st := pushToken st emptyN ⟨lt.line, .ds .P1, []⟩
              let st := setType st emptyN (some .P1)
              let st := pushParent st emptyN walker
              let st := pushChild st walker emptyN
              let st := appendNodeList st emptyN
              .ok (st, emptyN)
          else .ok (st, walker)
        match withEmpty with
        | .error e => .error e
        | .ok (st, walker) =>
          let (st, endN) := allocNode st ((hget st walker).val + 1) []
          let st := pushToken st endN peek
          let st := setType st endN (mapFSMToDecomp ps)
          let st := appendNodeList st endN
          whileLoop fuel st start walker ps rest (some endN) true
      else
        let st := pushToken st walker peek
        whileLoop fuel st start walker ps rest endNode? isSuccess

termination_by structural fuel

/-- `Parser.build_do_while_tree`. -/
def buildDoWhileTree (fuel : Nat) (st : PState) (root : Nat) (tokens : List Token) :
    Except PyErr (PState × List Token × Nat) :=
  match fuel with
  | 0 => .error .fuelOut
  | fuel + 1 =>
    match tokens with
    | [] => .error .indexError
    | token :: rest =>
      let state := fsmT .INIT_START (colTS token.type)
      if state ≠ .DO_WHILE_START then .ok (st, rest, root)
      else
        let (st, start) := allocNode st ((hget st root).val + 1) []
        let st := pushToken st start token
        let st := setType st start (mapFSMToDecomp state)
        let st := pushParent st start root
        let st := pushChild st root start
        let st := appendNodeList st start
        match doLoop fuel st start start state rest none false with
        | .error e => .error e
        | .ok (st, tks, walker, state, endNode?) =>
          match endNode? with
          | none => .error .typeError
          | some endN =>
            if endN = start ∨ pyNodeEq (hget st endN) (hget st start) then
              .error .typeError
            else
              let st := setType st endN (mapFSMToDecomp state)
              let st := pushChild st endN start
              let st := pushParent st start endN
              .ok (st, tks, endN)

termination_by structural fuel

/-- The loop of `build_do_while_tree`. -/
def doLoop (fuel : Nat) (st : PState) (start walker : Nat) (state : FSMState)
    (tokens : List Token) (endNode? : Option Nat) (isSuccess : Bool) :
    Except PyErr (PState × List Token × Nat × FSMState × Option Nat) :=
  match fuel with
  | 0 => .error .fuelOut
  | fuel + 1 =>
    match tokens with
    | [] => .ok (st, [], walker, state, endNode?)
    | peek :: rest =>
      let ps := fsmT state (colTS peek.type)
      if ps = .ERROR then
        if isSuccess then .ok (st, peek :: rest, walker, state, endNode?)
        else .error .typeError
      else if ps = .DO_WHILE_STATEMENT then
        match buildTree fuel st walker (peek :: rest) with
        | .error e => .error e
        | .ok (st, tks, w?) =>
          match w? with
          | none => .error .noneWalker
          | some w => doLoop fuel st start w ps tks endNode? isSuccess
      else if ps = .DO_WHILE_END then
        let st := pushToken st walker peek
        .ok (st, rest, walker, state, some walker)
      else if ps = .DO_WHILE_BRACE_CLOSE ∧ state = .DO_WHILE_BRACE_OPEN then
        let (st, emptyN) := allocNode st ((hget st walker).val + 1) []
        let st := pushToken st emptyN peek
        let st := setType st emptyN (some .P1)
        let st := pushParent st emptyN walker
        let st := pushChild st walker emptyN
        let st := appendNodeList st emptyN
        doLoop fuel st start emptyN ps rest endNode? isSuccess
      else if ps = .DO_WHILE_KEYWORD then
        let (st, newN) := allocNode st ((hget st walker).val + 1) []
        let st := pushToken st newN peek
        let st := pushParent st newN walker
        let st := pushChild st walker newN
        let st := appendNodeList st newN
        doLoop fuel st start newN ps rest endNode? isSuccess
      else
        let st := pushToken st walker peek
        doLoop fuel st start walker ps rest endNode? isSuccess

termination_by structural fuel

/-- `Parser.build_for_tree`. -/
def buildForTree (fuel : Nat) (st : PState) (root : Nat) (tokens : List Token) :
    Except PyErr (PState × List Token × Nat) :=
  match fuel with
  | 0 => .error .fuelOut
  | fuel + 1 =>
    match tokens with
    | [] => .error .indexError
    | token :: rest =>
      let state := fsmT .INIT_START (colTS token.type)
      if state ≠ .FOR_START then .ok (st, rest, root)
      else
        let (st, start) := allocNode st ((hget st root).val + 1) []
        let st := pushToken st start token
        let st := setType st start (mapFSMToDecomp state)
        let st := pushParent st start root
        let st := pushChild st root start
        let st := appendNodeList st start
        match forLoop fuel st start start state rest none none none none false with
        | .error e => .error e
        | .ok (st, tks, walker, state, endNode?, forCond?, forModify?, fblw?) =>
          match forCond?, forModify? with
          | none, _ => .error .typeError
          | _, none => .error .typeError
          | some forCond, some forModify =>
            let mkEnd : Except PyErr (PState × Nat) :=
              match endNode? with
              | some e => .ok (st, e)
              | none =>
                match (hget st walker).tokens.getLast? with
                | none => .error .indexError
                | some lastTok =>
                  let (st, endN) := allocNode st ((hget st walker).val + 1) []
                  let st := pushToken st endN lastTok
                  let st := setType st endN (mapFSMToDecomp state)
                  let st := appendNodeList st endN
                  .ok (st, endN)
            match mkEnd with
            | .error e => .error e
            | .ok (st, endN) =>
              let st := pushChild st forCond endN
              let st := pushParent st endN forCond
              let st :=
                match fblw? with
                | some fblw => pushParent (pushChild st fblw forModify) forModify fblw
                | none => pushParent (pushChild st forCond forModify) forModify forCond
              .ok (st, tks, endN)

termination_by structural fuel

/-- The loop of `build_for_tree`.  Alongside the walker it threads the
three distinguished sub-nodes `for_cond`, `for_modify` and
`for_body_last_walker`. -/
def forLoop (fuel : Nat) (st : PState) (start walker : Nat) (state : FSMState)
    (tokens : List Token) (endNode? forCond? forModify? fblw? : Option Nat)
    (isSuccess : Bool) :
    Except PyErr (PState × List Token × Nat × FSMState × Option Nat × Option Nat ×
      Option Nat × Option Nat) :=
  match fuel with
  | 0 => .error .fuelOut
  | fuel + 1 =>
    match tokens with
    | [] => .ok (st, [], walker, state, endNode?, forCond?, forModify?, fblw?)
    | peek :: rest =>
      let ps := fsmT state (colTS peek.type)
      if ps = .ERROR then
        if isSuccess then .ok (st, peek :: rest, walker, state, endNode?, forCond?, forModify?, fblw?)
        else .error .typeError
      else if ps = .FOR_COND ∨ ps = .FOR_COND_END then
        match forCond? with
        | none =>
          let (st, fc) := allocNode st ((hget st walker).val + 1) []
          let st := pushToken st fc peek
          let st := setType st fc (mapFSMToDecomp ps)
          let st := pushParent st fc start
          let st := pushChild st start fc
          let st := appendNodeList st fc
          forLoop fuel st start fc ps rest endNode? (some fc) forModify? fblw? isSuccess
        | some _ =>
          let st := pushToken st walker peek
          forLoop fuel st start walker ps rest endNode? forCond? forModify? fblw? isSuccess
      else if ps = .FOR_MODIFY ∨ ps = .FOR_PAREN_CLOSE then
        match forModify? with
        | none =>
          match forCond? with
          | none => .error .attrError
          | some fc =>
            let (st, fm) := allocNode st ((hget st walker).val + 1) []
            let st := pushToken st fm peek
            let st := pushChild st fm fc
            let st := pushParent st fc fm
            let st := appendNodeList st fm
            forLoop fuel st start fm ps rest endNode? forCond? (some fm) fblw? isSuccess
        | some _ =>
          let st := pushToken st walker peek
          forLoop fuel st start walker ps rest endNode? forCond? forModify? fblw? isSuccess
      else if ps = .FOR_STATEMENT ∨ ps = .FOR_SINGLE_STATEMENT then
        match forCond? with
        | none => .error .attrError
        | some fc =>
          let oldVal := (hget st fc).val
          let st := setVal st fc (hget st walker).val
          match buildTree fuel st fc (peek :: rest) with
          | .error e => .error e
          | .ok (st, tks, w?) =>
            match w? with
            | none => .error .noneWalker
            | some w =>
              let st := setVal st fc oldVal
              if ps = .FOR_SINGLE_STATEMENT then
                .ok (st, tks, w, state, endNode?, forCond?, forModify?, some w)
              else forLoop fuel st start w ps tks endNode? forCond? forModify? (some w) isSuccess
      else if ps = .FOR_END then
        let withEmpty : Except PyErr (PState × Nat × Option Nat) :=
          if state = .FOR_BRACE_OPEN then
            match forCond? with
            | none => .error .attrError
            | some fc =>
              match (hget st walker).tokens.getLast? with
              | none => .error .indexError
              | some lt =>
                let (st, emptyN) := allocNode st ((hget st walker).val + 1) []
                let st := pushToken st emptyN ⟨lt.line, .ds .P1, []⟩
                let st := setType st emptyN (some .P1)
                let st := pushParent st emptyN fc
                let st := pushChild st fc emptyN
                let st := appendNodeList st emptyN
                .ok (st, emptyN, some emptyN)
          else .ok (st, walker, fblw?)
        match withEmpty with
        | .error e => .error e
        | .ok (st, walker, fblw?) =>
          let (st, endN) := allocNode st ((hget st walker).val + 1) []
          let st := pushToken st endN peek
          let st := setType st endN (mapFSMToDecomp ps)
          let st := appendNodeList st endN
          .ok (st, rest, walker, state, some endN, forCond?, forModify?, fblw?)
      else
        let st := pushToken st walker peek
        forLoop fuel st start walker ps rest endNode? forCond? forModify? fblw? isSuccess

termination_by structural fuel

/-- `Parser.build_function_tree`. -/
def buildFunctionTree (fuel : Nat) (st : PState) (root : Nat) (tokens : List Token) :
    Except PyErr (PState × List Token × Nat) :=
  match fuel with
  | 0 => .error .fuelOut
  | fuel + 1 =>
    match tokens with
    | [] => .error .indexError
    | token :: rest =>
      let state := fsmT .INIT_START (colTS token.type)
      if state ≠ .FUNC_START then .ok (st, rest, root)
      else
        let (st, start) := allocNode st ((hget st root).val + 1) []
        let st := pushToken st start token
        let st := setType st start (mapFSMToDecomp state)
        let st := pushParent st start root
        let st := pushChild st root start
        let st := appendNodeList st start
        match funcLoop fuel st start start state rest none false false with
        | .error e => .error e
        | .ok (st, tks, _walker, _state, endNode?, peeked) =>
          match endNode? with
          | none => if peeked then .error .typeError else .error .nameError
          | some endN => .ok (st, tks, endN)

termination_by structural fuel

/-- The loop of `build_function_tree`.  The final component records
whether `peek_token` was ever bound (the after-loop diagnostic reads it
and raises `NameError` when the loop never ran). -/
def funcLoop (fuel : Nat) (st : PState) (start walker : Nat) (state : FSMState)
    (tokens : List Token) (endNode? : Option Nat) (isSuccess peeked : Bool) :
    Except PyErr (PState × List Token × Nat × FSMState × Option Nat × Bool) :=
  match fuel with
  | 0 => .error .fuelOut
  | fuel + 1 =>
    match tokens with
    | [] => .ok (st, [], walker, state, endNode?, peeked)
    | peek :: rest =>
      let ps := fsmT state (colTS peek.type)
      if ps = .ERROR then
        if isSuccess then .ok (st, peek :: rest, walker, state, endNode?, true)
        else .error .typeError
      else if ps = .FUNC_STATEMENT then
        match buildTree fuel st walker (peek :: rest) with
        | .error e => .error e
        | .ok (st, tks, w?) =>
          match w? with
          | none => .error .noneWalker
          | some w => funcLoop fuel st start w ps tks endNode? isSuccess true
      else if ps = .FUNC_END then
        let withEmpty : Except PyErr (PState × Nat) :=
          if state = .FUNC_BRACE_OPEN then
            match (hget st walker).tokens.getLast? with
            | none => .error .indexError
            | some lt =>
              let (st, emptyN) := allocNode st ((hget st walker).val + 1) []
              let st := pushToken st emptyN ⟨lt.line, .ds .P1, []⟩
              let st := setType st emptyN (some .P1)
              let st := pushParent st emptyN walker
              let st := pushChild st walker emptyN
              let st := appendNodeList st emptyN
              .ok (st, emptyN)
          else .ok (st, walker)
        match withEmpty with
        | .error e => .error e
        | .ok (st, walker) =>
          if peek.type == .ts .SEMICOLON then
            let st := setType st start (some .P1)
            let st := pushToken st start peek
            .ok (st, rest, walker, state, some start, true)
          else
            let (st, endN) := allocNode st ((hget st walker).val + 1) []
            let st := pushToken st endN peek
            let st := setType st endN (mapFSMToDecomp ps)
            let st := pushParent st endN walker
            let st := pushChild st walker endN
            let st := appendNodeList st endN
            .ok (st, rest, walker, state, some endN, true)
      else
        let st := pushToken st walker peek
        funcLoop fuel st start walker ps rest endNode? isSuccess true

termination_by structural fuel

end

/- ### Top-level parsing (`Parser.parse_tokens`, `Parser.parse`) -/

/-- The `while tokens` loop of `Parser.parse_tokens`: dispatch
`build_tree` from the current walker; adopt the returned node as the new
walker when one was returned; if the head of the queue still compares
equal (under `Token.__eq__`) to the token peeked before the call, drop
it. -/
def ptLoop (fuel : Nat) (st : PState) (walker : Nat) (tokens : List Token) :
    Except PyErr PState :=
  match fuel with
  | 0 => .error .fuelOut
  | fuel + 1 =>
    match tokens with
    | [] => .ok st
    | peek :: _ =>
      match buildTree fuel st walker tokens with
      | .error e => .error e
      | .ok (st, tokens2, w?) =>
        let walker := match w? with
          | some w => w
          | none => walker
        let tokens3 := match tokens2 with
          | [] => tokens2
          | t0 :: trest => if pyTokenEq peek t0 then trest else tokens2
        ptLoop fuel st walker tokens3

/-- `Parser.parse_tokens`: create the synthetic root `Node(-1)` (never
put on the master list), drain the queue, then detach the root's first
child from it (`parents.pop(0)`) and return that child. -/
def parseTokens (fuel : Nat) (st : PState) (tokens : List Token) :
    Except PyErr (PState × Nat) :=
  let (st, froot) := allocNode st (-1) []
  match ptLoop fuel st froot tokens with
  | .error e => .error e
  | .ok st =>
    match (hget st froot).children with
    | [] => .ok (st, froot)
    | c0 :: _ =>
      let st :=
        match h : (hget st c0).parents with
        | [] => st
        | _ :: ps => hset st c0 { hget st c0 with parents := ps }
      .ok (st, c0)

/-- Tokenize the buffered strings in order, line numbers starting at 1,
concatenating the token lists (`Parser.parse`, first half). -/
def tokenizeAll : List (List Char) → Nat → Except TokErr (List Token)
  | [], _ => .ok []
  | s :: rest, i =>
    match tokenize (Int.ofNat (i + 1)) s with
    | .error e => .error e
    | .ok toks =>
      match tokenizeAll rest (i + 1) with
      | .error e => .error e
      | .ok more => .ok (toks ++ more)

/-- `Parser.parse`: tokenize every buffered string, then parse the token
queue.  A `TokenizerError` is caught and printed, leaving the parser
with an empty node list (the queue is only extended after each line
tokenizes completely, and `parse_tokens` is never reached). -/
def parserParse (fuel : Nat) (strs : List (List Char)) : Except PyErr PState :=
  match tokenizeAll strs 0 with
  | .error .noMatch => .ok emptyState
  | .error .fuelOut => .error .fuelOut
  | .ok toks =>
    match parseTokens fuel emptyState toks with
    | .error e => .error e
    | .ok (st, _) => .ok st

/- ### Node minimisation (`ControlFlowGraph.minimize_nodes`) -/

/-- The merge key of a node: `f"T:{type} L:{line}"` where the line part
is the first token's line, or the string `"-1"` for a token-less node —
so a node with no tokens collides with a node whose first token is on
line `-1`, exactly as the formatted string does. -/
def nodeKey (st : PState) (i : Nat) : Option DecompStates × Int :=
  ((hget st i).type,
    match (hget st i).tokens with
    | [] => -1
    | t :: _ => t.line)

/-- Append `i` to the group of key `k`, creating the group at the end on
first occurrence (`defaultdict` insertion order). -/
def addToGroups (gs : List ((Option DecompStates × Int) × List Nat))
    (k : Option DecompStates × Int) (i : Nat) :
    List ((Option DecompStates × Int) × List Nat) :=
  match gs with
  | [] => [(k, [i])]
  | (k', l) :: rest =>
      if k' = k then (k', l ++ [i]) :: rest else (k', l) :: addToGroups rest k i

/-- Group the node list by merge key, preserving both insertion orders. -/
def buildGroups (st : PState) (ids : List Nat) :
    List ((Option DecompStates × Int) × List Nat) :=
  ids.foldl (fun gs i => addToGroups gs (nodeKey st i) i) []

/-- Python `list.remove(x)` on a list of node references: drop the first
element equal to `x` under `Node.__eq__`; raise `ValueError` if there is
none. -/
def pyListRemove (st : PState) (l : List Nat) (x : Nat) : Except PyErr (List Nat) :=
  match l with
  | [] => .error .valueError
  | y :: rest =>
      if pyNodeEq (hget st y) (hget st x) then .ok rest
      else
        match pyListRemove st rest x with
        | .error e => .error e
        | .ok rest2 => .ok (y :: rest2)

/-- Python `x in d` for the `root_parents` / `root_children` dicts: the
dict is keyed by nodes (`__hash__` is `val`), so membership is
existence of a stored key equal to `x` under `Node.__eq__`. -/
def containsEq (st : PState) (keys : List Nat) (x : Nat) : Bool :=
  keys.any fun k => pyNodeEq (hget st k) (hget st x)

/-- The `for parent in node.parents` loop of `minimize_nodes`, iterated
by index over the current list (the list can grow while it is being
iterated when `node` is the cluster root itself, hence the fuel):
re-link each parent that is not the root and not already a parent of the
root, and remove `node` from that parent's children. -/
def mergeParentsLoop (fuel : Nat) (st : PState) (root node : Nat)
    (rpSnap : List Nat) (i : Nat) : Except PyErr PState :=
  match fuel with
  | 0 => .error .fuelOut
  | fuel + 1 =>
    match (hget st node).parents.get? i with
    | none => .ok st
    | some parent =>
      if parent ≠ root ∧ ¬ containsEq st rpSnap parent then
        let st := pushParent st root parent
        let st := pushChild st parent root
        match pyListRemove st (hget st parent).children node with
        | .error e => .error e
        | .ok cs =>
          let st := hset st parent { hget st parent with children := cs }
          mergeParentsLoop fuel st root node rpSnap (i + 1)
      else mergeParentsLoop fuel st root node rpSnap (i + 1)

/-- The symmetric `for child in node.children` loop. -/
def mergeChildrenLoop (fuel : Nat) (st : PState) (root node : Nat)
    (rcSnap : List Nat) (i : Nat) : Except PyErr PState :=
  match fuel with
  | 0 => .error .fuelOut
  | fuel + 1 =>
    match (hget st node).children.get? i with
    | none => .ok st
    | some child =>
      if child ≠ root ∧ ¬ containsEq st rcSnap child then
        let st := pushChild st root child
        let st := pushParent st child root
        match pyListRemove st (hget st child).parents node with
        | .error e => .error e
        | .ok ps =>
          let st := hset st child { hget st child with parents := ps }
          mergeChildrenLoop fuel st root node rcSnap (i + 1)
      else mergeChildrenLoop fuel st root node rcSnap (i + 1)

/-- Merge one non-root cluster member into the root: run the two re-link
loops, then remove the member from the master list and from
`root.children` (both removals raise `ValueError` when no equal element
is present). -/
def processMember (fuel : Nat) (st : PState) (root : Nat)
    (rpSnap rcSnap : List Nat) (node : Nat) : Except PyErr PState :=
  match mergeParentsLoop fuel st root node rpSnap 0 with
  | .error e => .error e
  | .ok st =>
    match mergeChildrenLoop fuel st root node rcSnap 0 with
    | .error e => .error e
    | .ok st =>
      match pyListRemove st st.nodes node with
      | .error e => .error e
      | .ok ns =>
        let st := { st with nodes := ns }
        match pyListRemove st (hget st root).children node with
        | .error e => .error e
        | .ok cs => .ok (hset st root { hget st root with children := cs })

/-- Merge every non-root member of a cluster, in order. -/
def processMembers (fuel : Nat) (st : PState) (root : Nat)
    (rpSnap rcSnap : List Nat) : List Nat → Except PyErr PState
  | [] => .ok st
  | node :: rest =>
    match processMember fuel st root rpSnap rcSnap node with
    | .error e => .error e
    | .ok st => processMembers fuel st root rpSnap rcSnap rest

/-- Process the clusters in key-insertion order; clusters of fewer than
two nodes are skipped.  The `root_parents` / `root_children` dicts are
snapshots of the root's adjacency taken before any member is merged. -/
def processGroups (fuel : Nat) (st : PState) :
    List ((Option DecompStates × Int) × List Nat) → Except PyErr PState
  | [] => .ok st
  | (_, mems) :: rest =>
    if mems.length < 2 then processGroups fuel st rest
    else
      match mems with
      | [] => processGroups fuel st rest
      | root :: tail =>
        match processMembers fuel st root (hget st root).parents
            (hget st root).children tail with
        | .error e => .error e
        | .ok st => processGroups fuel st rest

/-- `ControlFlowGraph.minimize_nodes`. -/
def minimizeNodes (fuel : Nat) (st : PState) : Except PyErr PState :=
  processGroups fuel st (buildGroups st st.nodes)

/-- `ControlFlowGraph.get_edges_from_nodes`. -/
def getEdges (st : PState) : List (Nat × Nat) :=
  st.nodes.foldl (fun acc n => acc ++ (hget st n).children.map fun c => (n, c)) []

/-- `ControlFlowGraph.parse`: parse the buffered lines, minimise the
node list, and extract the edges (returned here with the final state;
`self.nodes` is the state's node list). -/
def cfgParse (fuel : Nat) (strs : List (List Char)) :
    Except PyErr (PState × List (Nat × Nat)) :=
  match parserParse fuel strs with
  | .error e => .error e
  | .ok st =>
    match minimizeNodes fuel st with
    | .error e => .error e
    | .ok st => .ok (st, getEdges st)

/- ### Claim theorems -/

/-- C1: for the single input line `if (c) { a; }`, after `parse()` the
final CFG has exactly 3 nodes — a `D0` head, a `P1` body and a `D0_END`
join, in that order on the node list — and exactly the 3 edges
`D0→P1`, `P1→D0_END`, `D0→D0_END` (listed here by the kinds of their
endpoints, which are pairwise distinct). -/
theorem claim_C1_if_single_line :
    (cfgParse 100 ["if (c) \x7b a; \x7d".data]).map
      (fun r => (r.1.nodes.map fun i => (hget r.1 i).type,
                 r.2.map fun e => ((hget r.1 e.1).type, (hget r.1 e.2).type))) =
    .ok ([some .D0, some .P1, some .D0_END],
         [(some .D0, some .P1), (some .D0, some .D0_END), (some .P1, some .D0_END)]) := by
  rfl

/-- C2 (code bug): the input `x (` drives `build_statement_tree` into an
`ERROR` transition (`T[STATEMENT_START][PAREN_OPEN]` is unset); the
diagnostic line `print("Error parsing token grammar for " + peek_token)`
concatenates a `str` with a `Token` and therefore raises `TypeError`, so
`parse()` raises instead of printing a diagnostic and returning the
partial CFG. -/
theorem claim_C2_grammar_error_raises :
    cfgParse 100 ["x (".data] = .error .typeError := by
  rfl

/-- C5 (code bug): `Token.__eq__` compares `self.sequence` with itself,
so two tokens that agree on line and kind but have different sequences
nevertheless compare equal, contradicting equality by
`(line, kind, sequence)`. -/
theorem claim_C5_token_eq_ignores_sequence :
    pyTokenEq ⟨1, .ts .STATEMENT, ['a']⟩ ⟨1, .ts .STATEMENT, ['b']⟩ = true := by
  rfl

/-- C8 counterexample: for the input `x = 1;` the single final node
holds 2 tokens (the statement fragment `x = 1` is one `STATEMENT` token,
the `;` the second), not 3 as claimed. -/
theorem claim_C8_counterexample :
    (cfgParse 100 ["x = 1;".data]).map
        (fun r => r.1.nodes.map fun i => (hget r.1 i).tokens.length) = .ok [2] ∧
    ¬ (cfgParse 100 ["x = 1;".data]).map
        (fun r => r.1.nodes.map fun i => (hget r.1 i).tokens.length) = .ok [3] := by
  refine ⟨rfl, fun h => ?_⟩
  have h2 : (Except.ok [2] : Except PyErr (List Nat)) = Except.ok [3] :=
    Eq.trans (Eq.symm (by rfl)) h
  simp at h2

/-- C8 amended: for the single input line `x = 1;`, after `parse()` the
final CFG has exactly 1 node, of kind `P1`, holding exactly 2 tokens,
and the edge list is empty. -/
theorem claim_C8_amended_statement_node :
    (cfgParse 100 ["x = 1;".data]).map
      (fun r => (r.1.nodes.map fun i => ((hget r.1 i).type, (hget r.1 i).tokens.length),
                 r.2)) =
    .ok ([(some .P1, 2)], []) := by
  rfl

/- ### Tokenizer totality (C9) -/

theorem firstMatchAux_eq_none {rs : List (RuleSpec × TokenState)} {s : List Char}
    (h : firstMatchAux rs s = none) :
    ∀ r k, (r, k) ∈ rs → matchLen r s = none := by
  induction rs with
  | nil => intro r k hm; simp at hm
  | cons rk rest ih =>
      obtain ⟨r', k'⟩ := rk
      intro r k hm
      simp only [firstMatchAux] at h
      split at h
      · simp at h
      · next hml =>
          rcases List.mem_cons.mp hm with heq | hmem
          · injection heq with h1 h2
            subst h1
            exact hml
          · exact ih h r k hmem

/-- For a nonempty string some tokenizer rule always matches: a leading
delimiter is matched by its literal rule, anything else by the
`STATEMENT` fallback. -/
theorem firstMatch_total (c : Char) (rest : List Char) :
    firstMatch (c :: rest) ≠ none := by
  intro h
  have hall := firstMatchAux_eq_none h
  by_cases hd : isDelim c = true
  · have hc : c = '(' ∨ c = ')' ∨ c = ';' ∨ c = '\x7b' ∨ c = '\x7d' := by
      simp only [isDelim, Bool.or_eq_true, decide_eq_true_eq] at hd
      tauto
    rcases hc with hc | hc | hc | hc | hc
    · have := hall (.lit '(') .PAREN_OPEN (by simp [tokenInfos])
      simp [matchLen, hc] at this
    · have := hall (.lit ')') .PAREN_CLOSE (by simp [tokenInfos])
      simp [matchLen, hc] at this
    · have := hall (.lit ';') .SEMICOLON (by simp [tokenInfos])
      simp [matchLen, hc] at this
    · have := hall (.lit '\x7b') .BRACE_OPEN (by simp [tokenInfos])
      simp [matchLen, hc] at this
    · have := hall (.lit '\x7d') .BRACE_CLOSE (by simp [tokenInfos])
      simp [matchLen, hc] at this
  · have hstmt := hall .stmt .STATEMENT (by simp [tokenInfos])
    have hc' : (!isDelim c) = true := by
      simp only [Bool.not_eq_true] at hd
      simp [hd]
    simp only [matchLen, countWhile, hc', if_true] at hstmt
    split at hstmt
    · next h0 => omega
    · simp at hstmt

/-- The tokenize loop completes (no `fuelOut`, no `noMatch`) whenever the
fuel exceeds the string length. -/
theorem tokLoop_ok (fuel : Nat) (line : Int) (s : List Char) (hf : s.length < fuel) :
    ∃ toks, tokLoop fuel line s = .ok toks := by
  induction fuel generalizing s with
  | zero => omega
  | succ fuel ih =>
      match s with
      | [] => exact ⟨[], rfl⟩
      | c :: rest =>
          cases hm : firstMatch (c :: rest) with
          | none => exact absurd hm (firstMatch_total c rest)
          | some nk =>
              obtain ⟨n, k⟩ := nk
              have hpos : 0 < n := firstMatchAux_pos hm
              have hlen : (pyStrip ((c :: rest).drop n)).length < fuel := by
                have h1 := pyStrip_length_le ((c :: rest).drop n)
                have h2 : ((c :: rest).drop n).length = (c :: rest).length - n := by
                  simp [List.length_drop]
                simp only [List.length_cons] at h2 hf
                omega
              obtain ⟨toks, htoks⟩ := ih (pyStrip ((c :: rest).drop n)) hlen
              refine ⟨⟨line, .ts k, (c :: rest).take n⟩ :: toks, ?_⟩
              simp only [tokLoop, hm, htoks]

/-- C9: tokenization is total — for every input string (and line number)
`tokenize` returns a token list and never raises `TokenizerError`,
because any nonempty remainder starts either with one of `( ) { } ;`
(each matched by its own literal rule) or with a character matched by
the fallback `STATEMENT` rule. -/
theorem claim_C9_tokenize_total (line : Int) (s : List Char) :
    ∃ toks, tokenize line s = .ok toks := by
  unfold tokenize
  exact tokLoop_ok (s.length + 1) line (pyStrip s)
    (Nat.lt_succ_of_le (pyStrip_length_le s))

/- ### Tokenizer round-trip (C7) -/

/-- Delete every whitespace character — the normalisation under which
the round-trip equality is stated ("up to whitespace"). -/
def removeWS (s : List Char) : List Char := s.filter fun c => !pyIsSpace c

theorem removeWS_append (a b : List Char) :
    removeWS (a ++ b) = removeWS a ++ removeWS b := by
  simp [removeWS, List.filter_append]

theorem removeWS_dropWhile (s : List Char) :
    removeWS (s.dropWhile pyIsSpace) = removeWS s := by
  induction s with
  | nil => rfl
  | cons c rest ih =>
      rw [List.dropWhile]
      split
      · next hws =>
          rw [ih]
          simp [removeWS, List.filter_cons, hws]
      · rfl

theorem removeWS_reverse (s : List Char) :
    removeWS s.reverse = (removeWS s).reverse := by
  simp [removeWS, List.filter_reverse]

theorem removeWS_pyStrip (s : List Char) :
    removeWS (pyStrip s) = removeWS s := by
  unfold pyStrip
  rw [removeWS_reverse, removeWS_dropWhile, removeWS_reverse,
    List.reverse_reverse, removeWS_dropWhile]

theorem tokLoop_roundtrip (fuel : Nat) (line : Int) :
    ∀ (s : List Char) (toks : List Token), tokLoop fuel line s = .ok toks →
      removeWS ((toks.map Token.sequence).flatten) = removeWS s := by
  induction fuel with
  | zero => intro s toks h; simp [tokLoop] at h
  | succ fuel ih =>
      intro s toks h
      match s with
      | [] =>
          simp only [tokLoop] at h
          cases h
          rfl
      | c :: rest =>
          rw [tokLoop] at h
          cases hm : firstMatch (c :: rest) with
          | none => rw [hm] at h; cases h
          | some nk =>
              obtain ⟨n, k⟩ := nk
              simp only [hm] at h
              cases hrec : tokLoop fuel line (pyStrip ((c :: rest).drop n)) with
              | error e => simp [hrec] at h
              | ok toks' =>
                  simp only [hrec] at h
                  cases h
                  have hih := ih (pyStrip ((c :: rest).drop n)) toks' hrec
                  rw [removeWS_pyStrip] at hih
                  calc removeWS ((((⟨line, .ts k, (c :: rest).take n⟩ : Token) :: toks').map
                          Token.sequence).flatten)
                      = removeWS ((c :: rest).take n ++ (toks'.map Token.sequence).flatten) := by
                        simp
                    _ = removeWS ((c :: rest).take n) ++
                          removeWS ((toks'.map Token.sequence).flatten) := removeWS_append _ _
                    _ = removeWS ((c :: rest).take n) ++ removeWS ((c :: rest).drop n) := by
                        rw [hih]
                    _ = removeWS ((c :: rest).take n ++ (c :: rest).drop n) :=
                        (removeWS_append _ _).symm
                    _ = removeWS (c :: rest) := by rw [List.take_append_drop]

theorem removeWS_intercalate (xss : List (List Char)) :
    removeWS (List.intercalate [' '] xss) = removeWS xss.flatten := by
  induction xss with
  | nil => rfl
  | cons x rest ih =>
      cases rest with
      | nil => simp [List.intercalate]
      | cons y more =>
          have hx : List.intercalate [' '] (x :: y :: more) =
              x ++ [' '] ++ List.intercalate [' '] (y :: more) := by
            simp only [List.intercalate, List.intersperse]
            simp
          rw [hx, removeWS_append, removeWS_append, ih]
          have hsp : removeWS [' '] = [] := rfl
          simp only [List.flatten_cons, removeWS_append, hsp, List.append_nil,
            List.append_assoc]

/-- C7: for every input on which `tokenize` succeeds, concatenating the
produced tokens' `sequence` fields in order, separated by single spaces,
equals the whitespace-stripped input up to whitespace (formally: both
sides agree after every whitespace character is removed). -/
theorem claim_C7_roundtrip (line : Int) (s : List Char) (toks : List Token)
    (h : tokenize line s = .ok toks) :
    removeWS (List.intercalate [' '] (toks.map Token.sequence)) =
      removeWS (pyStrip s) := by
  rw [removeWS_intercalate, removeWS_pyStrip]
  unfold tokenize at h
  have := tokLoop_roundtrip (s.length + 1) line (pyStrip s) toks h
  rw [removeWS_pyStrip] at this
  exact this

/-- Witness for C7 at the concrete input `x = 1;`. -/
theorem claim_C7_roundtrip_witness :
    tokenize 1 "x = 1;".data =
      .ok [⟨1, .ts .STATEMENT, "x = 1".data⟩, ⟨1, .ts .SEMICOLON, ";".data⟩] ∧
    removeWS (List.intercalate [' ']
      ([(⟨1, .ts .STATEMENT, "x = 1".data⟩ : Token),
        ⟨1, .ts .SEMICOLON, ";".data⟩].map Token.sequence)) =
      removeWS (pyStrip "x = 1;".data) :=
  ⟨rfl, claim_C7_roundtrip 1 "x = 1;".data _ rfl⟩

/- ### Keyword-prefix matching (C10) -/

/-- The keyword rules of the tokenizer, with their spellings. -/
def keywordRules : List (List Char × TokenState) :=
  [ (['i', 'f'], .IF), (['e', 'l', 's', 'e'], .ELSE),
    (['w', 'h', 'i', 'l', 'e'], .WHILE), (['d', 'o'], .DO),
    (['f', 'o', 'r'], .FOR) ]

theorem matchLen_lit_ne {t0 : Char} {tt : List Char} {c : Char} (h : t0 ≠ c) :
    matchLen (.lit c) (t0 :: tt) = none := by
  simp [matchLen, h]

theorem matchLen_kw_eq {c : Char} {w t : List Char}
    (hlen : w.length + 1 ≤ t.length)
    (hpre : (t.take (w.length + 1)).map Char.toLower = c :: w) :
    matchLen (.kw c w) t = some (w.length + 1) := by
  simp [matchLen, hlen, hpre]

theorem matchLen_kw_ne_head {c : Char} {w : List Char} {t0 : Char} {tt : List Char}
    (h : Char.toLower t0 ≠ c) : matchLen (.kw c w) (t0 :: tt) = none := by
  simp only [matchLen]
  rw [if_neg]
  rintro ⟨-, h2⟩
  rw [List.take_succ_cons, List.map_cons] at h2
  exact h (List.cons.injEq .. ▸ h2 |>.1)

theorem take_map_toLower_head {t : List Char} {n : Nat} {c : Char} {w : List Char}
    (h : (t.take (n + 1)).map Char.toLower = c :: w) :
    ∃ t0 tt, t = t0 :: tt ∧ Char.toLower t0 = c := by
  cases t with
  | nil => simp at h
  | cons t0 tt =>
      rw [List.take_succ_cons, List.map_cons] at h
      exact ⟨t0, tt, rfl, (List.cons.injEq .. ▸ h).1⟩

theorem take_map_length_le {t w : List Char} {n : Nat}
    (h : (t.take n).map Char.toLower = w) (hw : w.length = n) : n ≤ t.length := by
  have h1 : ((t.take n).map Char.toLower).length = n := by rw [h, hw]
  rw [List.length_map, List.length_take] at h1
  omega

/-- If the first tokenizer rule to match the stripped input matches `n`
characters with kind `k`, the first emitted token is exactly that prefix
with that kind, and tokenization completes. -/
theorem tokenize_first_token (line : Int) (s : List Char) (n : Nat) (k : TokenState)
    (hn : 0 < n) (hfm : firstMatch (pyStrip s) = some (n, k)) (hne : pyStrip s ≠ []) :
    ∃ rest, tokenize line s = .ok (⟨line, .ts k, (pyStrip s).take n⟩ :: rest) := by
  unfold tokenize
  cases ht : pyStrip s with
  | nil => exact absurd ht hne
  | cons t0 tt =>
      rw [ht] at hfm
      have hslen : (t0 :: tt).length ≤ s.length := ht ▸ pyStrip_length_le s
      have hrec : ∃ toks, tokLoop s.length line (pyStrip ((t0 :: tt).drop n)) = .ok toks := by
        apply tokLoop_ok
        have h1 := pyStrip_length_le ((t0 :: tt).drop n)
        have h2 : ((t0 :: tt).drop n).length = (t0 :: tt).length - n := by
          simp [List.length_drop]
        simp only [List.length_cons] at h1 h2 hslen
        omega
      obtain ⟨toks, htoks⟩ := hrec
      refine ⟨toks, ?_⟩
      simp only [tokLoop, hfm, htoks]

/-- C10: for every input line whose stripped text begins with a keyword
spelling in any letter case, immediately followed by a further
non-delimiter character (e.g. `iffy = 1;`), the first emitted token has
the keyword's kind, with exactly the keyword characters (in their
original case) as its sequence — the keyword rules match prefixes of
identifiers. -/
theorem claim_C10_keyword_prefix (kw : List Char) (k : TokenState)
    (hkw : (kw, k) ∈ keywordRules) (line : Int) (s : List Char)
    (hpre : ((pyStrip s).take kw.length).map Char.toLower = kw)
    (c : Char) (cs : List Char)
    (hrest : (pyStrip s).drop kw.length = c :: cs) (hc : isDelim c = false) :
    ∃ rest, tokenize line s = .ok (⟨line, .ts k, (pyStrip s).take kw.length⟩ :: rest) := by
  have hne : pyStrip s ≠ [] := by
    intro h0
    rw [h0] at hrest
    simp at hrest
  have step_none : ∀ {r : RuleSpec} {k' : TokenState}
      {rest : List (RuleSpec × TokenState)} {t : List Char},
      matchLen r t = none → firstMatchAux ((r, k') :: rest) t = firstMatchAux rest t := by
    intro r k' rest t h
    simp [firstMatchAux, h]
  have step_some : ∀ {r : RuleSpec} {k' : TokenState}
      {rest : List (RuleSpec × TokenState)} {t : List Char} {n : Nat},
      matchLen r t = some n → firstMatchAux ((r, k') :: rest) t = some (n, k') := by
    intro r k' rest t n h
    simp [firstMatchAux, h]
  simp only [keywordRules, List.mem_cons, List.not_mem_nil, or_false] at hkw
  rcases hkw with h | h | h | h | h <;> (rw [Prod.mk.injEq] at h; obtain ⟨rfl, rfl⟩ := h) <;>
    obtain ⟨t0, tt, ht, hlow⟩ := take_map_toLower_head hpre <;>
    (have hlen := take_map_length_le hpre rfl) <;> rw [ht] at hpre hlen
  · -- kw = "if"
    apply tokenize_first_token line s 2 .IF (by omega) _ hne
    rw [firstMatch, ht, tokenInfos,
      step_none (matchLen_lit_ne fun h0 => by rw [h0] at hlow; exact absurd hlow (by decide)),
      step_some (matchLen_kw_eq hlen hpre)]
    rfl
  · -- kw = "else"
    apply tokenize_first_token line s 4 .ELSE (by omega) _ hne
    rw [firstMatch, ht, tokenInfos,
      step_none (matchLen_lit_ne fun h0 => by rw [h0] at hlow; exact absurd hlow (by decide)),
      step_none (matchLen_kw_ne_head (by rw [hlow]; decide)),
      step_some (matchLen_kw_eq hlen hpre)]
    rfl
  · -- kw = "while"
    apply tokenize_first_token line s 5 .WHILE (by omega) _ hne
    rw [firstMatch, ht, tokenInfos,
      step_none (matchLen_lit_ne fun h0 => by rw [h0] at hlow; exact absurd hlow (by decide)),
      step_none (matchLen_kw_ne_head (by rw [hlow]; decide)),
      step_none (matchLen_kw_ne_head (by rw [hlow]; decide)),
      step_some (matchLen_kw_eq hlen hpre)]
    rfl
  · -- kw = "do"
    apply tokenize_first_token line s 2 .DO (by omega) _ hne
    rw [firstMatch, ht, tokenInfos,
      step_none (matchLen_lit_ne fun h0 => by rw [h0] at hlow; exact absurd hlow (by decide)),
      step_none (matchLen_kw_ne_head (by rw [hlow]; decide)),
      step_none (matchLen_kw_ne_head (by rw [hlow]; decide)),
      step_none (matchLen_kw_ne_head (by rw [hlow]; decide)),
      step_some (matchLen_kw_eq hlen hpre)]
    rfl
  · -- kw = "for"
    apply tokenize_first_token line s 3 .FOR (by omega) _ hne
    rw [firstMatch, ht, tokenInfos,
      step_none (matchLen_lit_ne fun h0 => by rw [h0] at hlow; exact absurd hlow (by decide)),
      step_none (matchLen_kw_ne_head (by rw [hlow]; decide)),
      step_none (matchLen_kw_ne_head (by rw [hlow]; decide)),
      step_none (matchLen_kw_ne_head (by rw [hlow]; decide)),
      step_none (matchLen_kw_ne_head (by rw [hlow]; decide)),
      step_some (matchLen_kw_eq hlen hpre)]
    rfl

/-- Witness for C10 at the concrete input `iffy = 1;` (keyword `if`
followed by the non-delimiter `f`): the first token is `IF` with
sequence `if`. -/
theorem claim_C10_keyword_prefix_witness :
    ((['i', 'f'], TokenState.IF) ∈ keywordRules) ∧
    ∃ rest, tokenize 1 "iffy = 1;".data =
      .ok (⟨1, .ts .IF, (pyStrip "iffy = 1;".data).take 2⟩ :: rest) :=
  ⟨by simp [keywordRules],
   claim_C10_keyword_prefix ['i', 'f'] .IF (by simp [keywordRules]) 1 "iffy = 1;".data
     (by rfl) 'f' "y = 1;".data (by rfl) (by rfl)⟩

/- ### The minimiser on reciprocally-linked graphs (C3) -/

/-- The double-linking invariant over the master node list: `b` is a
child of `a` exactly when `a` is a parent of `b`, for nodes on the
list. -/
def ReciprocalAdj (st : PState) : Prop :=
  ∀ a ∈ st.nodes, ∀ b ∈ st.nodes,
    (b ∈ (hget st a).children ↔ a ∈ (hget st b).parents)

/-- No two nodes of the master list share a merge key. -/
def KeysDistinct (st : PState) : Prop :=
  (st.nodes.map (nodeKey st)).Nodup

/-- Two isolated nodes of the same kind beginning on the same line:
reciprocal adjacency holds vacuously, both nodes share the merge key
`(P1, 1)`, and neither is a child of the other. -/
def c3State : PState :=
  { heap := fun i =>
      if i = 0 then ⟨0, some .P1, [⟨1, .ts .STATEMENT, ['a']⟩], [], []⟩
      else if i = 1 then ⟨1, some .P1, [⟨1, .ts .STATEMENT, ['b']⟩], [], []⟩
      else default
    hsize := 2
    nodes := [0, 1] }

/-- C3 counterexample: the claim fails — on a node list satisfying
reciprocal adjacency, `minimize_nodes` does not terminate normally: it
reaches the unconditional `root.children.remove(node)` with a cluster
member that is not among the root's children and raises `ValueError`. -/
theorem claim_C3_counterexample :
    ReciprocalAdj c3State ∧ minimizeNodes 10 c3State = .error .valueError := by
  constructor
  · intro a ha b hb
    fin_cases ha <;> fin_cases hb <;> simp [c3State, hget]
  · rfl

theorem addToGroups_not_mem {gs : List ((Option DecompStates × Int) × List Nat)}
    {k : Option DecompStates × Int} {i : Nat} (h : ∀ g ∈ gs, g.1 ≠ k) :
    addToGroups gs k i = gs ++ [(k, [i])] := by
  induction gs with
  | nil => rfl
  | cons g rest ih =>
      obtain ⟨k', l⟩ := g
      rw [addToGroups, if_neg (h (k', l) (by simp)), ih fun g hg => h g (by simp [hg])]
      simp

theorem buildGroups_aux_singletons (st : PState) :
    ∀ (ids : List Nat) (gs : List ((Option DecompStates × Int) × List Nat)),
      (gs.map Prod.fst ++ ids.map (nodeKey st)).Nodup →
      (∀ g ∈ gs, g.2.length ≤ 1) →
      ∀ g ∈ ids.foldl (fun gs i => addToGroups gs (nodeKey st i) i) gs, g.2.length ≤ 1 := by
  intro ids
  induction ids with
  | nil =>
      intro gs _ hg
      simpa using hg
  | cons i rest ih =>
      intro gs hp hg
      rw [List.foldl_cons]
      have hnotmem : ∀ g ∈ gs, g.1 ≠ nodeKey st i := by
        intro g hgmem heq
        rw [List.nodup_append] at hp
        exact hp.2.2 (List.mem_map_of_mem Prod.fst hgmem)
          (by rw [heq]; exact List.mem_map_of_mem (nodeKey st) (by simp))
      rw [addToGroups_not_mem hnotmem]
      apply ih
      · rw [List.map_cons, List.append_cons] at hp
        simpa using hp
      · intro g hgmem
        rcases List.mem_append.mp hgmem with hmem | hmem
        · exact hg g hmem
        · simp at hmem
          simp [hmem]

theorem processGroups_skip (fuel : Nat) (st : PState) :
    ∀ gs, (∀ g ∈ gs, g.2.length ≤ 1) → processGroups fuel st gs = .ok st := by
  intro gs
  induction gs with
  | nil => intro _; rfl
  | cons g rest ih =>
      intro h
      obtain ⟨k, mems⟩ := g
      rw [processGroups.eq_def]
      dsimp only
      rw [if_pos (by have := h (k, mems) (by simp); simp at this; omega)]
      exact ih fun g hg => h g (by simp [hg])

/-- When no two nodes share a merge key, every cluster is a singleton
and the pass does nothing. -/
theorem minimize_keysDistinct_noop (fuel : Nat) (st : PState) (h : KeysDistinct st) :
    minimizeNodes fuel st = .ok st := by
  unfold minimizeNodes
  apply processGroups_skip
  apply buildGroups_aux_singletons st st.nodes []
  · simpa [KeysDistinct] using h
  · simp

/-- C3 amended: minimisation of a reciprocally-linked node list can
raise `ValueError` as soon as two nodes share a merge key (see the
counterexample); on a node list whose merge keys are pairwise distinct,
`minimize_nodes` terminates normally, returns the node list unchanged,
and the surviving list still satisfies reciprocal adjacency, with no
surviving node's adjacency referencing a removed node (nothing is
removed). -/
theorem claim_C3_amended_minimize_preserves (st : PState) (fuel : Nat)
    (hadj : ReciprocalAdj st) (hkeys : KeysDistinct st) :
    minimizeNodes fuel st = .ok st ∧ ReciprocalAdj st :=
  ⟨minimize_keysDistinct_noop fuel st hkeys, hadj⟩

/-- A two-node reciprocally-linked state with distinct merge keys, the
witness input for the amended C3. -/
def c3WitnessState : PState :=
  { heap := fun i =>
      if i = 0 then ⟨0, some .D0, [⟨1, .ts .IF, ['i', 'f']⟩], [1], []⟩
      else if i = 1 then ⟨1, some .P1, [⟨1, .ts .STATEMENT, ['a']⟩], [], [0]⟩
      else default
    hsize := 2
    nodes := [0, 1] }

/-- Witness for the amended C3 at `c3WitnessState`. -/
theorem claim_C3_amended_witness :
    ReciprocalAdj c3WitnessState ∧ KeysDistinct c3WitnessState ∧
      minimizeNodes 10 c3WitnessState = .ok c3WitnessState := by
  have hadj : ReciprocalAdj c3WitnessState := by
    intro a ha b hb
    fin_cases ha <;> fin_cases hb <;> simp [c3WitnessState, hget]
  have hkeys : KeysDistinct c3WitnessState := by
    rw [KeysDistinct]
    decide
  exact ⟨hadj, hkeys,
    (claim_C3_amended_minimize_preserves c3WitnessState 10 hadj hkeys).1⟩

/- ### Minimisation idempotence (C6) -/

/-- The merge key as a function of the node record alone. -/
def keyOfNode (n : PyNode) : Option DecompStates × Int :=
  (n.type, match n.tokens with | [] => -1 | t :: _ => t.line)

theorem nodeKey_eq_keyOfNode (st : PState) (i : Nat) :
    nodeKey st i = keyOfNode (hget st i) := rfl

/-- Nodes equal under `Node.__eq__` share the merge key: equal types,
and pairwise-equal tokens give equal first-token lines (or both token
lists empty). -/
theorem pyNodeEq_key {a b : PyNode} (h : pyNodeEq a b = true) :
    keyOfNode a = keyOfNode b := by
  simp only [pyNodeEq, Bool.and_eq_true, beq_iff_eq] at h
  obtain ⟨⟨⟨hval, hty⟩, hlen⟩, hall⟩ := h
  unfold keyOfNode
  rw [hty]
  cases hta : a.tokens with
  | nil =>
      cases htb : b.tokens with
      | nil => rfl
      | cons tb bs => rw [hta, htb] at hlen; simp at hlen
  | cons ta as =>
      cases htb : b.tokens with
      | nil => rw [hta, htb] at hlen; simp at hlen
      | cons tb bs =>
          rw [hta, htb] at hall
          rw [List.zip_cons_cons, List.all_cons, Bool.and_eq_true] at hall
          have hline : ta.line = tb.line := by
            have := hall.1
            simp only [pyTokenEq, Bool.and_eq_true, beq_iff_eq] at this
            exact this.1.1
          dsimp only
          rw [hline]

/-- State `st'` preserves the per-node data (`val`, `type`, `tokens`) of
state `st`; minimisation only rewires adjacency, so every step preserves
this relation. -/
def dataPres (st st' : PState) : Prop :=
  ∀ j, (hget st' j).val = (hget st j).val ∧ (hget st' j).type = (hget st j).type ∧
    (hget st' j).tokens = (hget st j).tokens

theorem dataPres_refl (st : PState) : dataPres st st := fun _ => ⟨rfl, rfl, rfl⟩

theorem dataPres_trans {s1 s2 s3 : PState} (h1 : dataPres s1 s2) (h2 : dataPres s2 s3) :
    dataPres s1 s3 := by
  intro j
  obtain ⟨a1, b1, c1⟩ := h1 j
  obtain ⟨a2, b2, c2⟩ := h2 j
  exact ⟨a2.trans a1, b2.trans b1, c2.trans c1⟩

theorem hget_hset (st : PState) (i : Nat) (n : PyNode) (j : Nat) :
    hget (hset st i n) j = if j = i then n else hget st j := by
  simp [hget, hset]

theorem dataPres_hset {st : PState} {i : Nat} {n : PyNode}
    (hv : n.val = (hget st i).val) (ht : n.type = (hget st i).type)
    (htk : n.tokens = (hget st i).tokens) : dataPres st (hset st i n) := by
  intro j
  rw [hget_hset]
  split
  · next hj => subst hj; exact ⟨hv, ht, htk⟩
  · exact ⟨rfl, rfl, rfl⟩

theorem nodes_hset (st : PState) (i : Nat) (n : PyNode) : (hset st i n).nodes = st.nodes := rfl

theorem dataPres_pushChild (st : PState) (i c : Nat) : dataPres st (pushChild st i c) :=
  dataPres_hset rfl rfl rfl

theorem dataPres_pushParent (st : PState) (i p : Nat) : dataPres st (pushParent st i p) :=
  dataPres_hset rfl rfl rfl

theorem dataPres_nodeKey {st st' : PState} (h : dataPres st st') :
    nodeKey st' = nodeKey st := by
  funext j
  rw [nodeKey_eq_keyOfNode, nodeKey_eq_keyOfNode]
  obtain ⟨-, hty, htk⟩ := h j
  unfold keyOfNode
  rw [hty, htk]

theorem mergeParentsLoop_frame (fuel : Nat) :
    ∀ (st : PState) (root node : Nat) (snap : List Nat) (i : Nat) (st' : PState),
      mergeParentsLoop fuel st root node snap i = .ok st' →
      dataPres st st' ∧ st'.nodes = st.nodes := by
  induction fuel with
  | zero => intro st root node snap i st' h; simp [mergeParentsLoop] at h
  | succ fuel ih =>
      intro st root node snap i st' h
      rw [mergeParentsLoop] at h
      split at h
      · cases h
        exact ⟨dataPres_refl st, rfl⟩
      · next parent hgi =>
          split at h
          · simp only [] at h
            split at h
            · cases h
            · next cs hrm =>
                obtain ⟨hdp, hnd⟩ := ih _ root node snap (i + 1) st' h
                refine ⟨dataPres_trans ?_ hdp, by rw [hnd, nodes_hset]; rfl⟩
                exact dataPres_trans (dataPres_trans
                  (dataPres_pushParent st root parent)
                  (dataPres_pushChild _ parent root)) (dataPres_hset rfl rfl rfl)
          · obtain ⟨hdp, hnd⟩ := ih st root node snap (i + 1) st' h
            exact ⟨hdp, hnd⟩

theorem mergeChildrenLoop_frame (fuel : Nat) :
    ∀ (st : PState) (root node : Nat) (snap : List Nat) (i : Nat) (st' : PState),
      mergeChildrenLoop fuel st root node snap i = .ok st' →
      dataPres st st' ∧ st'.nodes = st.nodes := by
  induction fuel with
  | zero => intro st root node snap i st' h; simp [mergeChildrenLoop] at h
  | succ fuel ih =>
      intro st root node snap i st' h
      rw [mergeChildrenLoop] at h
      split at h
      · cases h
        exact ⟨dataPres_refl st, rfl⟩
      · next child hgi =>
          split at h
          · simp only [] at h
            split at h
            · cases h
            · next ps hrm =>
                obtain ⟨hdp, hnd⟩ := ih _ root node snap (i + 1) st' h
                refine ⟨dataPres_trans ?_ hdp, by rw [hnd, nodes_hset]; rfl⟩
                exact dataPres_trans (dataPres_trans
                  (dataPres_pushChild st root child)
                  (dataPres_pushParent _ child root)) (dataPres_hset rfl rfl rfl)
          · obtain ⟨hdp, hnd⟩ := ih st root node snap (i + 1) st' h
            exact ⟨hdp, hnd⟩

theorem dataPres_setNodes (st : PState) (ns : List Nat) :
    dataPres st { st with nodes := ns } := fun _ => ⟨rfl, rfl, rfl⟩

/-- A successful `list.remove(x)` removes exactly one element, and that
element carries the merge key of `x`. -/
theorem pyListRemove_count (st : PState) :
    ∀ (l : List Nat) (x : Nat) (l' : List Nat), pyListRemove st l x = .ok l' →
      ∀ K, (l.map (nodeKey st)).count K =
        (l'.map (nodeKey st)).count K + (if K = nodeKey st x then 1 else 0) := by
  intro l
  induction l with
  | nil => intro x l' h K; simp [pyListRemove] at h
  | cons y rest ih =>
      intro x l' h K
      rw [pyListRemove] at h
      split at h
      · next heq =>
          cases h
          have hk : nodeKey st y = nodeKey st x := by
            rw [nodeKey_eq_keyOfNode, nodeKey_eq_keyOfNode]
            exact pyNodeEq_key heq
          by_cases hK : K = nodeKey st x
          · simp [List.count_cons, hk, hK]
          · have hyK : ¬ nodeKey st y = K := fun hcon => hK (hcon.symm.trans hk)
            simp [List.count_cons, beq_iff_eq, hyK, hK]
      · split at h
        · cases h
        · next rest2 hrm =>
            cases h
            have hih := ih x rest2 hrm K
            simp only [List.map_cons, List.count_cons]
            omega

/-- Effect of merging one cluster member on the master node list: one
element with the member's merge key is removed; per-node data is
untouched. -/
theorem processMember_count (fuel : Nat) (st : PState) (root : Nat) (rp rc : List Nat)
    (node : Nat) (st' : PState) (h : processMember fuel st root rp rc node = .ok st') :
    dataPres st st' ∧ ∀ K, (st.nodes.map (nodeKey st)).count K =
      (st'.nodes.map (nodeKey st)).count K + (if K = nodeKey st node then 1 else 0) := by
  rw [processMember] at h
  split at h
  · cases h
  · next st1 hm1 =>
      split at h
      · cases h
      · next st2 hm2 =>
          split at h
          · cases h
          · next ns hr1 =>
              simp only [] at h
              split at h
              · cases h
              · next cs hr2 =>
                  cases h
                  obtain ⟨hdp1, hnd1⟩ := mergeParentsLoop_frame fuel st root node rp 0 st1 hm1
                  obtain ⟨hdp2, hnd2⟩ := mergeChildrenLoop_frame fuel st1 root node rc 0 st2 hm2
                  have hdp12 : dataPres st st2 := dataPres_trans hdp1 hdp2
                  have hkeyeq : nodeKey st2 = nodeKey st := dataPres_nodeKey hdp12
                  constructor
                  · exact dataPres_trans hdp12 (dataPres_trans
                      (dataPres_setNodes st2 ns) (dataPres_hset rfl rfl rfl))
                  · intro K
                    have hcnt := pyListRemove_count st2 st2.nodes node ns hr1 K
                    rw [hkeyeq, hnd2, hnd1] at hcnt
                    exact hcnt

/-- Effect of merging all non-root members of a cluster on the master
node list, counted against a fixed base state `st0`. -/
theorem processMembers_count (fuel : Nat) (st0 : PState) :
    ∀ (mems : List Nat) (st : PState) (root : Nat) (rp rc : List Nat) (st' : PState),
      dataPres st0 st →
      processMembers fuel st root rp rc mems = .ok st' →
      dataPres st0 st' ∧ ∀ K, (st.nodes.map (nodeKey st0)).count K =
        (st'.nodes.map (nodeKey st0)).count K + ((mems.map (nodeKey st0)).count K) := by
  intro mems
  induction mems with
  | nil =>
      intro st root rp rc st' hdp h
      cases h
      exact ⟨hdp, fun K => by simp⟩
  | cons m rest ih =>
      intro st root rp rc st' hdp h
      rw [processMembers] at h
      split at h
      · cases h
      · next st1 hm =>
          obtain ⟨hdpm, hcntm⟩ := processMember_count fuel st root rp rc m st1 hm
          have hkeyeq : nodeKey st = nodeKey st0 := dataPres_nodeKey hdp
          obtain ⟨hdp', hcnt'⟩ := ih st1 root rp rc st' (dataPres_trans hdp hdpm) h
          refine ⟨hdp', fun K => ?_⟩
          have h1 := hcntm K
          rw [hkeyeq] at h1
          have h2 := hcnt' K
          have hnodes1 : (st1.nodes.map (nodeKey st0)).count K =
              (st'.nodes.map (nodeKey st0)).count K + (rest.map (nodeKey st0)).count K := h2
          simp only [List.map_cons, List.count_cons] at *
          by_cases hK : K = nodeKey st0 m
          · simp only [if_pos hK] at h1
            simp only [beq_iff_eq, if_pos hK.symm]
            omega
          · simp only [if_neg hK] at h1
            have hK2 : ¬ nodeKey st0 m = K := fun hcon => hK hcon.symm
            simp only [beq_iff_eq, if_neg hK2]
            omega

/-- Total multiplicity a key receives across a group list. -/
def groupsCount (gs : List ((Option DecompStates × Int) × List Nat))
    (K : Option DecompStates × Int) : Nat :=
  (gs.map fun g => if g.1 = K then g.2.length else 0).sum

theorem groupsCount_not_mem {gs : List ((Option DecompStates × Int) × List Nat)}
    {K : Option DecompStates × Int} (h : K ∉ gs.map Prod.fst) : groupsCount gs K = 0 := by
  induction gs with
  | nil => rfl
  | cons g rest ih =>
      simp only [List.map_cons, List.mem_cons, not_or] at h
      simp only [groupsCount, List.map_cons, List.sum_cons]
      rw [if_neg (fun hcon => h.1 hcon.symm)]
      simpa [groupsCount] using ih h.2

theorem groupsCount_of_mem {gs : List ((Option DecompStates × Int) × List Nat)}
    {K : Option DecompStates × Int} {l : List Nat}
    (hnd : (gs.map Prod.fst).Nodup) (hmem : (K, l) ∈ gs) : groupsCount gs K = l.length := by
  induction gs with
  | nil => simp at hmem
  | cons g rest ih =>
      simp only [List.map_cons, List.nodup_cons] at hnd
      rcases List.mem_cons.mp hmem with heq | hmem'
      · subst heq
        have h0 : groupsCount rest K = 0 := groupsCount_not_mem (by simpa using hnd.1)
        simp [groupsCount] at h0 ⊢
        simp [h0]
      · have hne : g.1 ≠ K := by
          intro hcon
          exact hnd.1 (hcon ▸ List.mem_map_of_mem Prod.fst hmem')
        simp only [groupsCount, List.map_cons, List.sum_cons, if_neg hne]
        simpa [groupsCount] using ih hnd.2 hmem'

theorem addToGroups_groupsCount (gs : List ((Option DecompStates × Int) × List Nat))
    (k : Option DecompStates × Int) (i : Nat) (K : Option DecompStates × Int) :
    groupsCount (addToGroups gs k i) K = groupsCount gs K + (if k = K then 1 else 0) := by
  induction gs with
  | nil =>
      simp only [addToGroups, groupsCount, List.map_cons, List.sum_cons, List.map_nil,
        List.sum_nil]
      split <;> simp
  | cons g rest ih =>
      obtain ⟨k', l⟩ := g
      rw [addToGroups]
      split
      · next hkk =>
          subst hkk
          simp only [groupsCount, List.map_cons, List.sum_cons, List.length_append,
            List.length_cons, List.length_nil]
          by_cases hK : k' = K
          · simp [hK] <;> omega
          · simp [hK]
      · simp only [groupsCount, List.map_cons, List.sum_cons]
        simp only [groupsCount] at ih
        omega

theorem addToGroups_keys (gs : List ((Option DecompStates × Int) × List Nat))
    (k : Option DecompStates × Int) (i : Nat) :
    (addToGroups gs k i).map Prod.fst =
      if k ∈ gs.map Prod.fst then gs.map Prod.fst else gs.map Prod.fst ++ [k] := by
  induction gs with
  | nil => simp [addToGroups]
  | cons g rest ih =>
      obtain ⟨k', l⟩ := g
      rw [addToGroups]
      split
      · next hkk =>
          subst hkk
          simp
      · next hkk =>
          have hne : k ≠ k' := fun hcon => hkk hcon.symm
          simp only [List.map_cons, ih, List.mem_cons]
          by_cases hmem : k ∈ rest.map Prod.fst
          · simp [hmem, hne]
          · simp [hmem, hne]

theorem addToGroups_keys_nodup {gs : List ((Option DecompStates × Int) × List Nat)}
    {k : Option DecompStates × Int} {i : Nat} (h : (gs.map Prod.fst).Nodup) :
    ((addToGroups gs k i).map Prod.fst).Nodup := by
  rw [addToGroups_keys]
  split
  · exact h
  · next hmem => simp [List.nodup_append, h, hmem]

theorem addToGroups_member_keys (st0 : PState)
    {gs : List ((Option DecompStates × Int) × List Nat)}
    {k : Option DecompStates × Int} {i : Nat}
    (h : ∀ g ∈ gs, ∀ j ∈ g.2, nodeKey st0 j = g.1) (hk : nodeKey st0 i = k) :
    ∀ g ∈ addToGroups gs k i, ∀ j ∈ g.2, nodeKey st0 j = g.1 := by
  induction gs with
  | nil =>
      intro g hg j hj
      simp only [addToGroups, List.mem_singleton] at hg
      subst hg
      simp only [List.mem_singleton] at hj
      subst hj
      exact hk
  | cons g0 rest ih =>
      obtain ⟨k', l⟩ := g0
      intro g hg j hj
      rw [addToGroups] at hg
      split at hg
      · next hkk =>
          rcases List.mem_cons.mp hg with heq | hmem'
          · subst heq
            rcases List.mem_append.mp hj with hjl | hji
            · exact h (k', l) (by simp) j hjl
            · simp only [List.mem_singleton] at hji
              subst hji
              rw [hk, hkk]
          · exact h g (by simp [hmem']) j hj
      · rcases List.mem_cons.mp hg with heq | hmem'
        · subst heq
          exact h (k', l) (by simp) j hj
        · exact ih (fun g hg => h g (by simp [hg])) g hmem' j hj

theorem buildGroups_fold_counts (st0 : PState) :
    ∀ (ids : List Nat) (gs : List ((Option DecompStates × Int) × List Nat))
      (K : Option DecompStates × Int),
      groupsCount (ids.foldl (fun gs i => addToGroups gs (nodeKey st0 i) i) gs) K =
        groupsCount gs K + (ids.map (nodeKey st0)).count K := by
  intro ids
  induction ids with
  | nil => intro gs K; simp
  | cons i rest ih =>
      intro gs K
      rw [List.foldl_cons, ih, addToGroups_groupsCount]
      simp only [List.map_cons, List.count_cons, beq_iff_eq]
      by_cases hK : nodeKey st0 i = K
      · simp [hK] <;> omega
      · simp [hK]

theorem buildGroups_fold_nodup (st0 : PState) :
    ∀ (ids : List Nat) (gs : List ((Option DecompStates × Int) × List Nat)),
      (gs.map Prod.fst).Nodup →
      ((ids.foldl (fun gs i => addToGroups gs (nodeKey st0 i) i) gs).map Prod.fst).Nodup := by
  intro ids
  induction ids with
  | nil => intro gs h; simpa using h
  | cons i rest ih =>
      intro gs h
      rw [List.foldl_cons]
      exact ih _ (addToGroups_keys_nodup h)

theorem buildGroups_fold_member_keys (st0 : PState) :
    ∀ (ids : List Nat) (gs : List ((Option DecompStates × Int) × List Nat)),
      (∀ g ∈ gs, ∀ j ∈ g.2, nodeKey st0 j = g.1) →
      ∀ g ∈ ids.foldl (fun gs i => addToGroups gs (nodeKey st0 i) i) gs,
        ∀ j ∈ g.2, nodeKey st0 j = g.1 := by
  intro ids
  induction ids with
  | nil => intro gs h; simpa using h
  | cons i rest ih =>
      intro gs h
      rw [List.foldl_cons]
      exact ih _ (addToGroups_member_keys st0 h rfl)

/-- Running the clusters in order: if every cluster's key multiplicity
in the master list equals the cluster size, keys of distinct clusters
are distinct, and keys outside every cluster occur at most once, then a
completed pass leaves every merge key with multiplicity at most one. -/
theorem processGroups_count (fuel : Nat) (st0 : PState) :
    ∀ (groups : List ((Option DecompStates × Int) × List Nat)) (st st' : PState),
      dataPres st0 st →
      (groups.map Prod.fst).Nodup →
      (∀ g ∈ groups, ∀ i ∈ g.2, nodeKey st0 i = g.1) →
      (∀ g ∈ groups, (st.nodes.map (nodeKey st0)).count g.1 = g.2.length) →
      (∀ K, K ∉ groups.map Prod.fst → (st.nodes.map (nodeKey st0)).count K ≤ 1) →
      processGroups fuel st groups = .ok st' →
      dataPres st0 st' ∧ ∀ K, (st'.nodes.map (nodeKey st0)).count K ≤ 1 := by
  intro groups
  induction groups with
  | nil =>
      intro st st' hdp _ _ _ hbound h
      cases h
      exact ⟨hdp, fun K => hbound K (by simp)⟩
  | cons g rest ih =>
      intro st st' hdp hnd hmk hcnt hbound h
      obtain ⟨k, mems⟩ := g
      simp only [List.map_cons, List.nodup_cons] at hnd
      rw [processGroups.eq_def] at h
      dsimp only at h
      split at h
      · next hlt =>
          apply ih st st' hdp hnd.2
            (fun g hg => hmk g (by simp [hg]))
            (fun g hg => hcnt g (by simp [hg]))
            ?_ h
          intro K hK
          by_cases hKk : K = k
          · subst hKk
            have hc := hcnt (K, mems) (by simp)
            dsimp only at hc
            omega
          · exact hbound K (by simp [hK, hKk])
      · next hge =>
          split at h
          · simp at hge
          · next root tail =>
              split at h
              · cases h
              · next st1 hm =>
                  obtain ⟨hdp1, hcnt1⟩ :=
                    processMembers_count fuel st0 tail st root
                      (hget st root).parents (hget st root).children st1 hdp hm
                  have htailmap : tail.map (nodeKey st0) = List.replicate tail.length k := by
                    rw [List.eq_replicate_iff]
                    refine ⟨by simp, ?_⟩
                    intro b hb
                    obtain ⟨j, hj, rfl⟩ := List.mem_map.mp hb
                    exact hmk (k, root :: tail) (by simp) j (by simp [hj])
                  have hcount_tail : ∀ K, (tail.map (nodeKey st0)).count K =
                      if K = k then tail.length else 0 := by
                    intro K
                    rw [htailmap, List.count_replicate]
                    by_cases hK : K = k
                    · simp [hK]
                    · simp [beq_iff_eq, hK]
                      exact fun hk => absurd hk.symm hK
                  apply ih st1 st' hdp1 hnd.2
                    (fun g hg => hmk g (by simp [hg])) ?_ ?_ h
                  · intro g hg
                    have hne : g.1 ≠ k := by
                      intro hcon
                      exact hnd.1 (hcon ▸ List.mem_map_of_mem Prod.fst hg)
                    have h1 := hcnt1 g.1
                    rw [hcount_tail g.1, if_neg hne] at h1
                    have h2 := hcnt g (by simp [hg])
                    omega
                  · intro K hK
                    by_cases hKk : K = k
                    · subst hKk
                      have h1 := hcnt1 K
                      rw [hcount_tail K, if_pos rfl] at h1
                      have h2 := hcnt (K, root :: tail) (by simp)
                      simp only [List.length_cons] at h2
                      omega
                    · have h1 := hcnt1 K
                      rw [hcount_tail K, if_neg hKk] at h1
                      have h2 := hbound K (by simp [hK, hKk])
                      omega

/-- The derived product `BEq` agrees with the one induced by decidable
equality, so counts taken with either instance coincide. -/
theorem prodCount_eq (l : List (Option DecompStates × Int)) (a : Option DecompStates × Int) :
    l.count a = @List.count _ instBEqOfDecidableEq a l := by
  induction l with
  | nil => rfl
  | cons x xs ih =>
      rw [List.count_cons, @List.count_cons _ instBEqOfDecidableEq, ih]
      congr 1
      by_cases hx : x = a
      · simp [hx]
        simp [instBEqOfDecidableEq]
      · simp [beq_iff_eq, hx]
        simp [instBEqOfDecidableEq, hx]

/-- C6: `minimize_nodes` is idempotent — after one completed run, every
merge key occurs at most once on the surviving node list, so a second
run (with any fuel) finds only singleton clusters and returns the state
unchanged. -/
theorem claim_C6_minimize_idempotent (fuel fuel' : Nat) (st st' : PState)
    (h : minimizeNodes fuel st = .ok st') : minimizeNodes fuel' st' = .ok st' := by
  apply minimize_keysDistinct_noop
  unfold minimizeNodes at h
  have hnodup0 : ((buildGroups st st.nodes).map Prod.fst).Nodup :=
    buildGroups_fold_nodup st st.nodes [] (by simp)
  have hmk0 : ∀ g ∈ buildGroups st st.nodes, ∀ j ∈ g.2, nodeKey st j = g.1 :=
    buildGroups_fold_member_keys st st.nodes [] (by simp)
  have hfoldcnt : ∀ K, groupsCount (buildGroups st st.nodes) K =
      (st.nodes.map (nodeKey st)).count K := by
    intro K
    have h2 := buildGroups_fold_counts st st.nodes [] K
    simpa [groupsCount, buildGroups] using h2
  have hcnt0 : ∀ g ∈ buildGroups st st.nodes,
      (st.nodes.map (nodeKey st)).count g.1 = g.2.length := by
    intro g hg
    obtain ⟨K, l⟩ := g
    have h1 := groupsCount_of_mem hnodup0 hg
    rw [hfoldcnt K] at h1
    exact h1
  have hbound0 : ∀ K, K ∉ (buildGroups st st.nodes).map Prod.fst →
      (st.nodes.map (nodeKey st)).count K ≤ 1 := by
    intro K hK
    have h0 : groupsCount (buildGroups st st.nodes) K = 0 := groupsCount_not_mem hK
    rw [hfoldcnt K] at h0
    omega
  obtain ⟨hdp, hle⟩ := processGroups_count fuel st (buildGroups st st.nodes) st st'
    (dataPres_refl st) hnodup0 hmk0 hcnt0 hbound0 h
  rw [KeysDistinct, dataPres_nodeKey hdp, List.nodup_iff_count_le_one]
  intro a
  rw [← prodCount_eq]
  exact hle a

/-- A state with one genuine duplicate cluster that merges successfully:
node 1 duplicates node 0 (same kind, same first line) and is node 0's
child. -/
def c6WitnessState : PState :=
  { heap := fun i =>
      if i = 0 then ⟨0, some .P1, [⟨1, .ts .STATEMENT, ['a']⟩], [1], []⟩
      else if i = 1 then ⟨1, some .P1, [⟨1, .ts .STATEMENT, ['b']⟩], [], [0]⟩
      else default
    hsize := 2
    nodes := [0, 1] }

/-- The state after one run of the minimiser on `c6WitnessState`. -/
def c6WitnessResult : PState :=
  match minimizeNodes 10 c6WitnessState with
  | .ok s => s
  | .error _ => emptyState

/-- Witness for C6: one run merges the duplicate pair, the second run
changes nothing. -/
theorem claim_C6_witness :
    minimizeNodes 10 c6WitnessState = .ok c6WitnessResult ∧
    minimizeNodes 10 c6WitnessResult = .ok c6WitnessResult :=
  ⟨rfl, claim_C6_minimize_idempotent 10 10 c6WitnessState c6WitnessResult rfl⟩

/- ### C4: the single-entry property of the built graph -/

/-- The master-list nodes whose `parents` list is empty. -/
def emptyParentNodes (st : PState) : List Nat :=
  st.nodes.filter fun i => (hget st i).parents.isEmpty

/-- Every node on the master list has a non-empty `parents` list, except
for the ids on the excuse list `exs` (nodes a builder loop has created
and appended but whose incoming link is only added by the builder's
epilogue). -/
def GPxs (st : PState) (exs : List Nat) : Prop :=
  ∀ i ∈ st.nodes, i ∈ exs ∨ (hget st i).parents ≠ []

/-- Well-formedness of the master list: every listed id is a live heap
index and no id is listed twice. -/
def Wf (st : PState) : Prop :=
  (∀ i ∈ st.nodes, i < st.hsize) ∧ st.nodes.Nodup

/-- Prepend an optional pending id to an excuse list. -/
def optCons : Option Nat → List Nat → List Nat
  | none, l => l
  | some e, l => e :: l

/-- Parents lists never lose their last element between two states. -/
def pKeep (st st' : PState) : Prop :=
  ∀ i, (hget st i).parents ≠ [] → (hget st' i).parents ≠ []

/- #### Heap-operation computation lemmas -/

theorem parents_pushToken (st : PState) (i : Nat) (t : Token) (j : Nat) :
    (hget (pushToken st i t) j).parents = (hget st j).parents := by
  by_cases h : j = i <;> simp [pushToken, hget_hset, h]

theorem children_pushToken (st : PState) (i : Nat) (t : Token) (j : Nat) :
    (hget (pushToken st i t) j).children = (hget st j).children := by
  by_cases h : j = i <;> simp [pushToken, hget_hset, h]

theorem parents_pushChild (st : PState) (i c : Nat) (j : Nat) :
    (hget (pushChild st i c) j).parents = (hget st j).parents := by
  by_cases h : j = i <;> simp [pushChild, hget_hset, h]

theorem children_pushChild (st : PState) (i c : Nat) (j : Nat) :
    (hget (pushChild st i c) j).children =
      if j = i then (hget st i).children ++ [c] else (hget st j).children := by
  by_cases h : j = i <;> simp [pushChild, hget_hset, h]

theorem parents_pushParent (st : PState) (i p : Nat) (j : Nat) :
    (hget (pushParent st i p) j).parents =
      if j = i then (hget st i).parents ++ [p] else (hget st j).parents := by
  by_cases h : j = i <;> simp [pushParent, hget_hset, h]

theorem children_pushParent (st : PState) (i p : Nat) (j : Nat) :
    (hget (pushParent st i p) j).children = (hget st j).children := by
  by_cases h : j = i <;> simp [pushParent, hget_hset, h]

theorem parents_setType (st : PState) (i : Nat) (ty : Option DecompStates) (j : Nat) :
    (hget (setType st i ty) j).parents = (hget st j).parents := by
  by_cases h : j = i <;> simp [setType, hget_hset, h]

theorem children_setType (st : PState) (i : Nat) (ty : Option DecompStates) (j : Nat) :
    (hget (setType st i ty) j).children = (hget st j).children := by
  by_cases h : j = i <;> simp [setType, hget_hset, h]

theorem parents_setVal (st : PState) (i : Nat) (v : Int) (j : Nat) :
    (hget (setVal st i v) j).parents = (hget st j).parents := by
  by_cases h : j = i <;> simp [setVal, hget_hset, h]

theorem children_setVal (st : PState) (i : Nat) (v : Int) (j : Nat) :
    (hget (setVal st i v) j).children = (hget st j).children := by
  by_cases h : j = i <;> simp [setVal, hget_hset, h]

theorem hget_allocNode (st : PState) (v : Int) (tk : List Token) (j : Nat) :
    hget (allocNode st v tk).1 j =
      if j = st.hsize then ⟨v, none, tk, [], []⟩ else hget st j := rfl

theorem hsize_allocNode (st : PState) (v : Int) (tk : List Token) :
    (allocNode st v tk).1.hsize = st.hsize + 1 := rfl

theorem nodes_allocNode (st : PState) (v : Int) (tk : List Token) :
    (allocNode st v tk).1.nodes = st.nodes := rfl

theorem snd_allocNode (st : PState) (v : Int) (tk : List Token) :
    (allocNode st v tk).2 = st.hsize := rfl

theorem hsize_pushToken (st : PState) (i : Nat) (t : Token) :
    (pushToken st i t).hsize = st.hsize := rfl

theorem hsize_pushChild (st : PState) (i c : Nat) : (pushChild st i c).hsize = st.hsize := rfl

theorem hsize_pushParent (st : PState) (i p : Nat) : (pushParent st i p).hsize = st.hsize := rfl

theorem hsize_setType (st : PState) (i : Nat) (ty : Option DecompStates) :
    (setType st i ty).hsize = st.hsize := rfl

theorem hsize_setVal (st : PState) (i : Nat) (v : Int) : (setVal st i v).hsize = st.hsize := rfl

theorem nodes_pushToken (st : PState) (i : Nat) (t : Token) :
    (pushToken st i t).nodes = st.nodes := rfl

theorem nodes_pushChild (st : PState) (i c : Nat) : (pushChild st i c).nodes = st.nodes := rfl

theorem nodes_pushParent (st : PState) (i p : Nat) : (pushParent st i p).nodes = st.nodes := rfl

theorem nodes_setType (st : PState) (i : Nat) (ty : Option DecompStates) :
    (setType st i ty).nodes = st.nodes := rfl

theorem nodes_setVal (st : PState) (i : Nat) (v : Int) : (setVal st i v).nodes = st.nodes := rfl

theorem nodes_appendNodeList (st : PState) (i : Nat) :
    (appendNodeList st i).nodes = st.nodes ++ [i] := rfl

theorem hsize_appendNodeList (st : PState) (i : Nat) :
    (appendNodeList st i).hsize = st.hsize := rfl

theorem hget_appendNodeList (st : PState) (i j : Nat) :
    hget (appendNodeList st i) j = hget st j := rfl

/- #### Transfer lemmas for `GPxs`, `Wf`, `pKeep` -/

theorem pKeep_refl (st : PState) : pKeep st st := fun _ h => h

theorem pKeep_trans {s1 s2 s3 : PState} (h1 : pKeep s1 s2) (h2 : pKeep s2 s3) :
    pKeep s1 s3 := fun i h => h2 i (h1 i h)

theorem pKeep_pushToken (st : PState) (i : Nat) (t : Token) : pKeep st (pushToken st i t) :=
  fun j h => by rw [parents_pushToken]; exact h

theorem pKeep_pushChild (st : PState) (i c : Nat) : pKeep st (pushChild st i c) :=
  fun j h => by rw [parents_pushChild]; exact h

theorem pKeep_setType (st : PState) (i : Nat) (ty : Option DecompStates) :
    pKeep st (setType st i ty) :=
  fun j h => by rw [parents_setType]; exact h

theorem pKeep_setVal (st : PState) (i : Nat) (v : Int) : pKeep st (setVal st i v) :=
  fun j h => by rw [parents_setVal]; exact h

theorem pKeep_pushParent (st : PState) (i p : Nat) : pKeep st (pushParent st i p) := by
  intro j h
  rw [parents_pushParent]
  split
  · simp
  · exact h

theorem pKeep_appendNodeList (st : PState) (i : Nat) : pKeep st (appendNodeList st i) :=
  fun j h => by rw [hget_appendNodeList]; exact h

theorem GPxs_mono_exs {st : PState} {exs exs' : List Nat}
    (hsub : ∀ x ∈ exs, x ∈ exs') (h : GPxs st exs) : GPxs st exs' := by
  intro i hi
  rcases h i hi with hx | hp
  · exact Or.inl (hsub i hx)
  · exact Or.inr hp

theorem GPxs_transfer {st st' : PState} (hnodes : st'.nodes = st.nodes)
    (hk : pKeep st st') {exs : List Nat} (h : GPxs st exs) : GPxs st' exs := by
  intro i hi
  rw [hnodes] at hi
  rcases h i hi with hx | hp
  · exact Or.inl hx
  · exact Or.inr (hk i hp)

theorem GPxs_allocNode {st : PState} {exs : List Nat} (hwf : Wf st) (h : GPxs st exs)
    (v : Int) (tk : List Token) : GPxs (allocNode st v tk).1 exs := by
  intro i hi
  rw [nodes_allocNode] at hi
  rcases h i hi with hx | hp
  · exact Or.inl hx
  · refine Or.inr ?_
    rw [hget_allocNode, if_neg (Nat.ne_of_lt (hwf.1 i hi))]
    exact hp

theorem GPxs_pushToken {st : PState} {exs : List Nat} (h : GPxs st exs) (i : Nat)
    (t : Token) : GPxs (pushToken st i t) exs := by
  intro j hj
  rcases h j hj with hx | hp
  · exact Or.inl hx
  · exact Or.inr (by rw [parents_pushToken]; exact hp)

theorem GPxs_pushChild {st : PState} {exs : List Nat} (h : GPxs st exs) (i c : Nat) :
    GPxs (pushChild st i c) exs := by
  intro j hj
  rcases h j hj with hx | hp
  · exact Or.inl hx
  · exact Or.inr (by rw [parents_pushChild]; exact hp)

theorem GPxs_pushParent {st : PState} {exs : List Nat} (h : GPxs st exs) (i p : Nat) :
    GPxs (pushParent st i p) exs := by
  intro j hj
  rcases h j hj with hx | hp
  · exact Or.inl hx
  · refine Or.inr ?_
    rw [parents_pushParent]
    split
    · simp
    · exact hp

theorem GPxs_setType {st : PState} {exs : List Nat} (h : GPxs st exs) (i : Nat)
    (ty : Option DecompStates) : GPxs (setType st i ty) exs := by
  intro j hj
  rcases h j hj with hx | hp
  · exact Or.inl hx
  · exact Or.inr (by rw [parents_setType]; exact hp)

theorem GPxs_setVal {st : PState} {exs : List Nat} (h : GPxs st exs) (i : Nat)
    (v : Int) : GPxs (setVal st i v) exs := by
  intro j hj
  rcases h j hj with hx | hp
  · exact Or.inl hx
  · exact Or.inr (by rw [parents_setVal]; exact hp)

theorem GPxs_appendNodeList {st : PState} {exs : List Nat} {i : Nat}
    (h : GPxs st exs) (hi : i ∈ exs ∨ (hget st i).parents ≠ []) :
    GPxs (appendNodeList st i) exs := by
  intro j hj
  rw [nodes_appendNodeList, List.mem_append, List.mem_singleton] at hj
  rcases hj with hj | hj
  · rcases h j hj with hx | hp
    · exact Or.inl hx
    · exact Or.inr hp
  · subst hj
    exact hi

theorem Wf_transfer {st st' : PState} (hnodes : st'.nodes = st.nodes)
    (hsz : st.hsize ≤ st'.hsize) (h : Wf st) : Wf st' := by
  refine ⟨fun i hi => ?_, ?_⟩
  · rw [hnodes] at hi
    exact Nat.lt_of_lt_of_le (h.1 i hi) hsz
  · rw [hnodes]
    exact h.2

theorem fresh_not_mem {st : PState} (hwf : Wf st) {i : Nat} (hge : st.hsize ≤ i) :
    i ∉ st.nodes := fun hmem => absurd (hwf.1 i hmem) (Nat.not_lt.mpr hge)

theorem Wf_appendNodeList {st : PState} {i : Nat} (h : Wf st) (hlt : i < st.hsize)
    (hni : i ∉ st.nodes) : Wf (appendNodeList st i) := by
  refine ⟨fun j hj => ?_, ?_⟩
  · rw [nodes_appendNodeList, List.mem_append, List.mem_singleton] at hj
    rw [hsize_appendNodeList]
    rcases hj with hj | hj
    · exact h.1 j hj
    · subst hj; exact hlt
  · rw [nodes_appendNodeList]
    refine List.Nodup.append h.2 (List.nodup_singleton i) ?_
    intro a ha hb
    rw [List.mem_singleton] at hb
    subst hb
    exact hni ha

theorem GPxs_of {st st' : PState} {exs : List Nat} {Δ : List Nat}
    (hnodes : st'.nodes = st.nodes ++ Δ)
    (hold : ∀ i ∈ st.nodes, (hget st i).parents ≠ [] → (hget st' i).parents ≠ [])
    (hnew : ∀ i ∈ Δ, i ∈ exs ∨ (hget st' i).parents ≠ [])
    (h : GPxs st exs) : GPxs st' exs := by
  intro i hi
  rw [hnodes, List.mem_append] at hi
  rcases hi with hi | hi
  · rcases h i hi with hx | hp
    · exact Or.inl hx
    · exact Or.inr (hold i hi hp)
  · exact hnew i hi

/- #### Two facts about the transition table -/

/-- No rule leaves `WHILE_END`: every token dispatches to `ERROR`. -/
theorem fsmT_WHILE_END (t : TokenState) : fsmT .WHILE_END t = .ERROR := by
  cases t <;> rfl

set_option maxHeartbeats 2000000 in
/-- `IF_ELSE` is only ever entered from the three states that have an
`ELSE` rule. -/
theorem fsmT_IF_ELSE_inv {s : FSMState} {t : TokenState} (h : fsmT s t = .IF_ELSE) :
    s = .IF_THEN_SINGLE_STATEMENT ∨ s = .ELSE_IF_STATEMENT ∨ s = .IF_THEN_END := by
  cases s <;> cases t <;> revert h <;> decide

/- #### The builder invariant bundle -/

/-- What a successful sub-builder call guarantees, relative to its entry
state: the excused-parents invariant is preserved, the heap only grows,
well-formedness is preserved, the returned walker is live and is either
the caller's root or a fresh node, heap entries other than the root's
are untouched, the root's parents are untouched, and the root's children
grow by at most one id (by none when the root itself is returned). -/
def BPost (st st' : PState) (root w : Nat) (exs : List Nat) : Prop :=
  GPxs st' exs ∧ st.hsize ≤ st'.hsize ∧ Wf st' ∧ w < st'.hsize ∧
  (w = root ∨ st.hsize ≤ w) ∧
  (∀ id, id < st.hsize → id ≠ root → hget st' id = hget st id) ∧
  (hget st' root).parents = (hget st root).parents ∧
  ∃ l, (hget st' root).children = (hget st root).children ++ l ∧ l.length ≤ 1 ∧
    (w = root → l = [])

/-- The invariant statement shared by the six sub-builders. -/
def BTOK (f : Nat → PState → Nat → List Token → Except PyErr (PState × List Token × Nat))
    (fuel : Nat) : Prop :=
  ∀ exs st root tokens st' tks w, f fuel st root tokens = .ok (st', tks, w) →
    GPxs st exs → root < st.hsize → Wf st → BPost st st' root w exs

/-- The invariant statement of the dispatcher `build_tree`: `None`
leaves the state untouched, a returned node satisfies `BPost`. -/
def TreeOK (fuel : Nat) : Prop :=
  ∀ exs st root tokens st' tks w?,
    buildTree fuel st root tokens = .ok (st', tks, w?) →
    GPxs st exs → root < st.hsize → Wf st →
    (w? = none → st' = st) ∧ ∀ w, w? = some w → BPost st st' root w exs

/-- `build_statement_tree`'s loop only appends tokens to the walker. -/
def StmtLoopOK (fuel : Nat) : Prop :=
  ∀ st walker state tokens st' tks w,
    stmtLoop fuel st walker state tokens = .ok (st', tks, w) →
    w = walker ∧ st'.hsize = st.hsize ∧ st'.nodes = st.nodes ∧
    (∀ id, id ≠ walker → hget st' id = hget st id) ∧
    (hget st' walker).parents = (hget st walker).parents ∧
    (hget st' walker).children = (hget st walker).children

/-- The invariant of `build_if_tree`'s loop, relative to a base `B` (the
caller's entry heap size): the excuse list is preserved, ids below `B`
are untouched, the walker and the collected `last_walkers` stay in the
fresh region, and a start node with two or more children comes with a
non-empty `last_walkers` list (the fact the join-stitching needs). -/
def IfLoopOK (fuel : Nat) : Prop :=
  ∀ exs B st start walker state tokens lws succ st' tks w' state' lws',
    ifLoop fuel st start walker state tokens lws succ = .ok (st', tks, w', state', lws') →
    GPxs st exs → Wf st →
    B ≤ start → start < st.hsize → B ≤ walker → walker < st.hsize →
    (∀ x ∈ lws, B ≤ x ∧ x < st.hsize) →
    (state = .IF_THEN_SINGLE_STATEMENT ∨ state = .ELSE_IF_STATEMENT ∨
      state = .IF_THEN_END → lws ≠ []) →
    ((hget st start).children.length < 2 ∨ lws ≠ []) →
    (walker = start → (hget st start).children = []) →
    GPxs st' exs ∧ st.hsize ≤ st'.hsize ∧ Wf st' ∧
    B ≤ w' ∧ w' < st'.hsize ∧
    (∀ x ∈ lws', B ≤ x ∧ x < st'.hsize) ∧
    (∀ id, id < B → hget st' id = hget st id) ∧
    ((hget st' start).children.length < 2 ∨ lws' ≠ [])

/-- The invariant of `build_while_tree`'s loop: a pending end node (the
one `WHILE_END` creates without parents) is excused, recorded as fresh,
and forces the `WHILE_END` / success state. -/
def WhileLoopOK (fuel : Nat) : Prop :=
  ∀ exs B st start walker state tokens endO succ st' tks w' state' endO',
    whileLoop fuel st start walker state tokens endO succ = .ok (st', tks, w', state', endO') →
    GPxs st (optCons endO exs) → Wf st →
    B ≤ start → start < st.hsize → B ≤ walker → walker < st.hsize →
    (∀ e, endO = some e → state = .WHILE_END ∧ succ = true ∧ B ≤ e ∧ e < st.hsize) →
    GPxs st' (optCons endO' exs) ∧ st.hsize ≤ st'.hsize ∧ Wf st' ∧
    B ≤ w' ∧ w' < st'.hsize ∧
    (∀ id, id < B → hget st' id = hget st id) ∧
    (∀ e, endO' = some e → B ≤ e ∧ e < st'.hsize)

/-- The invariant of `build_do_while_tree`'s loop: the end node it
reports is the walker at `DO_WHILE_END` time, which is already parented,
so no excuse is needed. -/
def DoLoopOK (fuel : Nat) : Prop :=
  ∀ exs B st start walker state tokens endO succ st' tks w' state' endO',
    doLoop fuel st start walker state tokens endO succ = .ok (st', tks, w', state', endO') →
    GPxs st exs → Wf st →
    B ≤ start → start < st.hsize → B ≤ walker → walker < st.hsize →
    (∀ e, endO = some e → B ≤ e ∧ e < st.hsize) → succ = false →
    GPxs st' exs ∧ st.hsize ≤ st'.hsize ∧ Wf st' ∧
    B ≤ w' ∧ w' < st'.hsize ∧
    (∀ id, id < B → hget st' id = hget st id) ∧
    (∀ e, endO' = some e → B ≤ e ∧ e < st'.hsize)

/-- The invariant of `build_for_tree`'s loop: `for_modify` is created
without parents and stays excused until the builder's epilogue links it;
a pending end node is created only on the immediately-returning `FOR_END`
branch. -/
def ForLoopOK (fuel : Nat) : Prop :=
  ∀ exs B st start walker state tokens fcO fmO fblwO succ st' tks w' state' endO'
      fcO' fmO' fblwO',
    forLoop fuel st start walker state tokens none fcO fmO fblwO succ =
      .ok (st', tks, w', state', endO', fcO', fmO', fblwO') →
    GPxs st (optCons fmO exs) → Wf st →
    B ≤ start → start < st.hsize → B ≤ walker → walker < st.hsize →
    (∀ x, fcO = some x → B ≤ x ∧ x < st.hsize) →
    (∀ x, fmO = some x → B ≤ x ∧ x < st.hsize) →
    (∀ x, fblwO = some x → B ≤ x ∧ x < st.hsize) →
    succ = false →
    GPxs st' (optCons endO' (optCons fmO' exs)) ∧ st.hsize ≤ st'.hsize ∧ Wf st' ∧
    B ≤ w' ∧ w' < st'.hsize ∧
    (∀ id, id < B → hget st' id = hget st id) ∧
    (∀ x, endO' = some x → B ≤ x ∧ x < st'.hsize) ∧
    (∀ x, fcO' = some x → B ≤ x ∧ x < st'.hsize) ∧
    (∀ x, fmO' = some x → B ≤ x ∧ x < st'.hsize) ∧
    (∀ x, fblwO' = some x → B ≤ x ∧ x < st'.hsize)

/-- The invariant of `build_function_tree`'s loop: every end node it can
report (the `P1`-ified start or a fresh join node) is parented on
creation. -/
def FuncLoopOK (fuel : Nat) : Prop :=
  ∀ exs B st start walker state tokens endO peeked st' tks w' state' endO' peeked',
    funcLoop fuel st start walker state tokens endO false peeked =
      .ok (st', tks, w', state', endO', peeked') →
    GPxs st exs → Wf st →
    B ≤ start → start < st.hsize → B ≤ walker → walker < st.hsize →
    (∀ e, endO = some e → B ≤ e ∧ e < st.hsize) →
    GPxs st' exs ∧ st.hsize ≤ st'.hsize ∧ Wf st' ∧
    B ≤ w' ∧ w' < st'.hsize ∧
    (∀ id, id < B → hget st' id = hget st id) ∧
    (∀ e, endO' = some e → B ≤ e ∧ e < st'.hsize)

/-- The invariant of `parse_tokens`' queue-draining loop. -/
def PtLoopOK (fuel : Nat) : Prop :=
  ∀ st walker tokens st',
    ptLoop fuel st walker tokens = .ok st' →
    GPxs st [] → Wf st → walker < st.hsize →
    GPxs st' [] ∧ Wf st'

/-- All fourteen loop/builder invariants at one fuel value, proved
simultaneously by induction on the fuel. -/
structure InvPack (fuel : Nat) : Prop where
  tree : TreeOK fuel
  stmtB : BTOK buildStatementTree fuel
  stmtL : StmtLoopOK fuel
  ifB : BTOK buildIfTree fuel
  ifL : IfLoopOK fuel
  whileB : BTOK buildWhileTree fuel
  whileL : WhileLoopOK fuel
  doB : BTOK buildDoWhileTree fuel
  doL : DoLoopOK fuel
  forB : BTOK buildForTree fuel
  forL : ForLoopOK fuel
  funcB : BTOK buildFunctionTree fuel
  funcL : FuncLoopOK fuel
  pt : PtLoopOK fuel

/-- With no fuel every function reports `fuelOut`, so all fourteen
statements hold vacuously. -/
theorem invPack_zero : InvPack 0 := by
  refine ⟨?_, ?_, ?_, ?_, ?_, ?_, ?_, ?_, ?_, ?_, ?_, ?_, ?_, ?_⟩
  · intro exs st root tokens st' tks w? h
    exact absurd h (by intro hh; exact Except.noConfusion hh)
  · intro exs st root tokens st' tks w h
    exact absurd h (by intro hh; exact Except.noConfusion hh)
  · intro st walker state tokens st' tks w h
    exact absurd h (by intro hh; exact Except.noConfusion hh)
  · intro exs st root tokens st' tks w h
    exact absurd h (by intro hh; exact Except.noConfusion hh)
  · intro exs B st start walker state tokens lws succ st' tks w' state' lws' h
    exact absurd h (by intro hh; exact Except.noConfusion hh)
  · intro exs st root tokens st' tks w h
    exact absurd h (by intro hh; exact Except.noConfusion hh)
  · intro exs B st start walker state tokens endO succ st' tks w' state' endO' h
    exact absurd h (by intro hh; exact Except.noConfusion hh)
  · intro exs st root tokens st' tks w h
    exact absurd h (by intro hh; exact Except.noConfusion hh)
  · intro exs B st start walker state tokens endO succ st' tks w' state' endO' h
    exact absurd h (by intro hh; exact Except.noConfusion hh)
  · intro exs st root tokens st' tks w h
    exact absurd h (by intro hh; exact Except.noConfusion hh)
  · intro exs B st start walker state tokens fcO fmO fblwO succ st' tks w' state' endO'
      fcO' fmO' fblwO' h
    exact absurd h (by intro hh; exact Except.noConfusion hh)
  · intro exs st root tokens st' tks w h
    exact absurd h (by intro hh; exact Except.noConfusion hh)
  · intro exs B st start walker state tokens endO peeked st' tks w' state' endO' peeked' h
    exact absurd h (by intro hh; exact Except.noConfusion hh)
  · intro st walker tokens st' h
    exact absurd h (by intro hh; exact Except.noConfusion hh)

/- #### Untouched-id lemmas -/

theorem hget_pushToken_ne {j i : Nat} (st : PState) (t : Token) (h : j ≠ i) :
    hget (pushToken st i t) j = hget st j := by
  simp [pushToken, hget_hset, h]

theorem hget_pushChild_ne {j i : Nat} (st : PState) (c : Nat) (h : j ≠ i) :
    hget (pushChild st i c) j = hget st j := by
  simp [pushChild, hget_hset, h]

theorem hget_pushParent_ne {j i : Nat} (st : PState) (p : Nat) (h : j ≠ i) :
    hget (pushParent st i p) j = hget st j := by
  simp [pushParent, hget_hset, h]

theorem hget_setType_ne {j i : Nat} (st : PState) (ty : Option DecompStates) (h : j ≠ i) :
    hget (setType st i ty) j = hget st j := by
  simp [setType, hget_hset, h]

theorem hget_setVal_ne {j i : Nat} (st : PState) (v : Int) (h : j ≠ i) :
    hget (setVal st i v) j = hget st j := by
  simp [setVal, hget_hset, h]

theorem hget_allocNode_ne {j : Nat} (st : PState) (v : Int) (tk : List Token)
    (h : j ≠ st.hsize) : hget (allocNode st v tk).1 j = hget st j := by
  rw [hget_allocNode, if_neg h]

/- #### The induction step, one function at a time -/

/-- Step for `stmtLoop`: it only ever appends tokens to the walker. -/
theorem stmtL_step (fuel : Nat) (IH : InvPack fuel) : StmtLoopOK (fuel + 1) := by
  intro st walker state tokens st' tks w h
  cases tokens with
  | nil =>
    rw [stmtLoop.eq_def] at h
    dsimp only at h
    obtain ⟨rfl, rfl, rfl⟩ : st = st' ∧ ([] : List Token) = tks ∧ walker = w := by
      simpa using h
    exact ⟨rfl, rfl, rfl, fun id _ => rfl, rfl, rfl⟩
  | cons peek rest =>
    rw [stmtLoop.eq_def] at h
    dsimp only at h
    split at h
    · exact absurd h (by intro hh; exact Except.noConfusion hh)
    · split at h
      · obtain ⟨rfl, rfl, rfl⟩ :
            pushToken st walker peek = st' ∧ rest = tks ∧ walker = w := by
          simpa using h
        refine ⟨rfl, rfl, rfl, ?_, ?_, ?_⟩
        · intro id hid
          exact hget_pushToken_ne st peek hid
        · exact parents_pushToken st walker peek walker
        · exact children_pushToken st walker peek walker
      · obtain ⟨hw, hsz, hnd, hfr, hpar, hch⟩ := IH.stmtL _ _ _ _ _ _ _ h
        refine ⟨hw, hsz, hnd, ?_, ?_, ?_⟩
        · intro id hid
          rw [hfr id hid]
          exact hget_pushToken_ne st peek hid
        · rw [hpar]
          exact parents_pushToken st walker peek walker
        · rw [hch]
          exact children_pushToken st walker peek walker

/-- Step for `build_statement_tree`. -/
theorem stmtB_step (fuel : Nat) (IH : InvPack fuel) : BTOK buildStatementTree (fuel + 1) := by
  intro exs st root tokens st' tks w h hgp hroot hwf
  cases tokens with
  | nil =>
    rw [buildStatementTree.eq_def] at h
    exact absurd h (by intro hh; exact Except.noConfusion hh)
  | cons token rest =>
    rw [buildStatementTree.eq_def] at h
    dsimp only at h
    split at h
    · obtain ⟨rfl, rfl, rfl⟩ : st = st' ∧ rest = tks ∧ root = w := by simpa using h
      exact ⟨hgp, Nat.le_refl _, hwf, hroot, Or.inl rfl, fun id _ _ => rfl, rfl,
        [], by simp, by simp, fun _ => rfl⟩
    · split at h
      · -- fresh `P1` child
        rw [snd_allocNode] at h
        obtain ⟨hw, hsz, hnd, hfr, hpar, hch⟩ := IH.stmtL _ _ _ _ _ _ _ h
        subst hw
        have hrs : root ≠ st.hsize := by omega
        have hSsz :
            (appendNodeList (pushChild (pushParent (setType
              (allocNode st ((hget st root).val + 1) [token]).1 st.hsize
              (mapFSMToDecomp (fsmT .INIT_START (colTS token.type)))) st.hsize root)
              root st.hsize) st.hsize).hsize = st.hsize + 1 := by
          simp [hsize_appendNodeList, hsize_pushChild, hsize_pushParent, hsize_setType,
            hsize_allocNode]
        have hSnd :
            (appendNodeList (pushChild (pushParent (setType
              (allocNode st ((hget st root).val + 1) [token]).1 st.hsize
              (mapFSMToDecomp (fsmT .INIT_START (colTS token.type)))) st.hsize root)
              root st.hsize) st.hsize).nodes = st.nodes ++ [st.hsize] := by
          simp [nodes_appendNodeList, nodes_pushChild, nodes_pushParent, nodes_setType,
            nodes_allocNode]
        have hpS : ∀ i, i ≠ st.hsize →
            (hget (appendNodeList (pushChild (pushParent (setType
              (allocNode st ((hget st root).val + 1) [token]).1 st.hsize
              (mapFSMToDecomp (fsmT .INIT_START (colTS token.type)))) st.hsize root)
              root st.hsize) st.hsize) i).parents = (hget st i).parents := by
          intro i hi
          rw [hget_appendNodeList, parents_pushChild, parents_pushParent, if_neg hi,
            parents_setType, hget_allocNode_ne st _ _ hi]
        have hpSsid :
            (hget (appendNodeList (pushChild (pushParent (setType
              (allocNode st ((hget st root).val + 1) [token]).1 st.hsize
              (mapFSMToDecomp (fsmT .INIT_START (colTS token.type)))) st.hsize root)
              root st.hsize) st.hsize) st.hsize).parents = [root] := by
          rw [hget_appendNodeList, parents_pushChild, parents_pushParent, if_pos rfl,
            parents_setType, hget_allocNode]
          simp
        have hfrS : ∀ id, id < st.hsize → id ≠ root →
            hget (appendNodeList (pushChild (pushParent (setType
              (allocNode st ((hget st root).val + 1) [token]).1 st.hsize
              (mapFSMToDecomp (fsmT .INIT_START (colTS token.type)))) st.hsize root)
              root st.hsize) st.hsize) id = hget st id := by
          intro id hlt hne
          have hids : id ≠ st.hsize := by omega
          rw [hget_appendNodeList, hget_pushChild_ne _ _ hne, hget_pushParent_ne _ _ hids,
            hget_setType_ne _ _ hids, hget_allocNode_ne st _ _ hids]
        have hchS :
            (hget (appendNodeList (pushChild (pushParent (setType
              (allocNode st ((hget st root).val + 1) [token]).1 st.hsize
              (mapFSMToDecomp (fsmT .INIT_START (colTS token.type)))) st.hsize root)
              root st.hsize) st.hsize) root).children = (hget st root).children ++ [st.hsize] := by
          rw [hget_appendNodeList, children_pushChild, if_pos rfl, children_pushParent,
            children_setType, hget_allocNode_ne st _ _ hrs]
        refine ⟨?_, ?_, ?_, ?_, Or.inr (Nat.le_refl _), ?_, ?_,
          [st.hsize], ?_, by simp, ?_⟩
        · -- GPxs
          intro i hi
          rw [hnd, hSnd, List.mem_append, List.mem_singleton] at hi
          rcases hi with hi | hi
          · rcases hgp i hi with hx | hp
            · exact Or.inl hx
            · refine Or.inr ?_
              have hisid : i ≠ st.hsize := by
                have := hwf.1 i hi; omega
              rw [hfr i hisid, hpS i hisid]
              exact hp
          · subst hi
            refine Or.inr ?_
            rw [hpar, hpSsid]
            simp
        · rw [hsz, hSsz]; omega
        · refine ⟨fun i hi => ?_, ?_⟩
          · rw [hnd, hSnd, List.mem_append, List.mem_singleton] at hi
            rw [hsz, hSsz]
            rcases hi with hi | hi
            · have := hwf.1 i hi; omega
            · omega
          · rw [hnd, hSnd]
            refine List.Nodup.append hwf.2 (List.nodup_singleton st.hsize) ?_
            intro a ha hb
            rw [List.mem_singleton] at hb
            subst hb
            exact fresh_not_mem hwf (Nat.le_refl _) ha
        · rw [hsz, hSsz]; omega
        · intro id hlt hne
          have hids : id ≠ st.hsize := by omega
          rw [hfr id hids, hfrS id hlt hne]
        · rw [hfr root hrs]
          exact hpS root hrs
        · rw [hfr root hrs, hchS]
        · intro hwr
          exact absurd hwr.symm (by omega)
      · -- coalesce onto the `P1` walker
        obtain ⟨hw, hsz, hnd, hfr, hpar, hch⟩ := IH.stmtL _ _ _ _ _ _ _ h
        refine ⟨?_, ?_, ?_, ?_, Or.inl hw, ?_, ?_, [], ?_, by simp, fun _ => rfl⟩
        · intro i hi
          rw [hnd, nodes_pushToken] at hi
          rcases hgp i hi with hx | hp
          · exact Or.inl hx
          · refine Or.inr ?_
            by_cases hir : i = root
            · subst hir
              rw [hpar, parents_pushToken]
              exact hp
            · rw [hfr i hir, parents_pushToken]
              exact hp
        · rw [hsz, hsize_pushToken]
        · refine Wf_transfer ?_ ?_ hwf
          · rw [hnd, nodes_pushToken]
          · rw [hsz, hsize_pushToken]
        · rw [hw, hsz, hsize_pushToken]; exact hroot
        · intro id hlt hne
          rw [hfr id hne, hget_pushToken_ne st token hne]
        · rw [hpar, parents_pushToken]
        · rw [hch, children_pushToken]
          simp

/-- Step for the dispatcher `build_tree`. -/
theorem tree_step (fuel : Nat) (IH : InvPack fuel) : TreeOK (fuel + 1) := by
  intro exs st root tokens st' tks w? h hgp hroot hwf
  cases tokens with
  | nil =>
    rw [buildTree.eq_def] at h
    exact absurd h (by intro hh; exact Except.noConfusion hh)
  | cons peek rest =>
    rw [buildTree.eq_def] at h
    dsimp only at h
    split at h
    · obtain ⟨rfl, rfl, hwn⟩ : st = st' ∧ peek :: rest = tks ∧ none = w? := by simpa using h
      subst hwn
      exact ⟨fun _ => rfl, fun w hw => Option.noConfusion hw⟩
    · split at h
      · split at h
        next e heq => exact absurd h (by intro hh; exact Except.noConfusion hh)
        next st2 tks2 w2 heq =>
          obtain ⟨rfl, rfl, hws⟩ : st2 = st' ∧ tks2 = tks ∧ some w2 = w? := by simpa using h
          subst hws
          refine ⟨fun hN => Option.noConfusion hN, fun w0 hw0 => ?_⟩
          obtain rfl : w2 = w0 := by simpa using hw0
          exact IH.stmtB _ _ _ _ _ _ _ heq hgp hroot hwf
      · split at h
        · split at h
          next e heq => exact absurd h (by intro hh; exact Except.noConfusion hh)
          next st2 tks2 w2 heq =>
            obtain ⟨rfl, rfl, hws⟩ : st2 = st' ∧ tks2 = tks ∧ some w2 = w? := by
              simpa using h
            subst hws
            refine ⟨fun hN => Option.noConfusion hN, fun w0 hw0 => ?_⟩
            obtain rfl : w2 = w0 := by simpa using hw0
            exact IH.ifB _ _ _ _ _ _ _ heq hgp hroot hwf
        · split at h
          · split at h
            next e heq => exact absurd h (by intro hh; exact Except.noConfusion hh)
            next st2 tks2 w2 heq =>
              obtain ⟨rfl, rfl, hws⟩ : st2 = st' ∧ tks2 = tks ∧ some w2 = w? := by
                simpa using h
              subst hws
              refine ⟨fun hN => Option.noConfusion hN, fun w0 hw0 => ?_⟩
              obtain rfl : w2 = w0 := by simpa using hw0
              exact IH.whileB _ _ _ _ _ _ _ heq hgp hroot hwf
          · split at h
            · split at h
              next e heq => exact absurd h (by intro hh; exact Except.noConfusion hh)
              next st2 tks2 w2 heq =>
                obtain ⟨rfl, rfl, hws⟩ : st2 = st' ∧ tks2 = tks ∧ some w2 = w? := by
                  simpa using h
                subst hws
                refine ⟨fun hN => Option.noConfusion hN, fun w0 hw0 => ?_⟩
                obtain rfl : w2 = w0 := by simpa using hw0
                exact IH.doB _ _ _ _ _ _ _ heq hgp hroot hwf
            · split at h
              · split at h
                next e heq => exact absurd h (by intro hh; exact Except.noConfusion hh)
                next st2 tks2 w2 heq =>
                  obtain ⟨rfl, rfl, hws⟩ : st2 = st' ∧ tks2 = tks ∧ some w2 = w? := by
                    simpa using h
                  subst hws
                  refine ⟨fun hN => Option.noConfusion hN, fun w0 hw0 => ?_⟩
                  obtain rfl : w2 = w0 := by simpa using hw0
                  exact IH.forB _ _ _ _ _ _ _ heq hgp hroot hwf
              · split at h
                · split at h
                  next e heq => exact absurd h (by intro hh; exact Except.noConfusion hh)
                  next st2 tks2 w2 heq =>
                    obtain ⟨rfl, rfl, hws⟩ : st2 = st' ∧ tks2 = tks ∧ some w2 = w? := by
                      simpa using h
                    subst hws
                    refine ⟨fun hN => Option.noConfusion hN, fun w0 hw0 => ?_⟩
                    obtain rfl : w2 = w0 := by simpa using hw0
                    exact IH.funcB _ _ _ _ _ _ _ heq hgp hroot hwf
                · obtain ⟨rfl, rfl, hwn⟩ : st = st' ∧ peek :: rest = tks ∧ none = w? := by
                    simpa using h
                  subst hwn
                  exact ⟨fun _ => rfl, fun w hw => Option.noConfusion hw⟩

/- #### The four fresh-node creation patterns of the builder loops -/

/-- Fresh node carrying one token and a type, linked under `w`
(`pushParent` new `w`, `pushChild` `w` new, then listed). -/
def mkA (st : PState) (v : Int) (t : Token) (ty : Option DecompStates) (w : Nat) : PState :=
  appendNodeList (pushChild (pushParent (setType (pushToken
    (allocNode st v []).1 st.hsize t) st.hsize ty) st.hsize w) w st.hsize) st.hsize

theorem mkA_hsize (st : PState) (v : Int) (t : Token) (ty : Option DecompStates) (w : Nat) :
    (mkA st v t ty w).hsize = st.hsize + 1 := rfl

theorem mkA_nodes (st : PState) (v : Int) (t : Token) (ty : Option DecompStates) (w : Nat) :
    (mkA st v t ty w).nodes = st.nodes ++ [st.hsize] := rfl

theorem mkA_hget_ne (st : PState) (v : Int) (t : Token) (ty : Option DecompStates) (w : Nat)
    {j : Nat} (h1 : j ≠ st.hsize) (h2 : j ≠ w) : hget (mkA st v t ty w) j = hget st j := by
  rw [mkA, hget_appendNodeList, hget_pushChild_ne _ _ h2, hget_pushParent_ne _ _ h1,
    hget_setType_ne _ _ h1, hget_pushToken_ne _ _ h1, hget_allocNode_ne _ _ _ h1]

theorem mkA_parents_ne (st : PState) (v : Int) (t : Token) (ty : Option DecompStates)
    (w : Nat) {j : Nat} (h1 : j ≠ st.hsize) :
    (hget (mkA st v t ty w) j).parents = (hget st j).parents := by
  rw [mkA, hget_appendNodeList, parents_pushChild, parents_pushParent, if_neg h1,
    parents_setType, parents_pushToken, hget_allocNode_ne _ _ _ h1]

theorem mkA_parents_new (st : PState) (v : Int) (t : Token) (ty : Option DecompStates)
    (w : Nat) : (hget (mkA st v t ty w) st.hsize).parents ≠ [] := by
  rw [mkA, hget_appendNodeList, parents_pushChild, parents_pushParent, if_pos rfl]
  simp

theorem mkA_children_w (st : PState) (v : Int) (t : Token) (ty : Option DecompStates)
    {w : Nat} (hw : w ≠ st.hsize) :
    (hget (mkA st v t ty w) w).children = (hget st w).children ++ [st.hsize] := by
  rw [mkA, hget_appendNodeList, children_pushChild, if_pos rfl, children_pushParent,
    children_setType, children_pushToken, hget_allocNode_ne _ _ _ hw]

theorem mkA_GPxs {st : PState} {exs : List Nat} (hwf : Wf st) (hgp : GPxs st exs)
    (v : Int) (t : Token) (ty : Option DecompStates) (w : Nat) :
    GPxs (mkA st v t ty w) exs := by
  refine GPxs_appendNodeList ?_ (Or.inr ?_)
  · exact GPxs_pushChild (GPxs_pushParent (GPxs_setType (GPxs_pushToken
      (GPxs_allocNode hwf hgp v []) _ _) _ _) _ _) _ _
  · rw [parents_pushChild, parents_pushParent, if_pos rfl]
    simp

theorem mkA_Wf {st : PState} (hwf : Wf st) (v : Int) (t : Token) (ty : Option DecompStates)
    (w : Nat) : Wf (mkA st v t ty w) := by
  refine Wf_appendNodeList ⟨fun i hi => Nat.lt_succ_of_lt (hwf.1 i hi), hwf.2⟩
    (Nat.lt_succ_self _) (fresh_not_mem hwf (Nat.le_refl _))

/-- Fresh node carrying one token but no type, linked under `w`. -/
def mkC (st : PState) (v : Int) (t : Token) (w : Nat) : PState :=
  appendNodeList (pushChild (pushParent (pushToken
    (allocNode st v []).1 st.hsize t) st.hsize w) w st.hsize) st.hsize

theorem mkC_hsize (st : PState) (v : Int) (t : Token) (w : Nat) :
    (mkC st v t w).hsize = st.hsize + 1 := rfl

theorem mkC_nodes (st : PState) (v : Int) (t : Token) (w : Nat) :
    (mkC st v t w).nodes = st.nodes ++ [st.hsize] := rfl

theorem mkC_hget_ne (st : PState) (v : Int) (t : Token) (w : Nat)
    {j : Nat} (h1 : j ≠ st.hsize) (h2 : j ≠ w) : hget (mkC st v t w) j = hget st j := by
  rw [mkC, hget_appendNodeList, hget_pushChild_ne _ _ h2, hget_pushParent_ne _ _ h1,
    hget_pushToken_ne _ _ h1, hget_allocNode_ne _ _ _ h1]

theorem mkC_parents_ne (st : PState) (v : Int) (t : Token) (w : Nat) {j : Nat}
    (h1 : j ≠ st.hsize) : (hget (mkC st v t w) j).parents = (hget st j).parents := by
  rw [mkC, hget_appendNodeList, parents_pushChild, parents_pushParent, if_neg h1,
    parents_pushToken, hget_allocNode_ne _ _ _ h1]

theorem mkC_GPxs {st : PState} {exs : List Nat} (hwf : Wf st) (hgp : GPxs st exs)
    (v : Int) (t : Token) (w : Nat) : GPxs (mkC st v t w) exs := by
  refine GPxs_appendNodeList ?_ (Or.inr ?_)
  · exact GPxs_pushChild (GPxs_pushParent (GPxs_pushToken
      (GPxs_allocNode hwf hgp v []) _ _) _ _) _ _
  · rw [parents_pushChild, parents_pushParent, if_pos rfl]
    simp

theorem mkC_Wf {st : PState} (hwf : Wf st) (v : Int) (t : Token) (w : Nat) :
    Wf (mkC st v t w) := by
  refine Wf_appendNodeList ⟨fun i hi => Nat.lt_succ_of_lt (hwf.1 i hi), hwf.2⟩
    (Nat.lt_succ_self _) (fresh_not_mem hwf (Nat.le_refl _))

/-- Fresh pending node carrying one token and a type but no links (the
`WHILE_END` / `FOR_END` end node, parented only by the epilogue). -/
def mkP (st : PState) (v : Int) (t : Token) (ty : Option DecompStates) : PState :=
  appendNodeList (setType (pushToken (allocNode st v []).1 st.hsize t) st.hsize ty) st.hsize

theorem mkP_hsize (st : PState) (v : Int) (t : Token) (ty : Option DecompStates) :
    (mkP st v t ty).hsize = st.hsize + 1 := rfl

theorem mkP_nodes (st : PState) (v : Int) (t : Token) (ty : Option DecompStates) :
    (mkP st v t ty).nodes = st.nodes ++ [st.hsize] := rfl

theorem mkP_hget_ne (st : PState) (v : Int) (t : Token) (ty : Option DecompStates)
    {j : Nat} (h1 : j ≠ st.hsize) : hget (mkP st v t ty) j = hget st j := by
  rw [mkP, hget_appendNodeList, hget_setType_ne _ _ h1, hget_pushToken_ne _ _ h1,
    hget_allocNode_ne _ _ _ h1]

theorem mkP_GPxs {st : PState} {exs : List Nat} (hwf : Wf st) (hgp : GPxs st exs)
    (v : Int) (t : Token) (ty : Option DecompStates) :
    GPxs (mkP st v t ty) (st.hsize :: exs) := by
  refine GPxs_appendNodeList ?_ (Or.inl (List.mem_cons_self _ _))
  exact GPxs_setType (GPxs_pushToken
    (GPxs_allocNode hwf (GPxs_mono_exs (fun x hx => List.mem_cons_of_mem _ hx) hgp) v [])
    _ _) _ _

theorem mkP_Wf {st : PState} (hwf : Wf st) (v : Int) (t : Token) (ty : Option DecompStates) :
    Wf (mkP st v t ty) := by
  refine Wf_appendNodeList ⟨fun i hi => Nat.lt_succ_of_lt (hwf.1 i hi), hwf.2⟩
    (Nat.lt_succ_self _) (fresh_not_mem hwf (Nat.le_refl _))

/-- The `for_modify` pattern: fresh node carrying one token, no type and
no parents; it adopts `fc` as its child and becomes a parent of `fc`. -/
def mkFM (st : PState) (v : Int) (t : Token) (fc : Nat) : PState :=
  appendNodeList (pushParent (pushChild (pushToken
    (allocNode st v []).1 st.hsize t) st.hsize fc) fc st.hsize) st.hsize

theorem mkFM_hsize (st : PState) (v : Int) (t : Token) (fc : Nat) :
    (mkFM st v t fc).hsize = st.hsize + 1 := rfl

theorem mkFM_nodes (st : PState) (v : Int) (t : Token) (fc : Nat) :
    (mkFM st v t fc).nodes = st.nodes ++ [st.hsize] := rfl

theorem mkFM_hget_ne (st : PState) (v : Int) (t : Token) (fc : Nat)
    {j : Nat} (h1 : j ≠ st.hsize) (h2 : j ≠ fc) : hget (mkFM st v t fc) j = hget st j := by
  rw [mkFM, hget_appendNodeList, hget_pushParent_ne _ _ h2, hget_pushChild_ne _ _ h1,
    hget_pushToken_ne _ _ h1, hget_allocNode_ne _ _ _ h1]

theorem mkFM_GPxs {st : PState} {exs : List Nat} (hwf : Wf st) (hgp : GPxs st exs)
    (v : Int) (t : Token) (fc : Nat) : GPxs (mkFM st v t fc) (st.hsize :: exs) := by
  refine GPxs_appendNodeList ?_ (Or.inl (List.mem_cons_self _ _))
  exact GPxs_pushParent (GPxs_pushChild (GPxs_pushToken
    (GPxs_allocNode hwf (GPxs_mono_exs (fun x hx => List.mem_cons_of_mem _ hx) hgp) v [])
    _ _) _ _) _ _

theorem mkFM_Wf {st : PState} (hwf : Wf st) (v : Int) (t : Token) (fc : Nat) :
    Wf (mkFM st v t fc) := by
  refine Wf_appendNodeList ⟨fun i hi => Nat.lt_succ_of_lt (hwf.1 i hi), hwf.2⟩
    (Nat.lt_succ_self _) (fresh_not_mem hwf (Nat.le_refl _))

theorem mkA_children_new (st : PState) (v : Int) (t : Token) (ty : Option DecompStates)
    {w : Nat} (hw : w ≠ st.hsize) :
    (hget (mkA st v t ty w) st.hsize).children = [] := by
  rw [mkA, hget_appendNodeList, children_pushChild, if_neg (fun hh => hw hh.symm),
    children_pushParent, children_setType, children_pushToken, hget_allocNode, if_pos rfl]

theorem mkP_parents_new (st : PState) (v : Int) (t : Token) (ty : Option DecompStates) :
    (hget (mkP st v t ty) st.hsize).parents = [] := by
  rw [mkP, hget_appendNodeList, parents_setType, parents_pushToken, hget_allocNode,
    if_pos rfl]

theorem mkP_parents_ne (st : PState) (v : Int) (t : Token) (ty : Option DecompStates)
    {j : Nat} (h1 : j ≠ st.hsize) :
    (hget (mkP st v t ty) j).parents = (hget st j).parents := by
  rw [mkP, hget_appendNodeList, parents_setType, parents_pushToken,
    hget_allocNode_ne _ _ _ h1]

/-- The `last_walkers` stitching fold of `build_if_tree`: each collected
walker becomes a parent of the join node and adopts it as a child. -/
theorem stitchFold (endN : Nat) : ∀ (lws : List Nat) (st : PState), (∀ x ∈ lws, x ≠ endN) →
    (List.foldl (fun s lw => pushChild (pushParent s endN lw) lw endN) st lws).hsize =
      st.hsize ∧
    (List.foldl (fun s lw => pushChild (pushParent s endN lw) lw endN) st lws).nodes =
      st.nodes ∧
    (∀ j, j ≠ endN →
      (hget (List.foldl (fun s lw => pushChild (pushParent s endN lw) lw endN) st lws)
        j).parents = (hget st j).parents) ∧
    (hget (List.foldl (fun s lw => pushChild (pushParent s endN lw) lw endN) st lws)
      endN).parents = (hget st endN).parents ++ lws ∧
    (∀ j, j ≠ endN → (∀ x ∈ lws, j ≠ x) →
      hget (List.foldl (fun s lw => pushChild (pushParent s endN lw) lw endN) st lws) j =
        hget st j) := by
  intro lws
  induction lws with
  | nil => exact fun st _ => ⟨rfl, rfl, fun j _ => rfl, by simp, fun j _ _ => rfl⟩
  | cons lw rest ih =>
    intro st hne
    have hlw : lw ≠ endN := hne lw (List.mem_cons_self _ _)
    obtain ⟨ih1, ih2, ih3, ih4, ih5⟩ :=
      ih (pushChild (pushParent st endN lw) lw endN)
        (fun x hx => hne x (List.mem_cons_of_mem _ hx))
    refine ⟨?_, ?_, ?_, ?_, ?_⟩
    · rw [List.foldl_cons, ih1, hsize_pushChild, hsize_pushParent]
    · rw [List.foldl_cons, ih2, nodes_pushChild, nodes_pushParent]
    · intro j hj
      rw [List.foldl_cons, ih3 j hj, parents_pushChild, parents_pushParent, if_neg hj]
    · rw [List.foldl_cons, ih4, parents_pushChild, parents_pushParent, if_pos rfl]
      simp
    · intro j hj hjx
      rw [List.foldl_cons, ih5 j hj (fun x hx => hjx x (List.mem_cons_of_mem _ hx)),
        hget_pushChild_ne _ _ (hjx lw (List.mem_cons_self _ _)),
        hget_pushParent_ne _ _ hj]

/-- Common continuation of `ifLoop`'s walker-collecting branches: after
a fresh last-walker has been linked (an `mkA` step over some advanced
state `stE`) the loop recurses with a non-empty `last_walkers` list. -/
theorem ifA_cont (fuel : Nat) (IH : InvPack fuel) {exs : List Nat} {B : Nat}
    {st stE : PState} {start walker2 : Nat} {ps : FSMState} {v2 : Int} {t : Token}
    {ty2 : Option DecompStates} {lws : List Nat} {tks0 : List Token}
    {st' : PState} {tks : List Token} {w' : Nat} {state' : FSMState} {lws' : List Nat}
    (h : ifLoop fuel (mkA stE v2 t ty2 walker2) start stE.hsize ps tks0
      (lws ++ [stE.hsize]) true = .ok (st', tks, w', state', lws'))
    (hgpE : GPxs stE exs) (hwfE : Wf stE) (hszE : st.hsize ≤ stE.hsize)
    (hBs : B ≤ start) (hslt : start < st.hsize)
    (hBw2 : B ≤ walker2)
    (hfrE : ∀ id, id < B → hget stE id = hget st id)
    (hlws : ∀ x ∈ lws, B ≤ x ∧ x < st.hsize) :
    GPxs st' exs ∧ st.hsize ≤ st'.hsize ∧ Wf st' ∧ B ≤ w' ∧ w' < st'.hsize ∧
    (∀ x ∈ lws', B ≤ x ∧ x < st'.hsize) ∧
    (∀ id, id < B → hget st' id = hget st id) ∧
    ((hget st' start).children.length < 2 ∨ lws' ≠ []) := by
  obtain ⟨hgp', hmono', hwf', hBw', hwlt', hlws', hfr', hJ2'⟩ :=
    IH.ifL exs B _ start _ _ _ _ _ _ _ _ _ _ h
      (mkA_GPxs hwfE hgpE _ _ _ _) (mkA_Wf hwfE _ _ _ _)
      hBs (show start < stE.hsize + 1 by omega)
      (by omega) (show stE.hsize < stE.hsize + 1 by omega)
      (show ∀ x ∈ lws ++ [stE.hsize], B ≤ x ∧ x < stE.hsize + 1 by
        intro x hx
        rcases List.mem_append.mp hx with hx | hx
        · have := hlws x hx; omega
        · rw [List.mem_singleton] at hx; omega)
      (fun _ => by simp)
      (Or.inr (by simp))
      (fun heq => absurd heq (by omega))
  have hm1 : stE.hsize + 1 ≤ st'.hsize := hmono'
  refine ⟨hgp', by omega, hwf', hBw', hwlt', hlws', ?_, hJ2'⟩
  intro id hid
  refine (hfr' id hid).trans ?_
  exact (mkA_hget_ne stE v2 t ty2 walker2 (by omega) (by omega)).trans (hfrE id hid)

/-- Step for `ifLoop`. -/
theorem ifL_step (fuel : Nat) (IH : InvPack fuel) : IfLoopOK (fuel + 1) := by
  intro exs B st start walker state tokens lws succ st' tks w' state' lws' h
    hgp hwf hBs hslt hBw hwlt hlws hJ1 hJ2 hJ3
  cases tokens with
  | nil =>
    rw [ifLoop.eq_def] at h
    dsimp only at h
    obtain ⟨rfl, rfl, rfl, rfl, rfl⟩ :
        st = st' ∧ ([] : List Token) = tks ∧ walker = w' ∧ state = state' ∧ lws = lws' := by
      simpa using h
    exact ⟨hgp, Nat.le_refl _, hwf, hBw, hwlt, hlws, fun id _ => rfl, hJ2⟩
  | cons peek rest =>
    rw [ifLoop.eq_def] at h
    dsimp only at h
    split at h
    · -- ps = ERROR
      split at h
      · obtain ⟨rfl, rfl, rfl, rfl, rfl⟩ :
            st = st' ∧ peek :: rest = tks ∧ walker = w' ∧ state = state' ∧ lws = lws' := by
          simpa using h
        exact ⟨hgp, Nat.le_refl _, hwf, hBw, hwlt, hlws, fun id _ => rfl, hJ2⟩
      · exact absurd h (by intro hh; exact Except.noConfusion hh)
    · split at h
      · -- single-statement states: build a subtree and collect a last walker
        split at h
        next e heq => exact absurd h (by intro hh; exact Except.noConfusion hh)
        next st2 tks2 w? heq =>
          split at h
          · exact absurd h (by intro hh; exact Except.noConfusion hh)
          next w =>
            split at h
            · exact absurd h (by intro hh; exact Except.noConfusion hh)
            next lastTok heqL =>
              rw [snd_allocNode] at h
              obtain ⟨-, hS⟩ := IH.tree _ _ _ _ _ _ _ heq hgp hwlt hwf
              obtain ⟨hgp2, hmono2, hwf2, hwlt2, hwor2, hfr2, hpar2, l2, hch2, hl2, hlr2⟩ :=
                hS w rfl
              refine ifA_cont fuel IH h hgp2 hwf2 hmono2 hBs hslt ?_ ?_ hlws
              · rcases hwor2 with rfl | hge
                · exact hBw
                · omega
              · intro id hid
                refine (hfr2 id (by omega) (by omega)).symm ▸ rfl
      · split at h
        · -- IF_THEN_STATEMENT / IF_ELSE_STATEMENT: recurse into the subtree
          rename_i hn1 hn2 hcond
          split at h
          next e heq => exact absurd h (by intro hh; exact Except.noConfusion hh)
          next st2 tks2 w? heq =>
            split at h
            · exact absurd h (by intro hh; exact Except.noConfusion hh)
            next w =>
              obtain ⟨-, hS⟩ := IH.tree _ _ _ _ _ _ _ heq hgp hwlt hwf
              obtain ⟨hgp2, hmono2, hwf2, hwlt2, hwor2, hfr2, hpar2, l2, hch2, hl2, hlr2⟩ :=
                hS w rfl
              have hBw2 : B ≤ w := by
                rcases hwor2 with rfl | hge
                · exact hBw
                · omega
              have hJ2n : (hget st2 start).children.length < 2 ∨ lws ≠ [] := by
                rcases hJ2 with hc | hn
                · by_cases hws : walker = start
                  · refine Or.inl ?_
                    rw [hws] at hch2
                    rw [hch2, hJ3 hws]
                    simp only [List.nil_append]
                    omega
                  · refine Or.inl ?_
                    rw [hfr2 start hslt (fun hh => hws hh.symm)]
                    exact hc
                · exact Or.inr hn
              have hJ3n : w = start → (hget st2 start).children = [] := by
                intro hws'
                rcases hwor2 with hwr | hge
                · have hwstart : walker = start := hwr.symm.trans hws'
                  have hl0 : l2 = [] := hlr2 hwr
                  rw [hwstart] at hch2
                  rw [hch2, hJ3 hwstart, hl0]
                  rfl
                · exact absurd hws' (by omega)
              obtain ⟨hgp', hmono', hwf', hBw', hwlt', hlws', hfr', hJ2'⟩ :=
                IH.ifL exs B _ start _ _ _ _ _ _ _ _ _ _ h
                  hgp2 hwf2 hBs (by omega) hBw2 hwlt2
                  (fun x hx => ⟨(hlws x hx).1, by have := (hlws x hx).2; omega⟩)
                  (fun htrig => by
                    rcases hcond with h1 | h1 <;> rcases htrig with h2 | h2 | h2 <;>
                      exact FSMState.noConfusion (h1.symm.trans h2))
                  hJ2n hJ3n
              refine ⟨hgp', by omega, hwf', hBw', hwlt', hlws', ?_, hJ2'⟩
              intro id hid
              exact (hfr' id hid).trans (hfr2 id (by omega) (by omega))
        · split at h
          · -- IF_ELSE: fresh else-branch node under start, start becomes D1
            rename_i hn1 hn2 hn3 hcond
            rw [snd_allocNode] at h
            obtain ⟨hgp', hmono', hwf', hBw', hwlt', hlws', hfr', hJ2'⟩ :=
              IH.ifL exs B _ start _ _ _ _ _ _ _ _ _ _ h
                (GPxs_setType (mkC_GPxs hwf hgp _ _ _) _ _)
                (mkC_Wf hwf _ _ _)
                hBs (show start < st.hsize + 1 by omega)
                (by omega) (show st.hsize < st.hsize + 1 by omega)
                (show ∀ x ∈ lws, B ≤ x ∧ x < st.hsize + 1 by
                  intro x hx
                  have := hlws x hx; omega)
                (fun htrig => by
                  rcases htrig with h2 | h2 | h2 <;>
                    exact FSMState.noConfusion (hcond.symm.trans h2))
                (Or.inr (hJ1 (fsmT_IF_ELSE_inv hcond)))
                (fun heq => absurd heq (by omega))
            have hm1 : st.hsize + 1 ≤ st'.hsize := hmono'
            refine ⟨hgp', by omega, hwf', hBw', hwlt', hlws', ?_, hJ2'⟩
            intro id hid
            refine (hfr' id hid).trans ?_
            refine (hget_setType_ne _ _ (show id ≠ start by omega)).trans ?_
            exact mkC_hget_ne st _ peek start (by omega) (by omega)
          · split at h
            · -- IF_THEN_END / ELSE_IF_END / IF_ELSE_END
              split at h
              next e heq => exact absurd h (by intro hh; exact Except.noConfusion hh)
              next st2 walker2 heq =>
                rw [snd_allocNode] at h
                split at heq
                · -- empty-body placeholder inserted first
                  split at heq
                  · exact absurd heq (by intro hh; exact Except.noConfusion hh)
                  next lt heqL =>
                    rw [snd_allocNode] at heq
                    obtain ⟨rfl, rfl⟩ :
                        mkA st ((hget st walker).val + 1) ⟨lt.line, .ds .P1, []⟩
                          (some .P1) walker = st2 ∧ st.hsize = walker2 := by
                      simpa [mkA] using heq
                    refine ifA_cont fuel IH h (mkA_GPxs hwf hgp _ _ _ _)
                      (mkA_Wf hwf _ _ _ _) (show st.hsize ≤ st.hsize + 1 by omega)
                      hBs hslt (by omega) ?_ hlws
                    intro id hid
                    exact mkA_hget_ne st _ _ _ walker (by omega) (by omega)
                · -- no placeholder
                  obtain ⟨rfl, rfl⟩ : st = st2 ∧ walker = walker2 := by simpa using heq
                  exact ifA_cont fuel IH h hgp hwf (Nat.le_refl _) hBs hslt hBw
                    (fun id _ => rfl) hlws
            · -- plain token: push onto the walker
              rename_i hn1 hn2 hn3 hn4 hn5
              obtain ⟨hgp', hmono', hwf', hBw', hwlt', hlws', hfr', hJ2'⟩ :=
                IH.ifL exs B _ start _ _ _ _ _ _ _ _ _ _ h
                  (GPxs_pushToken hgp _ _) hwf hBs hslt hBw hwlt hlws
                  (fun htrig => by
                    rcases htrig with h2 | h2 | h2
                    · exact absurd (Or.inl h2) hn2
                    · exact absurd (Or.inr (Or.inl h2)) hn2
                    · exact absurd (Or.inl h2) hn5)
                  (by
                    rcases hJ2 with hc | hn
                    · exact Or.inl (by rw [children_pushToken]; exact hc)
                    · exact Or.inr hn)
                  (fun hws => by rw [children_pushToken]; exact hJ3 hws)
              refine ⟨hgp', hmono', hwf', hBw', hwlt', hlws', ?_, hJ2'⟩
              intro id hid
              exact (hfr' id hid).trans (hget_pushToken_ne st peek (by omega))

/-- Step for `build_if_tree`. -/
theorem ifB_step (fuel : Nat) (IH : InvPack fuel) : BTOK buildIfTree (fuel + 1) := by
  intro exs st root tokens st' tks w h hgp hroot hwf
  cases tokens with
  | nil =>
    rw [buildIfTree.eq_def] at h
    exact absurd h (by intro hh; exact Except.noConfusion hh)
  | cons token rest =>
    rw [buildIfTree.eq_def] at h
    dsimp only at h
    split at h
    · obtain ⟨rfl, rfl, rfl⟩ : st = st' ∧ rest = tks ∧ root = w := by simpa using h
      exact ⟨hgp, Nat.le_refl _, hwf, hroot, Or.inl rfl, fun id _ _ => rfl, rfl,
        [], by simp, by simp, fun _ => rfl⟩
    · rename_i hcond
      have hst : fsmT .INIT_START (colTS token.type) = .IF_START := not_not.mp hcond
      simp only [snd_allocNode] at h
      split at h
      next e heqL => exact absurd h (by intro hh; exact Except.noConfusion hh)
      next st2 tks2 walker2 state2 lws2 heqL =>
        split at h
        · exact absurd h (by intro hh; exact Except.noConfusion hh)
        next lastTok heqT =>
          obtain ⟨hgpL, hmonoL, hwfL, hBwL, hwltL, hlwsL, hfrL, hJ2L⟩ :=
            IH.ifL exs st.hsize _ _ _ _ _ _ _ _ _ _ _ _ heqL
              (mkA_GPxs hwf hgp _ _ _ _) (mkA_Wf hwf _ _ _ _)
              (Nat.le_refl _) (show st.hsize < st.hsize + 1 by omega)
              (Nat.le_refl _) (show st.hsize < st.hsize + 1 by omega)
              (fun x hx => absurd hx (List.not_mem_nil x))
              (fun htrig => by
                rcases htrig with h2 | h2 | h2 <;>
                  exact FSMState.noConfusion (hst.symm.trans h2))
              (Or.inl (show (hget (mkA st ((hget st root).val + 1) token
                  (mapFSMToDecomp (fsmT .INIT_START (colTS token.type))) root)
                  st.hsize).children.length < 2 by
                rw [mkA_children_new st _ _ _ (show root ≠ st.hsize by omega)]
                simp))
              (fun _ => mkA_children_new st _ _ _ (by omega))
          have hm2 : st.hsize + 1 ≤ st2.hsize := hmonoL
          split at h
          · -- join linked under the start node (fewer than two children)
            simp only [Except.ok.injEq, Prod.mk.injEq] at h
            obtain ⟨rfl, rfl, rfl⟩ := h
            show BPost st
              (List.foldl (fun s lw => pushChild (pushParent s st2.hsize lw) lw st2.hsize)
                (pushChild (pushParent (mkP st2 ((hget st2 walker2).val + 1) lastTok
                  (mapFSMToDecomp state2)) st2.hsize st.hsize) st.hsize st2.hsize)
                lws2) root st2.hsize exs
            obtain ⟨hf1, hf2, hf3, hf4, hf5⟩ :=
              stitchFold st2.hsize lws2
                (pushChild (pushParent (mkP st2 ((hget st2 walker2).val + 1) lastTok
                  (mapFSMToDecomp state2)) st2.hsize st.hsize) st.hsize st2.hsize)
                (fun x hx => by have := hlwsL x hx; omega)
            have hfh : (List.foldl (fun s lw => pushChild (pushParent s st2.hsize lw)
                lw st2.hsize)
                (pushChild (pushParent (mkP st2 ((hget st2 walker2).val + 1) lastTok
                  (mapFSMToDecomp state2)) st2.hsize st.hsize) st.hsize st2.hsize)
                lws2).hsize = st2.hsize + 1 := hf1
            have hfn : (List.foldl (fun s lw => pushChild (pushParent s st2.hsize lw)
                lw st2.hsize)
                (pushChild (pushParent (mkP st2 ((hget st2 walker2).val + 1) lastTok
                  (mapFSMToDecomp state2)) st2.hsize st.hsize) st.hsize st2.hsize)
                lws2).nodes = st2.nodes ++ [st2.hsize] := hf2
            refine ⟨?_, by omega, ?_, by omega, Or.inr (by omega), ?_, ?_, [st.hsize],
              ?_, by simp, fun hwr => absurd hwr (by omega)⟩
            · -- GPxs
              intro i hi
              rw [hfn, List.mem_append, List.mem_singleton] at hi
              rcases hi with hi | hi
              · have hilt : i < st2.hsize := hwfL.1 i hi
                rcases hgpL i hi with hx | hp
                · exact Or.inl hx
                · refine Or.inr ?_
                  rw [hf3 i (by omega), parents_pushChild, parents_pushParent,
                    if_neg (by omega), mkP_parents_ne _ _ _ _ (by omega)]
                  exact hp
              · subst hi
                refine Or.inr ?_
                rw [hf4, parents_pushChild, parents_pushParent, if_pos rfl]
                simp
            · -- Wf
              refine ⟨fun i hi => ?_, ?_⟩
              · rw [hfn, List.mem_append, List.mem_singleton] at hi
                rw [hfh]
                rcases hi with hi | hi
                · have := hwfL.1 i hi; omega
                · omega
              · rw [hfn]
                refine List.Nodup.append hwfL.2 (List.nodup_singleton _) ?_
                intro a ha hb
                rw [List.mem_singleton] at hb
                subst hb
                exact fresh_not_mem hwfL (Nat.le_refl _) ha
            · -- frame
              intro id hlt hne
              refine (hf5 id (by omega) (fun x hx => by have := hlwsL x hx; omega)).trans ?_
              refine (hget_pushChild_ne _ _ (by omega)).trans ?_
              refine (hget_pushParent_ne _ _ (by omega)).trans ?_
              refine (mkP_hget_ne _ _ _ _ (by omega)).trans ?_
              refine (hfrL id (by omega)).trans ?_
              exact mkA_hget_ne st _ _ _ root (by omega) hne
            · -- parents of root untouched
              refine (hf3 root (by omega)).trans ?_
              refine (parents_pushChild _ _ _ _).trans ?_
              refine ((parents_pushParent _ _ _ _).trans (if_neg (show ¬ root = st2.hsize by omega))).trans ?_
              refine (mkP_parents_ne _ _ _ _ (by omega)).trans ?_
              refine (congrArg PyNode.parents (hfrL root (by omega))).trans ?_
              exact mkA_parents_ne st _ _ _ root (by omega)
            · -- children of root grow by the start node
              refine (congrArg PyNode.children
                (hf5 root (by omega) (fun x hx => by have := hlwsL x hx; omega))).trans ?_
              refine (congrArg PyNode.children ((hget_pushChild_ne _ _ (by omega)).trans
                ((hget_pushParent_ne _ _ (by omega)).trans
                  ((mkP_hget_ne _ _ _ _ (by omega)).trans (hfrL root (by omega)))))).trans ?_
              exact mkA_children_w st _ _ _ (by omega)
          · -- join linked under the collected last walkers
            rename_i hge2
            have hlw2ne : lws2 ≠ [] := by
              rcases hJ2L with hc | hn
              · exfalso
                refine hge2 ?_
                refine lt_of_eq_of_lt ?_ hc
                exact congrArg List.length (congrArg PyNode.children
                  (mkP_hget_ne _ _ _ _ (by omega)))
              · exact hn
            simp only [Except.ok.injEq, Prod.mk.injEq] at h
            obtain ⟨rfl, rfl, rfl⟩ := h
            show BPost st
              (List.foldl (fun s lw => pushChild (pushParent s st2.hsize lw) lw st2.hsize)
                (mkP st2 ((hget st2 walker2).val + 1) lastTok (mapFSMToDecomp state2))
                lws2) root st2.hsize exs
            obtain ⟨hf1, hf2, hf3, hf4, hf5⟩ :=
              stitchFold st2.hsize lws2
                (mkP st2 ((hget st2 walker2).val + 1) lastTok (mapFSMToDecomp state2))
                (fun x hx => by have := hlwsL x hx; omega)
            have hfh : (List.foldl (fun s lw => pushChild (pushParent s st2.hsize lw)
                lw st2.hsize)
                (mkP st2 ((hget st2 walker2).val + 1) lastTok (mapFSMToDecomp state2))
                lws2).hsize = st2.hsize + 1 := hf1
            have hfn : (List.foldl (fun s lw => pushChild (pushParent s st2.hsize lw)
                lw st2.hsize)
                (mkP st2 ((hget st2 walker2).val + 1) lastTok (mapFSMToDecomp state2))
                lws2).nodes = st2.nodes ++ [st2.hsize] := hf2
            refine ⟨?_, by omega, ?_, by omega, Or.inr (by omega), ?_, ?_, [st.hsize],
              ?_, by simp, fun hwr => absurd hwr (by omega)⟩
            · intro i hi
              rw [hfn, List.mem_append, List.mem_singleton] at hi
              rcases hi with hi | hi
              · have hilt : i < st2.hsize := hwfL.1 i hi
                rcases hgpL i hi with hx | hp
                · exact Or.inl hx
                · refine Or.inr ?_
                  rw [hf3 i (by omega), mkP_parents_ne _ _ _ _ (by omega)]
                  exact hp
              · subst hi
                refine Or.inr ?_
                rw [hf4, mkP_parents_new]
                simpa using hlw2ne
            · refine ⟨fun i hi => ?_, ?_⟩
              · rw [hfn, List.mem_append, List.mem_singleton] at hi
                rw [hfh]
                rcases hi with hi | hi
                · have := hwfL.1 i hi; omega
                · omega
              · rw [hfn]
                refine List.Nodup.append hwfL.2 (List.nodup_singleton _) ?_
                intro a ha hb
                rw [List.mem_singleton] at hb
                subst hb
                exact fresh_not_mem hwfL (Nat.le_refl _) ha
            · intro id hlt hne
              refine (hf5 id (by omega) (fun x hx => by have := hlwsL x hx; omega)).trans ?_
              refine (mkP_hget_ne _ _ _ _ (by omega)).trans ?_
              refine (hfrL id (by omega)).trans ?_
              exact mkA_hget_ne st _ _ _ root (by omega) hne
            · refine (hf3 root (by omega)).trans ?_
              refine (mkP_parents_ne _ _ _ _ (by omega)).trans ?_
              refine (congrArg PyNode.parents (hfrL root (by omega))).trans ?_
              exact mkA_parents_ne st _ _ _ root (by omega)
            · refine (congrArg PyNode.children
                (hf5 root (by omega) (fun x hx => by have := hlwsL x hx; omega))).trans ?_
              refine (congrArg PyNode.children ((mkP_hget_ne _ _ _ _ (by omega)).trans
                (hfrL root (by omega)))).trans ?_
              exact mkA_children_w st _ _ _ (by omega)

/-- An excused id whose parents list has become non-empty can be dropped
from the excuse list. -/
theorem GPxs_discharge {st : PState} {e : Nat} {exs : List Nat}
    (h : GPxs st (e :: exs)) (hne : (hget st e).parents ≠ []) : GPxs st exs := by
  intro i hi
  rcases h i hi with hx | hp
  · rcases List.mem_cons.mp hx with rfl | hx
    · exact Or.inr hne
    · exact Or.inl hx
  · exact Or.inr hp

/-- Common continuation of `whileLoop` after `WHILE_END` has created the
pending end node: from that state every token dispatches to `ERROR`, so
the loop returns at the next step with the pending node intact. -/
theorem whileEnd_cont (fuel : Nat) (IH : InvPack fuel) {exs : List Nat} {B : Nat}
    {st stE : PState} {start walker2 : Nat} {ps : FSMState} {v2 : Int} {t : Token}
    {ty2 : Option DecompStates} {tks0 : List Token}
    {st' : PState} {tks : List Token} {w' : Nat} {state' : FSMState} {endO' : Option Nat}
    (h : whileLoop fuel (mkP stE v2 t ty2) start walker2 ps tks0
      (some stE.hsize) true = .ok (st', tks, w', state', endO'))
    (hps : ps = .WHILE_END)
    (hgpE : GPxs stE exs) (hwfE : Wf stE) (hszE : st.hsize ≤ stE.hsize)
    (hBs : B ≤ start) (hslt : start < st.hsize)
    (hBw2 : B ≤ walker2) (hw2lt : walker2 < stE.hsize)
    (hfrE : ∀ id, id < B → hget stE id = hget st id) :
    GPxs st' (optCons endO' exs) ∧ st.hsize ≤ st'.hsize ∧ Wf st' ∧
    B ≤ w' ∧ w' < st'.hsize ∧
    (∀ id, id < B → hget st' id = hget st id) ∧
    (∀ e, endO' = some e → B ≤ e ∧ e < st'.hsize) := by
  obtain ⟨hgp', hmono', hwf', hBw', hwlt', hfr', hend'⟩ :=
    IH.whileL exs B _ start walker2 _ _ _ _ _ _ _ _ _ h
      (mkP_GPxs hwfE hgpE _ _ _) (mkP_Wf hwfE _ _ _)
      hBs (show start < stE.hsize + 1 by omega)
      hBw2 (show walker2 < stE.hsize + 1 by omega)
      (fun e he => by
        have he2 : stE.hsize = e := by injection he
        exact ⟨hps, rfl, by omega, show e < stE.hsize + 1 by omega⟩)
  have hm1 : stE.hsize + 1 ≤ st'.hsize := hmono'
  refine ⟨hgp', by omega, hwf', hBw', hwlt', ?_, hend'⟩
  intro id hid
  refine (hfr' id hid).trans ?_
  exact (mkP_hget_ne stE v2 t ty2 (by omega)).trans (hfrE id hid)

/-- Step for `whileLoop`. -/
theorem whileL_step (fuel : Nat) (IH : InvPack fuel) : WhileLoopOK (fuel + 1) := by
  intro exs B st start walker state tokens endO succ st' tks w' state' endO' h
    hgp hwf hBs hslt hBw hwlt hWnd
  cases tokens with
  | nil =>
    rw [whileLoop.eq_def] at h
    dsimp only at h
    obtain ⟨rfl, rfl, rfl, rfl, rfl⟩ :
        st = st' ∧ ([] : List Token) = tks ∧ walker = w' ∧ state = state' ∧ endO = endO' := by
      simpa using h
    exact ⟨hgp, Nat.le_refl _, hwf, hBw, hwlt, fun id _ => rfl,
      fun e he => ⟨(hWnd e he).2.2.1, (hWnd e he).2.2.2⟩⟩
  | cons peek rest =>
    rw [whileLoop.eq_def] at h
    dsimp only at h
    split at h
    · split at h
      · obtain ⟨rfl, rfl, rfl, rfl, rfl⟩ :
            st = st' ∧ peek :: rest = tks ∧ walker = w' ∧ state = state' ∧ endO = endO' := by
          simpa using h
        exact ⟨hgp, Nat.le_refl _, hwf, hBw, hwlt, fun id _ => rfl,
          fun e he => ⟨(hWnd e he).2.2.1, (hWnd e he).2.2.2⟩⟩
      · exact absurd h (by intro hh; exact Except.noConfusion hh)
    · rename_i hn1
      have hend : endO = none := by
        cases endO with
        | none => rfl
        | some e =>
          obtain ⟨hst2, -, -, -⟩ := hWnd e rfl
          exact absurd (by rw [hst2]; exact fsmT_WHILE_END _) hn1
      subst hend
      split at h
      · -- WHILE_STATEMENT / WHILE_SINGLE_STATEMENT
        split at h
        next e heq => exact absurd h (by intro hh; exact Except.noConfusion hh)
        next st2 tks2 w? heq =>
          split at h
          · exact absurd h (by intro hh; exact Except.noConfusion hh)
          next w =>
            obtain ⟨-, hS⟩ := IH.tree _ _ _ _ _ _ _ heq hgp hwlt hwf
            obtain ⟨hgp2, hmono2, hwf2, hwlt2, hwor2, hfr2, hpar2, l2, hch2, hl2, hlr2⟩ :=
              hS w rfl
            have hBw2 : B ≤ w := by
              rcases hwor2 with rfl | hge
              · exact hBw
              · omega
            split at h
            · -- single statement: return directly
              obtain ⟨rfl, rfl, rfl, rfl, rfl⟩ :
                  st2 = st' ∧ tks2 = tks ∧ w = w' ∧ state = state' ∧
                    (none : Option Nat) = endO' := by
                simpa using h
              exact ⟨hgp2, hmono2, hwf2, hBw2, hwlt2,
                fun id hid => hfr2 id (by omega) (by omega),
                fun e he => Option.noConfusion he⟩
            · -- keep looping
              obtain ⟨hgp', hmono', hwf', hBw', hwlt', hfr', hend'⟩ :=
                IH.whileL exs B _ start _ _ _ _ _ _ _ _ _ _ h
                  hgp2 hwf2 hBs (by omega) hBw2 hwlt2
                  (fun e he => Option.noConfusion he)
              refine ⟨hgp', by omega, hwf', hBw', hwlt', ?_, hend'⟩
              intro id hid
              exact (hfr' id hid).trans (hfr2 id (by omega) (by omega))
      · split at h
        · -- WHILE_END: create the pending end node and loop once more
          rename_i hn2 hcond
          split at h
          next e heqE => exact absurd h (by intro hh; exact Except.noConfusion hh)
          next st2 walker2 heqE =>
            simp only [snd_allocNode] at h
            split at heqE
            · split at heqE
              · exact absurd heqE (by intro hh; exact Except.noConfusion hh)
              next lt heqL =>
                simp only [snd_allocNode] at heqE
                obtain ⟨rfl, rfl⟩ :
                    mkA st ((hget st walker).val + 1) ⟨lt.line, .ds .P1, []⟩
                      (some .P1) walker = st2 ∧ st.hsize = walker2 := by
                  simpa [mkA] using heqE
                exact whileEnd_cont fuel IH h hcond (mkA_GPxs hwf hgp _ _ _ _)
                  (mkA_Wf hwf _ _ _ _) (Nat.le_succ _) hBs hslt (by omega)
                  (show st.hsize < st.hsize + 1 by omega)
                  (fun id hid => mkA_hget_ne st _ _ _ walker (by omega) (by omega))
            · obtain ⟨rfl, rfl⟩ : st = st2 ∧ walker = walker2 := by simpa using heqE
              exact whileEnd_cont fuel IH h hcond hgp hwf (Nat.le_refl _) hBs hslt hBw hwlt
                (fun id _ => rfl)
        · -- plain token
          obtain ⟨hgp', hmono', hwf', hBw', hwlt', hfr', hend'⟩ :=
            IH.whileL exs B _ start _ _ _ _ _ _ _ _ _ _ h
              (GPxs_pushToken hgp _ _) hwf hBs hslt hBw hwlt
              (fun e he => Option.noConfusion he)
          refine ⟨hgp', hmono', hwf', hBw', hwlt', ?_, hend'⟩
          intro id hid
          exact (hfr' id hid).trans (hget_pushToken_ne st peek (by omega))

/-- Step for `build_while_tree`. -/
theorem whileB_step (fuel : Nat) (IH : InvPack fuel) : BTOK buildWhileTree (fuel + 1) := by
  intro exs st root tokens st' tks w h hgp hroot hwf
  cases tokens with
  | nil =>
    rw [buildWhileTree.eq_def] at h
    exact absurd h (by intro hh; exact Except.noConfusion hh)
  | cons token rest =>
    rw [buildWhileTree.eq_def] at h
    dsimp only at h
    split at h
    · obtain ⟨rfl, rfl, rfl⟩ : st = st' ∧ rest = tks ∧ root = w := by simpa using h
      exact ⟨hgp, Nat.le_refl _, hwf, hroot, Or.inl rfl, fun id _ _ => rfl, rfl,
        [], by simp, by simp, fun _ => rfl⟩
    · rename_i hcond
      simp only [snd_allocNode] at h
      split at h
      next e heqL => exact absurd h (by intro hh; exact Except.noConfusion hh)
      next st2 tks2 walker2 state2 endO2 heqL =>
        obtain ⟨hgpL, hmonoL, hwfL, hBwL, hwltL, hfrL, hendL⟩ :=
          IH.whileL exs st.hsize _ _ _ _ _ _ _ _ _ _ _ _ heqL
            (mkA_GPxs hwf hgp _ _ _ _) (mkA_Wf hwf _ _ _ _)
            (Nat.le_refl _) (show st.hsize < st.hsize + 1 by omega)
            (Nat.le_refl _) (show st.hsize < st.hsize + 1 by omega)
            (fun e he => Option.noConfusion he)
        have hm2 : st.hsize + 1 ≤ st2.hsize := hmonoL
        cases endO2 with
        | some e =>
          dsimp only at h
          obtain ⟨hBe, helt⟩ := hendL e rfl
          simp only [Except.ok.injEq, Prod.mk.injEq] at h
          obtain ⟨rfl, rfl, rfl⟩ := h
          refine ⟨?_, ?_, hwfL, helt, Or.inr hBe, ?_, ?_, [st.hsize], ?_, by simp,
            fun hwr => absurd hwr (by omega)⟩
          · -- GPxs
            refine GPxs_discharge
              (GPxs_pushChild (GPxs_pushParent (GPxs_pushParent
                (GPxs_pushChild hgpL _ _) _ _) _ _) _ _) ?_
            rw [parents_pushChild, parents_pushParent, if_pos rfl]
            simp
          · exact show st.hsize ≤ st2.hsize by omega
          · intro id hlt hne
            refine (hget_pushChild_ne _ _ (by omega)).trans ?_
            refine (hget_pushParent_ne _ _ (by omega)).trans ?_
            refine (hget_pushParent_ne _ _ (by omega)).trans ?_
            refine (hget_pushChild_ne _ _ (by omega)).trans ?_
            refine (hfrL id (by omega)).trans ?_
            exact mkA_hget_ne st _ _ _ root (by omega) hne
          · refine (parents_pushChild _ _ _ _).trans ?_
            refine ((parents_pushParent _ _ _ _).trans
              (if_neg (show ¬ root = e by omega))).trans ?_
            refine ((parents_pushParent _ _ _ _).trans
              (if_neg (show ¬ root = st.hsize by omega))).trans ?_
            refine (parents_pushChild _ _ _ _).trans ?_
            refine (congrArg PyNode.parents (hfrL root (by omega))).trans ?_
            exact mkA_parents_ne st _ _ _ root (by omega)
          · refine ((children_pushChild _ _ _ _).trans
              (if_neg (show ¬ root = st.hsize by omega))).trans ?_
            refine (children_pushParent _ _ _ _).trans ?_
            refine (children_pushParent _ _ _ _).trans ?_
            refine ((children_pushChild _ _ _ _).trans
              (if_neg (show ¬ root = walker2 by omega))).trans ?_
            refine (congrArg PyNode.children (hfrL root (by omega))).trans ?_
            exact mkA_children_w st _ _ _ (by omega)
        | none =>
          dsimp only at h
          split at h
          · exact absurd h (by intro hh; exact Except.noConfusion hh)
          next st5 endN heqT =>
            split at heqT
            · exact absurd heqT (by intro hh; exact Except.noConfusion hh)
            next lastTok heqT2 =>
              obtain ⟨rfl, rfl⟩ :
                  mkP (pushParent (pushChild st2 walker2 st.hsize) st.hsize walker2)
                    ((hget (pushParent (pushChild st2 walker2 st.hsize) st.hsize walker2)
                      walker2).val + 1) lastTok (mapFSMToDecomp state2) = st5 ∧
                  (pushParent (pushChild st2 walker2 st.hsize) st.hsize walker2).hsize =
                    endN := by
                simpa [mkP] using heqT
              have hsz4 : (pushParent (pushChild st2 walker2 st.hsize) st.hsize
                  walker2).hsize = st2.hsize := rfl
              simp only [Except.ok.injEq, Prod.mk.injEq] at h
              obtain ⟨rfl, rfl, rfl⟩ := h
              have hgp4 : GPxs (pushParent (pushChild st2 walker2 st.hsize) st.hsize
                  walker2) exs := GPxs_pushParent (GPxs_pushChild hgpL _ _) _ _
              have hwf4 : Wf (pushParent (pushChild st2 walker2 st.hsize) st.hsize
                  walker2) := hwfL
              refine ⟨?_, ?_, mkP_Wf hwf4 _ _ _, ?_, Or.inr (by omega), ?_, ?_,
                [st.hsize], ?_, by simp, fun hwr => absurd hwr (by omega)⟩
              · refine GPxs_discharge
                  (GPxs_pushChild (GPxs_pushParent (mkP_GPxs hwf4 hgp4 _ _ _) _ _) _ _) ?_
                rw [parents_pushChild, parents_pushParent, if_pos rfl]
                simp
              · exact show st.hsize ≤ st2.hsize + 1 by omega
              · exact show st2.hsize < st2.hsize + 1 by omega
              · intro id hlt hne
                refine (hget_pushChild_ne _ _ (by omega)).trans ?_
                refine (hget_pushParent_ne _ _ (by omega)).trans ?_
                refine (mkP_hget_ne _ _ _ _ (by omega)).trans ?_
                refine (hget_pushParent_ne _ _ (by omega)).trans ?_
                refine (hget_pushChild_ne _ _ (by omega)).trans ?_
                refine (hfrL id (by omega)).trans ?_
                exact mkA_hget_ne st _ _ _ root (by omega) hne
              · refine (parents_pushChild _ _ _ _).trans ?_
                refine ((parents_pushParent _ _ _ _).trans
                  (if_neg (show ¬ root = st2.hsize by omega))).trans ?_
                refine (mkP_parents_ne _ _ _ _ (by omega)).trans ?_
                refine ((parents_pushParent _ _ _ _).trans
                  (if_neg (show ¬ root = st.hsize by omega))).trans ?_
                refine (parents_pushChild _ _ _ _).trans ?_
                refine (congrArg PyNode.parents (hfrL root (by omega))).trans ?_
                exact mkA_parents_ne st _ _ _ root (by omega)
              · refine ((children_pushChild _ _ _ _).trans
                  (if_neg (show ¬ root = st.hsize by omega))).trans ?_
                refine (children_pushParent _ _ _ _).trans ?_
                refine (congrArg PyNode.children (mkP_hget_ne _ _ _ _ (by omega))).trans ?_
                refine (children_pushParent _ _ _ _).trans ?_
                refine ((children_pushChild _ _ _ _).trans
                  (if_neg (show ¬ root = walker2 by omega))).trans ?_
                refine (congrArg PyNode.children (hfrL root (by omega))).trans ?_
                exact mkA_children_w st _ _ _ (by omega)

/-- Step for `doLoop`. -/
theorem doL_step (fuel : Nat) (IH : InvPack fuel) : DoLoopOK (fuel + 1) := by
  intro exs B st start walker state tokens endO succ st' tks w' state' endO' h
    hgp hwf hBs hslt hBw hwlt hEnd hsucc
  subst hsucc
  cases tokens with
  | nil =>
    rw [doLoop.eq_def] at h
    dsimp only at h
    obtain ⟨rfl, rfl, rfl, rfl, rfl⟩ :
        st = st' ∧ ([] : List Token) = tks ∧ walker = w' ∧ state = state' ∧ endO = endO' := by
      simpa using h
    exact ⟨hgp, Nat.le_refl _, hwf, hBw, hwlt, fun id _ => rfl, hEnd⟩
  | cons peek rest =>
    rw [doLoop.eq_def] at h
    dsimp only at h
    split at h
    · exact absurd h (by intro hh; exact Except.noConfusion hh)
    · split at h
      · -- DO_WHILE_STATEMENT
        split at h
        next e heq => exact absurd h (by intro hh; exact Except.noConfusion hh)
        next st2 tks2 w? heq =>
          split at h
          · exact absurd h (by intro hh; exact Except.noConfusion hh)
          next w =>
            obtain ⟨-, hS⟩ := IH.tree _ _ _ _ _ _ _ heq hgp hwlt hwf
            obtain ⟨hgp2, hmono2, hwf2, hwlt2, hwor2, hfr2, hpar2, l2, hch2, hl2, hlr2⟩ :=
              hS w rfl
            have hBw2 : B ≤ w := by
              rcases hwor2 with rfl | hge
              · exact hBw
              · omega
            obtain ⟨hgp', hmono', hwf', hBw', hwlt', hfr', hend'⟩ :=
              IH.doL exs B _ start _ _ _ _ _ _ _ _ _ _ h
                hgp2 hwf2 hBs (by omega) hBw2 hwlt2
                (fun e he => by have := hEnd e he; omega) rfl
            refine ⟨hgp', by omega, hwf', hBw', hwlt', ?_, hend'⟩
            intro id hid
            exact (hfr' id hid).trans (hfr2 id (by omega) (by omega))
      · split at h
        · -- DO_WHILE_END: the current walker becomes the end node
          obtain ⟨rfl, rfl, rfl, rfl, rfl⟩ :
              pushToken st walker peek = st' ∧ rest = tks ∧ walker = w' ∧
                state = state' ∧ some walker = endO' := by
            simpa using h
          exact ⟨GPxs_pushToken hgp _ _, Nat.le_refl _, hwf, hBw, hwlt,
            fun id hid => hget_pushToken_ne st peek (by omega),
            fun e he => by
              have hwe : walker = e := by injection he
              exact ⟨by omega, show e < st.hsize by omega⟩⟩
        · split at h
          · -- empty body placeholder after `{}`
            simp only [snd_allocNode] at h
            obtain ⟨hgp', hmono', hwf', hBw', hwlt', hfr', hend'⟩ :=
              IH.doL exs B _ start _ _ _ _ _ _ _ _ _ _ h
                (mkA_GPxs hwf hgp _ _ _ _) (mkA_Wf hwf _ _ _ _)
                hBs (show start < st.hsize + 1 by omega)
                (by omega) (show st.hsize < st.hsize + 1 by omega)
                (fun e he => by
                  have := hEnd e he
                  exact ⟨by omega, show e < st.hsize + 1 by omega⟩) rfl
            have hm1 : st.hsize + 1 ≤ st'.hsize := hmono'
            refine ⟨hgp', by omega, hwf', hBw', hwlt', ?_, hend'⟩
            intro id hid
            refine (hfr' id hid).trans ?_
            exact mkA_hget_ne st _ _ _ walker (by omega) (by omega)
          · split at h
            · -- DO_WHILE_KEYWORD: fresh node under the walker
              simp only [snd_allocNode] at h
              obtain ⟨hgp', hmono', hwf', hBw', hwlt', hfr', hend'⟩ :=
                IH.doL exs B _ start _ _ _ _ _ _ _ _ _ _ h
                  (mkC_GPxs hwf hgp _ _ _) (mkC_Wf hwf _ _ _)
                  hBs (show start < st.hsize + 1 by omega)
                  (by omega) (show st.hsize < st.hsize + 1 by omega)
                  (fun e he => by
                    have := hEnd e he
                    exact ⟨by omega, show e < st.hsize + 1 by omega⟩) rfl
              have hm1 : st.hsize + 1 ≤ st'.hsize := hmono'
              refine ⟨hgp', by omega, hwf', hBw', hwlt', ?_, hend'⟩
              intro id hid
              refine (hfr' id hid).trans ?_
              exact mkC_hget_ne st _ peek walker (by omega) (by omega)
            · -- plain token
              obtain ⟨hgp', hmono', hwf', hBw', hwlt', hfr', hend'⟩ :=
                IH.doL exs B _ start _ _ _ _ _ _ _ _ _ _ h
                  (GPxs_pushToken hgp _ _) hwf hBs hslt hBw hwlt
                  (fun e he => hEnd e he) rfl
              refine ⟨hgp', hmono', hwf', hBw', hwlt', ?_, hend'⟩
              intro id hid
              exact (hfr' id hid).trans (hget_pushToken_ne st peek (by omega))

/-- Step for `build_do_while_tree`. -/
theorem doB_step (fuel : Nat) (IH : InvPack fuel) : BTOK buildDoWhileTree (fuel + 1) := by
  intro exs st root tokens st' tks w h hgp hroot hwf
  cases tokens with
  | nil =>
    rw [buildDoWhileTree.eq_def] at h
    exact absurd h (by intro hh; exact Except.noConfusion hh)
  | cons token rest =>
    rw [buildDoWhileTree.eq_def] at h
    dsimp only at h
    split at h
    · obtain ⟨rfl, rfl, rfl⟩ : st = st' ∧ rest = tks ∧ root = w := by simpa using h
      exact ⟨hgp, Nat.le_refl _, hwf, hroot, Or.inl rfl, fun id _ _ => rfl, rfl,
        [], by simp, by simp, fun _ => rfl⟩
    · simp only [snd_allocNode] at h
      split at h
      next e heqL => exact absurd h (by intro hh; exact Except.noConfusion hh)
      next st2 tks2 walker2 state2 endO2 heqL =>
        obtain ⟨hgpL, hmonoL, hwfL, hBwL, hwltL, hfrL, hendL⟩ :=
          IH.doL exs st.hsize _ _ _ _ _ _ _ _ _ _ _ _ heqL
            (mkA_GPxs hwf hgp _ _ _ _) (mkA_Wf hwf _ _ _ _)
            (Nat.le_refl _) (show st.hsize < st.hsize + 1 by omega)
            (Nat.le_refl _) (show st.hsize < st.hsize + 1 by omega)
            (fun e he => Option.noConfusion he) rfl
        have hm2 : st.hsize + 1 ≤ st2.hsize := hmonoL
        cases endO2 with
        | none =>
          exact absurd h (by intro hh; exact Except.noConfusion hh)
        | some endN =>
          dsimp only at h
          split at h
          · exact absurd h (by intro hh; exact Except.noConfusion hh)
          · obtain ⟨hBe, helt⟩ := hendL endN rfl
            simp only [Except.ok.injEq, Prod.mk.injEq] at h
            obtain ⟨rfl, rfl, rfl⟩ := h
            refine ⟨?_, ?_, hwfL, helt, Or.inr hBe, ?_, ?_, [st.hsize], ?_, by simp,
              fun hwr => absurd hwr (by omega)⟩
            · exact GPxs_pushParent (GPxs_pushChild (GPxs_setType hgpL _ _) _ _) _ _
            · exact show st.hsize ≤ st2.hsize by omega
            · intro id hlt hne
              refine (hget_pushParent_ne _ _ (by omega)).trans ?_
              refine (hget_pushChild_ne _ _ (by omega)).trans ?_
              refine (hget_setType_ne _ _ (by omega)).trans ?_
              refine (hfrL id (by omega)).trans ?_
              exact mkA_hget_ne st _ _ _ root (by omega) hne
            · refine ((parents_pushParent _ _ _ _).trans
                (if_neg (show ¬ root = st.hsize by omega))).trans ?_
              refine (parents_pushChild _ _ _ _).trans ?_
              refine (parents_setType _ _ _ _).trans ?_
              refine (congrArg PyNode.parents (hfrL root (by omega))).trans ?_
              exact mkA_parents_ne st _ _ _ root (by omega)
            · refine (children_pushParent _ _ _ _).trans ?_
              refine ((children_pushChild _ _ _ _).trans
                (if_neg (show ¬ root = endN by omega))).trans ?_
              refine (children_setType _ _ _ _).trans ?_
              refine (congrArg PyNode.children (hfrL root (by omega))).trans ?_
              exact mkA_children_w st _ _ _ (by omega)

/-- Hand-stated one-step unfoldings of `forLoop` (the automatic
equation generator fails on a `match` of this size); both are
definitional. -/
theorem forLoop_nil (fuel : Nat) (st : PState) (start walker : Nat) (state : FSMState)
    (endO fcO fmO fblwO : Option Nat) (succ : Bool) :
    forLoop (fuel + 1) st start walker state [] endO fcO fmO fblwO succ =
      .ok (st, [], walker, state, endO, fcO, fmO, fblwO) := rfl

theorem forLoop_cons (fuel : Nat) (st : PState) (start walker : Nat) (state : FSMState)
    (peek : Token) (rest : List Token) (endO fcO fmO fblwO : Option Nat) (succ : Bool) :
    forLoop (fuel + 1) st start walker state (peek :: rest) endO fcO fmO fblwO succ =
      (let ps := fsmT state (colTS peek.type)
      if ps = .ERROR then
        if succ then .ok (st, peek :: rest, walker, state, endO, fcO, fmO, fblwO)
        else .error .typeError
      else if ps = .FOR_COND ∨ ps = .FOR_COND_END then
        match fcO with
        | none =>
          let (st, fc) := allocNode st ((hget st walker).val + 1) []
          let st := pushToken st fc peek
          let st := setType st fc (mapFSMToDecomp ps)
          let st := pushParent st fc start
          let st := pushChild st start fc
          let st := appendNodeList st fc
          forLoop fuel st start fc ps rest endO (some fc) fmO fblwO succ
        | some _ =>
          let st := pushToken st walker peek
          forLoop fuel st start walker ps rest endO fcO fmO fblwO succ
      else if ps = .FOR_MODIFY ∨ ps = .FOR_PAREN_CLOSE then
        match fmO with
        | none =>
          match fcO with
          | none => .error .attrError
          | some fc =>
            let (st, fm) := allocNode st ((hget st walker).val + 1) []
            let st := pushToken st fm peek
            let st := pushChild st fm fc
            let st := pushParent st fc fm
            let st := appendNodeList st fm
            forLoop fuel st start fm ps rest endO fcO (some fm) fblwO succ
        | some _ =>
          let st := pushToken st walker peek
          forLoop fuel st start walker ps rest endO fcO fmO fblwO succ
      else if ps = .FOR_STATEMENT ∨ ps = .FOR_SINGLE_STATEMENT then
        match fcO with
        | none => .error .attrError
        | some fc =>
          let oldVal := (hget st fc).val
          let st := setVal st fc (hget st walker).val
          match buildTree fuel st fc (peek :: rest) with
          | .error e => .error e
          | .ok (st, tks, w?) =>
            match w? with
            | none => .error .noneWalker
            | some w =>
              let st := setVal st fc oldVal
              if ps = .FOR_SINGLE_STATEMENT then
                .ok (st, tks, w, state, endO, fcO, fmO, some w)
              else forLoop fuel st start w ps tks endO fcO fmO (some w) succ
      else if ps = .FOR_END then
        let withEmpty : Except PyErr (PState × Nat × Option Nat) :=
          if state = .FOR_BRACE_OPEN then
            match fcO with
            | none => .error .attrError
            | some fc =>
              match (hget st walker).tokens.getLast? with
              | none => .error .indexError
              | some lt =>
                let (st, emptyN) := allocNode st ((hget st walker).val + 1) []
                let st := pushToken st emptyN ⟨lt.line, .ds .P1, []⟩
                let st := setType st emptyN (some .P1)
                let st := pushParent st emptyN fc
                let st := pushChild st fc emptyN
                let st := appendNodeList st emptyN
                .ok (st, emptyN, some emptyN)
          else .ok (st, walker, fblwO)
        match withEmpty with
        | .error e => .error e
        | .ok (st, walker, fblwO) =>
          let (st, endN) := allocNode st ((hget st walker).val + 1) []
          let st := pushToken st endN peek
          let st := setType st endN (mapFSMToDecomp ps)
          let st := appendNodeList st endN
          .ok (st, rest, walker, state, some endN, fcO, fmO, fblwO)
      else
        let st := pushToken st walker peek
        forLoop fuel st start walker ps rest endO fcO fmO fblwO succ) := rfl

/-- Step for `forLoop`. -/
theorem forL_step (fuel : Nat) (IH : InvPack fuel) : ForLoopOK (fuel + 1) := by
  intro exs B st start walker state tokens fcO fmO fblwO succ st' tks w' state' endO'
    fcO' fmO' fblwO' h hgp hwf hBs hslt hBw hwlt hfc hfm hfblw hsucc
  subst hsucc
  cases tokens with
  | nil =>
    rw [forLoop_nil] at h
    obtain ⟨rfl, rfl, rfl, rfl, rfl, rfl, rfl, rfl⟩ :
        st = st' ∧ ([] : List Token) = tks ∧ walker = w' ∧ state = state' ∧
          (none : Option Nat) = endO' ∧ fcO = fcO' ∧ fmO = fmO' ∧ fblwO = fblwO' := by
      simpa using h
    exact ⟨hgp, Nat.le_refl _, hwf, hBw, hwlt, fun id _ => rfl,
      fun e he => Option.noConfusion he, hfc, hfm, hfblw⟩
  | cons peek rest =>
    rw [forLoop_cons] at h
    dsimp only at h
    split at h
    · exact absurd h (by intro hh; exact Except.noConfusion hh)
    · split at h
      · -- FOR_COND / FOR_COND_END
        split at h
        · -- create the condition node
          simp only [snd_allocNode] at h
          obtain ⟨hgp', hmono', hwf', hBw', hwlt', hfr', hend', hfc', hfm', hfblw'⟩ :=
            IH.forL exs B _ start _ _ _ _ _ _ _ _ _ _ _ _ _ _ _ h
              (mkA_GPxs hwf hgp _ _ _ _) (mkA_Wf hwf _ _ _ _)
              hBs (show start < st.hsize + 1 by omega)
              (by omega) (show st.hsize < st.hsize + 1 by omega)
              (fun x hx => by
                have : st.hsize = x := by injection hx
                exact ⟨by omega, show x < st.hsize + 1 by omega⟩)
              (fun x hx => by
                have := hfm x hx
                exact ⟨by omega, show x < st.hsize + 1 by omega⟩)
              (fun x hx => by
                have := hfblw x hx
                exact ⟨by omega, show x < st.hsize + 1 by omega⟩)
              rfl
          have hm1 : st.hsize + 1 ≤ st'.hsize := hmono'
          refine ⟨hgp', by omega, hwf', hBw', hwlt', ?_, hend', hfc', hfm', hfblw'⟩
          intro id hid
          refine (hfr' id hid).trans ?_
          exact mkA_hget_ne st _ _ _ start (by omega) (by omega)
        · -- condition node exists: push the token
          obtain ⟨hgp', hmono', hwf', hBw', hwlt', hfr', hend', hfc', hfm', hfblw'⟩ :=
            IH.forL exs B _ start _ _ _ _ _ _ _ _ _ _ _ _ _ _ _ h
              (GPxs_pushToken hgp _ _) hwf hBs hslt hBw hwlt hfc hfm hfblw rfl
          refine ⟨hgp', hmono', hwf', hBw', hwlt', ?_, hend', hfc', hfm', hfblw'⟩
          intro id hid
          exact (hfr' id hid).trans (hget_pushToken_ne st peek (by omega))
      · split at h
        · -- FOR_MODIFY / FOR_PAREN_CLOSE
          split at h
          · -- create the modify node (parentless until the epilogue)
            split at h
            · exact absurd h (by intro hh; exact Except.noConfusion hh)
            next fc =>
              rename_i hfcO
              simp only [snd_allocNode] at h
              obtain ⟨hBfc, hfclt⟩ := hfc fc rfl
              obtain ⟨hgp', hmono', hwf', hBw', hwlt', hfr', hend', hfc', hfm', hfblw'⟩ :=
                IH.forL exs B _ start _ _ _ _ _ _ _ _ _ _ _ _ _ _ _ h
                  (mkFM_GPxs hwf hgp _ _ _) (mkFM_Wf hwf _ _ _)
                  hBs (show start < st.hsize + 1 by omega)
                  (by omega) (show st.hsize < st.hsize + 1 by omega)
                  (fun x hx => by
                    have := hfc x hx
                    exact ⟨by omega, show x < st.hsize + 1 by omega⟩)
                  (fun x hx => by
                    have : st.hsize = x := by injection hx
                    exact ⟨by omega, show x < st.hsize + 1 by omega⟩)
                  (fun x hx => by
                    have := hfblw x hx
                    exact ⟨by omega, show x < st.hsize + 1 by omega⟩)
                  rfl
              have hm1 : st.hsize + 1 ≤ st'.hsize := hmono'
              refine ⟨hgp', by omega, hwf', hBw', hwlt', ?_, hend', hfc', hfm', hfblw'⟩
              intro id hid
              refine (hfr' id hid).trans ?_
              exact mkFM_hget_ne st _ peek fc (by omega) (by omega)
          · -- modify node exists: push the token
            obtain ⟨hgp', hmono', hwf', hBw', hwlt', hfr', hend', hfc', hfm', hfblw'⟩ :=
              IH.forL exs B _ start _ _ _ _ _ _ _ _ _ _ _ _ _ _ _ h
                (GPxs_pushToken hgp _ _) hwf hBs hslt hBw hwlt hfc hfm hfblw rfl
            refine ⟨hgp', hmono', hwf', hBw', hwlt', ?_, hend', hfc', hfm', hfblw'⟩
            intro id hid
            exact (hfr' id hid).trans (hget_pushToken_ne st peek (by omega))
        · split at h
          · -- FOR_STATEMENT / FOR_SINGLE_STATEMENT
            split at h
            · exact absurd h (by intro hh; exact Except.noConfusion hh)
            next fc =>
              rename_i hfcO
              obtain ⟨hBfc, hfclt⟩ := hfc fc rfl
              split at h
              next e heq => exact absurd h (by intro hh; exact Except.noConfusion hh)
              next st3 tks3 w? heq =>
                split at h
                · exact absurd h (by intro hh; exact Except.noConfusion hh)
                next w =>
                  obtain ⟨-, hS⟩ := IH.tree _ _ _ _ _ _ _ heq
                    (GPxs_setVal hgp _ _) (show fc < (setVal st fc
                      (hget st walker).val).hsize from hfclt) hwf
                  obtain ⟨hgp3, hmono3, hwf3, hwlt3, hwor3, hfr3, hpar3, l3, hch3,
                    hl3, hlr3⟩ := hS w rfl
                  have hm3 : st.hsize ≤ st3.hsize := hmono3
                  have hBw3 : B ≤ w := by
                    rcases hwor3 with rfl | hge
                    · exact hBfc
                    · have : st.hsize ≤ w := hge
                      omega
                  split at h
                  · -- single statement: return directly
                    obtain ⟨rfl, rfl, rfl, rfl, rfl, rfl, rfl, rfl⟩ :
                        setVal st3 fc (hget st fc).val = st' ∧ tks3 = tks ∧ w = w' ∧
                          state = state' ∧ (none : Option Nat) = endO' ∧
                          some fc = fcO' ∧ fmO = fmO' ∧ some w = fblwO' := by
                      simpa using h
                    refine ⟨GPxs_setVal hgp3 _ _, show st.hsize ≤ st3.hsize by omega,
                      hwf3, hBw3, show w < st3.hsize from hwlt3, ?_,
                      fun e he => Option.noConfusion he, ?_, ?_, ?_⟩
                    · intro id hid
                      refine (hget_setVal_ne _ _ (by omega)).trans ?_
                      refine (hfr3 id (show id < st.hsize by omega) (by omega)).trans ?_
                      exact hget_setVal_ne _ _ (by omega)
                    · intro x hx
                      have : fc = x := by injection hx
                      exact ⟨by omega, show x < st3.hsize by omega⟩
                    · intro x hx
                      have := hfm x hx
                      exact ⟨by omega, show x < st3.hsize by omega⟩
                    · intro x hx
                      have : w = x := by injection hx
                      exact ⟨by omega, show x < st3.hsize by omega⟩
                  · -- keep looping
                    obtain ⟨hgp', hmono', hwf', hBw', hwlt', hfr', hend', hfc', hfm',
                        hfblw'⟩ :=
                      IH.forL exs B _ start _ _ _ _ _ _ _ _ _ _ _ _ _ _ _ h
                        (GPxs_setVal hgp3 _ _)
                        (show Wf (setVal st3 fc (hget st fc).val) from hwf3)
                        hBs (show start < st3.hsize by omega)
                        hBw3 (show w < st3.hsize from hwlt3)
                        (fun x hx => by
                          have : fc = x := by injection hx
                          exact ⟨by omega, show x < st3.hsize by omega⟩)
                        (fun x hx => by
                          have := hfm x hx
                          exact ⟨by omega, show x < st3.hsize by omega⟩)
                        (fun x hx => by
                          have : w = x := by injection hx
                          exact ⟨by omega, show x < st3.hsize by omega⟩)
                        rfl
                    have hm4 : st3.hsize ≤ st'.hsize := hmono'
                    refine ⟨hgp', by omega, hwf', hBw', hwlt', ?_, hend', hfc', hfm',
                      hfblw'⟩
                    intro id hid
                    refine (hfr' id hid).trans ?_
                    refine (hget_setVal_ne _ _ (by omega)).trans ?_
                    refine (hfr3 id (show id < st.hsize by omega) (by omega)).trans ?_
                    exact hget_setVal_ne _ _ (by omega)
          · split at h
            · -- FOR_END: create the pending end node and return
              split at h
              next e heqE => exact absurd h (by intro hh; exact Except.noConfusion hh)
              next st2 walker2 fblw2 heqE =>
                simp only [snd_allocNode] at h
                split at heqE
                · -- empty-body placeholder under the condition node
                  split at heqE
                  · exact absurd heqE (by intro hh; exact Except.noConfusion hh)
                  next fc =>
                    rename_i hfcO
                    obtain ⟨hBfc, hfclt⟩ := hfc fc rfl
                    split at heqE
                    · exact absurd heqE (by intro hh; exact Except.noConfusion hh)
                    next lt heqL =>
                      simp only [snd_allocNode] at heqE
                      obtain ⟨rfl, rfl, rfl⟩ :
                          mkA st ((hget st walker).val + 1) ⟨lt.line, .ds .P1, []⟩
                            (some .P1) fc = st2 ∧ st.hsize = walker2 ∧
                          (some st.hsize : Option Nat) = fblw2 := by
                        simpa [mkA] using heqE
                      simp only [Except.ok.injEq, Prod.mk.injEq] at h
                      obtain ⟨rfl, rfl, rfl, rfl, rfl, rfl, rfl, rfl⟩ := h
                      refine ⟨?_, ?_, ?_, by omega, ?_, ?_, ?_, ?_, ?_, ?_⟩
                      · exact mkP_GPxs (mkA_Wf hwf _ _ _ _) (mkA_GPxs hwf hgp _ _ _ _)
                          _ _ _
                      · exact show st.hsize ≤ st.hsize + 1 + 1 by omega
                      · exact mkP_Wf (mkA_Wf hwf _ _ _ _) _ _ _
                      · exact show st.hsize < st.hsize + 1 + 1 by omega
                      · intro id hid
                        refine (mkP_hget_ne _ _ _ _ (show id ≠ st.hsize + 1 by omega)).trans ?_
                        exact mkA_hget_ne st _ _ _ fc (by omega) (by omega)
                      · intro e he
                        have : st.hsize + 1 = e := by injection he
                        exact ⟨by omega, show e < st.hsize + 1 + 1 by omega⟩
                      · intro x hx
                        have := hfc x hx
                        exact ⟨by omega, show x < st.hsize + 1 + 1 by omega⟩
                      · intro x hx
                        have := hfm x hx
                        exact ⟨by omega, show x < st.hsize + 1 + 1 by omega⟩
                      · intro x hx
                        have : st.hsize = x := by injection hx
                        exact ⟨by omega, show x < st.hsize + 1 + 1 by omega⟩
                · -- no placeholder
                  obtain ⟨rfl, rfl, rfl⟩ : st = st2 ∧ walker = walker2 ∧ fblwO = fblw2 := by
                    simpa using heqE
                  simp only [Except.ok.injEq, Prod.mk.injEq] at h
                  obtain ⟨rfl, rfl, rfl, rfl, rfl, rfl, rfl, rfl⟩ := h
                  refine ⟨?_, ?_, mkP_Wf hwf _ _ _, by omega, ?_, ?_, ?_, ?_, ?_, ?_⟩
                  · exact mkP_GPxs hwf hgp _ _ _
                  · exact show st.hsize ≤ st.hsize + 1 by omega
                  · exact show walker < st.hsize + 1 by omega
                  · intro id hid
                    exact mkP_hget_ne _ _ _ _ (by omega)
                  · intro e he
                    have : st.hsize = e := by injection he
                    exact ⟨by omega, show e < st.hsize + 1 by omega⟩
                  · intro x hx
                    have := hfc x hx
                    exact ⟨by omega, show x < st.hsize + 1 by omega⟩
                  · intro x hx
                    have := hfm x hx
                    exact ⟨by omega, show x < st.hsize + 1 by omega⟩
                  · intro x hx
                    have := hfblw x hx
                    exact ⟨by omega, show x < st.hsize + 1 by omega⟩
            · -- plain token
              obtain ⟨hgp', hmono', hwf', hBw', hwlt', hfr', hend', hfc', hfm', hfblw'⟩ :=
                IH.forL exs B _ start _ _ _ _ _ _ _ _ _ _ _ _ _ _ _ h
                  (GPxs_pushToken hgp _ _) hwf hBs hslt hBw hwlt hfc hfm hfblw rfl
              refine ⟨hgp', hmono', hwf', hBw', hwlt', ?_, hend', hfc', hfm', hfblw'⟩
              intro id hid
              exact (hfr' id hid).trans (hget_pushToken_ne st peek (by omega))

/-- The epilogue of `build_for_tree`: link the end node under the
condition node and the modify node under the body's last walker (or the
condition node), discharging both pending excuses. -/
theorem forB_cont {exs : List Nat} {st stE : PState} {root fc fm endN : Nat}
    {fblwO : Option Nat} {tks2 tks : List Token} {st' : PState} {w : Nat}
    (h : (.ok ((match fblwO with
        | some fblw =>
          pushParent (pushChild (pushParent (pushChild stE fc endN) endN fc) fblw fm) fm fblw
        | none =>
          pushParent (pushChild (pushParent (pushChild stE fc endN) endN fc) fc fm) fm fc),
        tks2, endN) : Except PyErr (PState × List Token × Nat)) = .ok (st', tks, w))
    (hgpE : GPxs stE (endN :: fm :: exs)) (hwfE : Wf stE)
    (hszE : st.hsize ≤ stE.hsize) (hroot : root < st.hsize)
    (hBfc : st.hsize ≤ fc) (hfclt : fc < stE.hsize)
    (hBfm : st.hsize ≤ fm) (hfmlt : fm < stE.hsize)
    (hBe : st.hsize ≤ endN) (helt : endN < stE.hsize)
    (hfblw : ∀ x, fblwO = some x → st.hsize ≤ x ∧ x < stE.hsize)
    (hfrE : ∀ id, id < st.hsize → id ≠ root → hget stE id = hget st id)
    (hparE : (hget stE root).parents = (hget st root).parents)
    (hchE : (hget stE root).children = (hget st root).children ++ [st.hsize]) :
    BPost st st' root w exs := by
  have hd1 : GPxs (pushParent (pushChild stE fc endN) endN fc) (fm :: exs) := by
    refine GPxs_discharge (GPxs_pushParent (GPxs_pushChild hgpE _ _) _ _) ?_
    rw [parents_pushParent, if_pos rfl]
    simp
  cases fblwO with
  | some fblw =>
    obtain ⟨hBfb, hfblt⟩ := hfblw fblw rfl
    obtain ⟨rfl, rfl, rfl⟩ :
        pushParent (pushChild (pushParent (pushChild stE fc endN) endN fc) fblw fm)
          fm fblw = st' ∧ tks2 = tks ∧ endN = w := by
      simpa using h
    refine ⟨?_, show st.hsize ≤ stE.hsize by omega, hwfE,
      show endN < stE.hsize from helt, Or.inr hBe, ?_, ?_,
      [st.hsize], ?_, by simp, fun hwr => absurd hwr (by omega)⟩
    · refine GPxs_discharge (GPxs_pushParent (GPxs_pushChild hd1 _ _) _ _) ?_
      rw [parents_pushParent, if_pos rfl]
      simp
    · intro id hlt hne
      refine (hget_pushParent_ne _ _ (by omega)).trans ?_
      refine (hget_pushChild_ne _ _ (by omega)).trans ?_
      refine (hget_pushParent_ne _ _ (by omega)).trans ?_
      refine (hget_pushChild_ne _ _ (by omega)).trans ?_
      exact hfrE id hlt hne
    · refine ((parents_pushParent _ _ _ _).trans
        (if_neg (show ¬ root = fm by omega))).trans ?_
      refine (parents_pushChild _ _ _ _).trans ?_
      refine ((parents_pushParent _ _ _ _).trans
        (if_neg (show ¬ root = endN by omega))).trans ?_
      refine (parents_pushChild _ _ _ _).trans ?_
      exact hparE
    · refine (children_pushParent _ _ _ _).trans ?_
      refine ((children_pushChild _ _ _ _).trans
        (if_neg (show ¬ root = fblw by omega))).trans ?_
      refine (children_pushParent _ _ _ _).trans ?_
      refine ((children_pushChild _ _ _ _).trans
        (if_neg (show ¬ root = fc by omega))).trans ?_
      exact hchE
  | none =>
    obtain ⟨rfl, rfl, rfl⟩ :
        pushParent (pushChild (pushParent (pushChild stE fc endN) endN fc) fc fm)
          fm fc = st' ∧ tks2 = tks ∧ endN = w := by
      simpa using h
    refine ⟨?_, show st.hsize ≤ stE.hsize by omega, hwfE,
      show endN < stE.hsize from helt, Or.inr hBe, ?_, ?_,
      [st.hsize], ?_, by simp, fun hwr => absurd hwr (by omega)⟩
    · refine GPxs_discharge (GPxs_pushParent (GPxs_pushChild hd1 _ _) _ _) ?_
      rw [parents_pushParent, if_pos rfl]
      simp
    · intro id hlt hne
      refine (hget_pushParent_ne _ _ (by omega)).trans ?_
      refine (hget_pushChild_ne _ _ (by omega)).trans ?_
      refine (hget_pushParent_ne _ _ (by omega)).trans ?_
      refine (hget_pushChild_ne _ _ (by omega)).trans ?_
      exact hfrE id hlt hne
    · refine ((parents_pushParent _ _ _ _).trans
        (if_neg (show ¬ root = fm by omega))).trans ?_
      refine (parents_pushChild _ _ _ _).trans ?_
      refine ((parents_pushParent _ _ _ _).trans
        (if_neg (show ¬ root = endN by omega))).trans ?_
      refine (parents_pushChild _ _ _ _).trans ?_
      exact hparE
    · refine (children_pushParent _ _ _ _).trans ?_
      refine ((children_pushChild _ _ _ _).trans
        (if_neg (show ¬ root = fc by omega))).trans ?_
      refine (children_pushParent _ _ _ _).trans ?_
      refine ((children_pushChild _ _ _ _).trans
        (if_neg (show ¬ root = fc by omega))).trans ?_
      exact hchE

/-- Step for `build_for_tree`. -/
theorem forB_step (fuel : Nat) (IH : InvPack fuel) : BTOK buildForTree (fuel + 1) := by
  intro exs st root tokens st' tks w h hgp hroot hwf
  cases tokens with
  | nil =>
    rw [buildForTree.eq_def] at h
    exact absurd h (by intro hh; exact Except.noConfusion hh)
  | cons token rest =>
    rw [buildForTree.eq_def] at h
    dsimp only at h
    split at h
    · obtain ⟨rfl, rfl, rfl⟩ : st = st' ∧ rest = tks ∧ root = w := by simpa using h
      exact ⟨hgp, Nat.le_refl _, hwf, hroot, Or.inl rfl, fun id _ _ => rfl, rfl,
        [], by simp, by simp, fun _ => rfl⟩
    · simp only [snd_allocNode] at h
      split at h
      next e heqL => exact absurd h (by intro hh; exact Except.noConfusion hh)
      next st2 tks2 walker2 state2 endO2 fcO2 fmO2 fblw2 heqL =>
        obtain ⟨hgpL, hmonoL, hwfL, hBwL, hwltL, hfrL, hend2, hfc2, hfm2, hfblw2⟩ :=
          IH.forL exs st.hsize _ _ _ _ _ _ _ _ _ _ _ _ _ _ _ _ _ heqL
            (mkA_GPxs hwf hgp _ _ _ _) (mkA_Wf hwf _ _ _ _)
            (Nat.le_refl _) (show st.hsize < st.hsize + 1 by omega)
            (Nat.le_refl _) (show st.hsize < st.hsize + 1 by omega)
            (fun x hx => Option.noConfusion hx)
            (fun x hx => Option.noConfusion hx)
            (fun x hx => Option.noConfusion hx)
            rfl
        have hm2 : st.hsize + 1 ≤ st2.hsize := hmonoL
        cases fcO2 with
        | none =>
          cases fmO2 <;> exact absurd h (by intro hh; exact Except.noConfusion hh)
        | some fc =>
          cases fmO2 with
          | none =>
            exact absurd h (by intro hh; exact Except.noConfusion hh)
          | some fm =>
            dsimp only at h
            obtain ⟨hBfc, hfclt⟩ := hfc2 fc rfl
            obtain ⟨hBfm, hfmlt⟩ := hfm2 fm rfl
            cases endO2 with
            | some e =>
              dsimp only at h
              obtain ⟨hBe, helt⟩ := hend2 e rfl
              exact forB_cont h hgpL hwfL (by omega) hroot hBfc hfclt hBfm hfmlt
                hBe helt (fun x hx => hfblw2 x hx)
                (fun id hlt hne =>
                  (hfrL id (by omega)).trans (mkA_hget_ne st _ _ _ root (by omega) hne))
                ((congrArg PyNode.parents (hfrL root (by omega))).trans
                  (mkA_parents_ne st _ _ _ root (by omega)))
                ((congrArg PyNode.children (hfrL root (by omega))).trans
                  (mkA_children_w st _ _ _ (by omega)))
            | none =>
              dsimp only at h
              split at h
              · exact absurd h (by intro hh; exact Except.noConfusion hh)
              next st5 endN heqT =>
                split at heqT
                · exact absurd heqT (by intro hh; exact Except.noConfusion hh)
                next lastTok heqT2 =>
                  obtain ⟨rfl, rfl⟩ :
                      mkP st2 ((hget st2 walker2).val + 1) lastTok
                        (mapFSMToDecomp state2) = st5 ∧ st2.hsize = endN := by
                    simpa [mkP] using heqT
                  refine forB_cont h (mkP_GPxs hwfL hgpL _ _ _) (mkP_Wf hwfL _ _ _)
                    (show st.hsize ≤ st2.hsize + 1 by omega) hroot
                    (by omega) (show fc < st2.hsize + 1 by omega)
                    (by omega) (show fm < st2.hsize + 1 by omega)
                    (by omega) (show st2.hsize < st2.hsize + 1 by omega)
                    (fun x hx => by
                      have := hfblw2 x hx
                      exact ⟨by omega, show x < st2.hsize + 1 by omega⟩)
                    (fun id hlt hne => ?_) ?_ ?_
                  · refine (mkP_hget_ne _ _ _ _ (by omega)).trans ?_
                    exact (hfrL id (by omega)).trans
                      (mkA_hget_ne st _ _ _ root (by omega) hne)
                  · refine (mkP_parents_ne _ _ _ _ (by omega)).trans ?_
                    exact (congrArg PyNode.parents (hfrL root (by omega))).trans
                      (mkA_parents_ne st _ _ _ root (by omega))
                  · refine (congrArg PyNode.children
                      (mkP_hget_ne _ _ _ _ (by omega))).trans ?_
                    exact (congrArg PyNode.children (hfrL root (by omega))).trans
                      (mkA_children_w st _ _ _ (by omega))

/-- Step for `funcLoop`. -/
theorem funcL_step (fuel : Nat) (IH : InvPack fuel) : FuncLoopOK (fuel + 1) := by
  intro exs B st start walker state tokens endO peeked st' tks w' state' endO' peeked' h
    hgp hwf hBs hslt hBw hwlt hEnd
  cases tokens with
  | nil =>
    rw [funcLoop.eq_def] at h
    dsimp only at h
    obtain ⟨rfl, rfl, rfl, rfl, rfl, rfl⟩ :
        st = st' ∧ ([] : List Token) = tks ∧ walker = w' ∧ state = state' ∧
          endO = endO' ∧ peeked = peeked' := by
      simpa using h
    exact ⟨hgp, Nat.le_refl _, hwf, hBw, hwlt, fun id _ => rfl, hEnd⟩
  | cons peek rest =>
    rw [funcLoop.eq_def] at h
    dsimp only at h
    split at h
    · exact absurd h (by intro hh; exact Except.noConfusion hh)
    · split at h
      · -- FUNC_STATEMENT
        split at h
        next e heq => exact absurd h (by intro hh; exact Except.noConfusion hh)
        next st2 tks2 w? heq =>
          split at h
          · exact absurd h (by intro hh; exact Except.noConfusion hh)
          next w =>
            obtain ⟨-, hS⟩ := IH.tree _ _ _ _ _ _ _ heq hgp hwlt hwf
            obtain ⟨hgp2, hmono2, hwf2, hwlt2, hwor2, hfr2, hpar2, l2, hch2, hl2, hlr2⟩ :=
              hS w rfl
            have hBw2 : B ≤ w := by
              rcases hwor2 with rfl | hge
              · exact hBw
              · omega
            obtain ⟨hgp', hmono', hwf', hBw', hwlt', hfr', hend'⟩ :=
              IH.funcL exs B _ start _ _ _ _ _ _ _ _ _ _ _ h
                hgp2 hwf2 hBs (by omega) hBw2 hwlt2
                (fun e he => by have := hEnd e he; omega)
            refine ⟨hgp', by omega, hwf', hBw', hwlt', ?_, hend'⟩
            intro id hid
            exact (hfr' id hid).trans (hfr2 id (by omega) (by omega))
      · split at h
        · -- FUNC_END
          split at h
          next e heqE => exact absurd h (by intro hh; exact Except.noConfusion hh)
          next st2 walker2 heqE =>
            have hcont : GPxs st2 exs ∧ Wf st2 ∧ st.hsize ≤ st2.hsize ∧ B ≤ walker2 ∧
                walker2 < st2.hsize ∧ (∀ id, id < B → hget st2 id = hget st id) := by
              split at heqE
              · split at heqE
                · exact absurd heqE (by intro hh; exact Except.noConfusion hh)
                next lt heqL =>
                  simp only [snd_allocNode] at heqE
                  obtain ⟨rfl, rfl⟩ :
                      mkA st ((hget st walker).val + 1) ⟨lt.line, .ds .P1, []⟩
                        (some .P1) walker = st2 ∧ st.hsize = walker2 := by
                    simpa [mkA] using heqE
                  exact ⟨mkA_GPxs hwf hgp _ _ _ _, mkA_Wf hwf _ _ _ _, Nat.le_succ _,
                    by omega, show st.hsize < st.hsize + 1 by omega,
                    fun id hid => mkA_hget_ne st _ _ _ walker (by omega) (by omega)⟩
              · obtain ⟨rfl, rfl⟩ : st = st2 ∧ walker = walker2 := by simpa using heqE
                exact ⟨hgp, hwf, Nat.le_refl _, hBw, hwlt, fun id _ => rfl⟩
            obtain ⟨hgp2, hwf2, hsz2, hBw2, hw2lt, hfr2⟩ := hcont
            split at h
            · -- semicolon: the start node becomes the end node
              obtain ⟨rfl, rfl, rfl, rfl, rfl, rfl⟩ :
                  pushToken (setType st2 start (some .P1)) start peek = st' ∧
                    rest = tks ∧ walker2 = w' ∧ state = state' ∧
                    (some start : Option Nat) = endO' ∧ true = peeked' := by
                simpa using h
              refine ⟨GPxs_pushToken (GPxs_setType hgp2 _ _) _ _, hsz2, hwf2, hBw2,
                hw2lt, ?_, ?_⟩
              · intro id hid
                refine (hget_pushToken_ne _ _ (by omega)).trans ?_
                exact (hget_setType_ne _ _ (by omega)).trans (hfr2 id hid)
              · intro e he
                have : start = e := by injection he
                exact ⟨by omega, show e < st2.hsize by omega⟩
            · -- fresh join node under the walker
              simp only [snd_allocNode] at h
              obtain ⟨rfl, rfl, rfl, rfl, rfl, rfl⟩ :
                  mkA st2 ((hget st2 walker2).val + 1) peek
                    (mapFSMToDecomp (fsmT state (colTS peek.type))) walker2 = st' ∧
                    rest = tks ∧ walker2 = w' ∧ state = state' ∧
                    (some st2.hsize : Option Nat) = endO' ∧ true = peeked' := by
                simpa [mkA] using h
              refine ⟨mkA_GPxs hwf2 hgp2 _ _ _ _, show st.hsize ≤ st2.hsize + 1 by omega,
                mkA_Wf hwf2 _ _ _ _, hBw2,
                show walker2 < st2.hsize + 1 by omega, ?_, ?_⟩
              · intro id hid
                refine (mkA_hget_ne st2 _ _ _ walker2 (by omega) (by omega)).trans ?_
                exact hfr2 id hid
              · intro e he
                have : st2.hsize = e := by injection he
                exact ⟨by omega, show e < st2.hsize + 1 by omega⟩
        · -- plain token
          obtain ⟨hgp', hmono', hwf', hBw', hwlt', hfr', hend'⟩ :=
            IH.funcL exs B _ start _ _ _ _ _ _ _ _ _ _ _ h
              (GPxs_pushToken hgp _ _) hwf hBs hslt hBw hwlt
              (fun e he => hEnd e he)
          refine ⟨hgp', hmono', hwf', hBw', hwlt', ?_, hend'⟩
          intro id hid
          exact (hfr' id hid).trans (hget_pushToken_ne st peek (by omega))

/-- Step for `build_function_tree`. -/
theorem funcB_step (fuel : Nat) (IH : InvPack fuel) : BTOK buildFunctionTree (fuel + 1) := by
  intro exs st root tokens st' tks w h hgp hroot hwf
  cases tokens with
  | nil =>
    rw [buildFunctionTree.eq_def] at h
    exact absurd h (by intro hh; exact Except.noConfusion hh)
  | cons token rest =>
    rw [buildFunctionTree.eq_def] at h
    dsimp only at h
    split at h
    · obtain ⟨rfl, rfl, rfl⟩ : st = st' ∧ rest = tks ∧ root = w := by simpa using h
      exact ⟨hgp, Nat.le_refl _, hwf, hroot, Or.inl rfl, fun id _ _ => rfl, rfl,
        [], by simp, by simp, fun _ => rfl⟩
    · simp only [snd_allocNode] at h
      split at h
      next e heqL => exact absurd h (by intro hh; exact Except.noConfusion hh)
      next st2 tks2 walker2 state2 endO2 peeked2 heqL =>
        obtain ⟨hgpL, hmonoL, hwfL, hBwL, hwltL, hfrL, hendL⟩ :=
          IH.funcL exs st.hsize _ _ _ _ _ _ _ _ _ _ _ _ _ heqL
            (mkA_GPxs hwf hgp _ _ _ _) (mkA_Wf hwf _ _ _ _)
            (Nat.le_refl _) (show st.hsize < st.hsize + 1 by omega)
            (Nat.le_refl _) (show st.hsize < st.hsize + 1 by omega)
            (fun e he => Option.noConfusion he)
        have hm2 : st.hsize + 1 ≤ st2.hsize := hmonoL
        cases endO2 with
        | none =>
          cases peeked2 <;> exact absurd h (by intro hh; exact Except.noConfusion hh)
        | some endN =>
          dsimp only at h
          obtain ⟨hBe, helt⟩ := hendL endN rfl
          obtain ⟨rfl, rfl, rfl⟩ : st2 = st' ∧ tks2 = tks ∧ endN = w := by simpa using h
          refine ⟨hgpL, by omega, hwfL, helt, Or.inr hBe, ?_, ?_, [st.hsize], ?_,
            by simp, fun hwr => absurd hwr (by omega)⟩
          · intro id hlt hne
            exact (hfrL id (by omega)).trans (mkA_hget_ne st _ _ _ root (by omega) hne)
          · exact (congrArg PyNode.parents (hfrL root (by omega))).trans
              (mkA_parents_ne st _ _ _ root (by omega))
          · exact (congrArg PyNode.children (hfrL root (by omega))).trans
              (mkA_children_w st _ _ _ (by omega))

/-- Step for `parse_tokens`' queue loop. -/
theorem pt_step (fuel : Nat) (IH : InvPack fuel) : PtLoopOK (fuel + 1) := by
  intro st walker tokens st' h hgp hwf hwlt
  cases tokens with
  | nil =>
    rw [ptLoop.eq_def] at h
    dsimp only at h
    obtain rfl : st = st' := by simpa using h
    exact ⟨hgp, hwf⟩
  | cons peek rest =>
    rw [ptLoop.eq_def] at h
    dsimp only at h
    split at h
    next e heq => exact absurd h (by intro hh; exact Except.noConfusion hh)
    next st2 tokens2 w? heq =>
      obtain ⟨hN, hS⟩ := IH.tree _ _ _ _ _ _ _ heq hgp hwlt hwf
      cases w? with
      | none =>
        obtain rfl : st2 = st := hN rfl
        exact IH.pt _ _ _ _ h hgp hwf hwlt
      | some w =>
        obtain ⟨hgp2, hmono2, hwf2, hwlt2, hwor2, hfr2, hpar2, l2, hch2, hl2, hlr2⟩ :=
          hS w rfl
        exact IH.pt _ _ _ _ h hgp2 hwf2 hwlt2

/-- The full invariant pack, by induction on the fuel. -/
theorem invPack : ∀ fuel, InvPack fuel
  | 0 => invPack_zero
  | fuel + 1 =>
    ⟨tree_step fuel (invPack fuel), stmtB_step fuel (invPack fuel),
     stmtL_step fuel (invPack fuel), ifB_step fuel (invPack fuel),
     ifL_step fuel (invPack fuel), whileB_step fuel (invPack fuel),
     whileL_step fuel (invPack fuel), doB_step fuel (invPack fuel),
     doL_step fuel (invPack fuel), forB_step fuel (invPack fuel),
     forL_step fuel (invPack fuel), funcB_step fuel (invPack fuel),
     funcL_step fuel (invPack fuel), pt_step fuel (invPack fuel)⟩

/-- `parse_tokens` leaves at most one detached node: the returned one
(the synthetic root's first child, whose reference to it is popped). -/
theorem parseTokens_inv (fuel : Nat) (st : PState) (tokens : List Token)
    (st'' : PState) (c0 : Nat) (h : parseTokens fuel st tokens = .ok (st'', c0))
    (hgp : GPxs st []) (hwf : Wf st) :
    Wf st'' ∧ ∀ i ∈ st''.nodes, (hget st'' i).parents = [] → i = c0 := by
  rw [parseTokens.eq_def] at h
  dsimp only at h
  simp only [snd_allocNode] at h
  split at h
  next e heqP => exact absurd h (by intro hh; exact Except.noConfusion hh)
  next st2 heqP =>
    obtain ⟨hgp2, hwf2⟩ := (invPack fuel).pt _ _ _ _ heqP
      (GPxs_allocNode hwf hgp (-1) [])
      ⟨fun i hi => Nat.lt_succ_of_lt (hwf.1 i hi), hwf.2⟩
      (show st.hsize < st.hsize + 1 by omega)
    split at h
    · obtain ⟨rfl, rfl⟩ : st2 = st'' ∧ st.hsize = c0 := by simpa using h
      refine ⟨hwf2, fun i hi hp => ?_⟩
      rcases hgp2 i hi with hx | hne
      · exact absurd hx (List.not_mem_nil i)
      · exact absurd hp hne
    next c1 rest2 heqC =>
      split at h
      · obtain ⟨rfl, rfl⟩ : st2 = st'' ∧ c1 = c0 := by simpa using h
        refine ⟨hwf2, fun i hi hp => ?_⟩
        rcases hgp2 i hi with hx | hne
        · exact absurd hx (List.not_mem_nil i)
        · exact absurd hp hne
      next p ps heqPar =>
        obtain ⟨rfl, rfl⟩ :
            hset st2 c1 { hget st2 c1 with parents := ps } = st'' ∧ c1 = c0 := by
          simpa using h
        refine ⟨⟨fun i hi => hwf2.1 i hi, hwf2.2⟩, fun i hi hp => ?_⟩
        by_cases hic : i = c1
        · exact hic
        · rw [nodes_hset] at hi
          rw [hget_hset, if_neg hic] at hp
          rcases hgp2 i hi with hx | hne
          · exact absurd hx (List.not_mem_nil i)
          · exact absurd hp hne

/- #### The minimiser never empties a parents list and only drops nodes -/

theorem pyListRemove_len {st : PState} : ∀ {l : List Nat} {x : Nat} {l' : List Nat},
    pyListRemove st l x = .ok l' → l'.length + 1 = l.length := by
  intro l
  induction l with
  | nil => intro x l' h; exact absurd h (by intro hh; exact Except.noConfusion hh)
  | cons y rest ih =>
    intro x l' h
    rw [pyListRemove] at h
    split at h
    · obtain rfl : rest = l' := by simpa using h
      rfl
    · split at h
      next e heq => exact absurd h (by intro hh; exact Except.noConfusion hh)
      next rest2 heq =>
        obtain rfl : y :: rest2 = l' := by simpa using h
        have := ih heq
        simp only [List.length_cons]
        omega

theorem pyListRemove_sub {st : PState} : ∀ {l : List Nat} {x : Nat} {l' : List Nat},
    pyListRemove st l x = .ok l' → List.Sublist l' l := by
  intro l
  induction l with
  | nil => intro x l' h; exact absurd h (by intro hh; exact Except.noConfusion hh)
  | cons y rest ih =>
    intro x l' h
    rw [pyListRemove] at h
    split at h
    · obtain rfl : rest = l' := by simpa using h
      exact List.sublist_cons_self y rest
    · split at h
      next e heq => exact absurd h (by intro hh; exact Except.noConfusion hh)
      next rest2 heq =>
        obtain rfl : y :: rest2 = l' := by simpa using h
        exact List.Sublist.cons₂ y (ih heq)

theorem parents_hset_children (st : PState) (i : Nat) (cs : List Nat) (j : Nat) :
    (hget (hset st i { hget st i with children := cs }) j).parents =
      (hget st j).parents := by
  rw [hget_hset]
  split
  next hji => subst hji; rfl
  next => rfl

theorem mergeParentsLoop_M (fuel : Nat) :
    ∀ st root node snap i st', mergeParentsLoop fuel st root node snap i = .ok st' →
      pKeep st st' ∧ st'.nodes = st.nodes := by
  induction fuel with
  | zero =>
    intro st root node snap i st' h
    exact absurd h (by intro hh; exact Except.noConfusion hh)
  | succ fuel ih =>
    intro st root node snap i st' h
    rw [mergeParentsLoop] at h
    split at h
    · obtain rfl : st = st' := by simpa using h
      exact ⟨pKeep_refl st, rfl⟩
    next parent hpar =>
      split at h
      · dsimp only at h
        split at h
        next e heq => exact absurd h (by intro hh; exact Except.noConfusion hh)
        next cs heq =>
          obtain ⟨hk, hn⟩ := ih _ _ _ _ _ _ h
          refine ⟨pKeep_trans (pKeep_trans (pKeep_trans
            (pKeep_pushParent st root parent)
            (pKeep_pushChild (pushParent st root parent) parent root))
            (fun j hj => by rw [parents_hset_children]; exact hj)) hk, hn.trans rfl⟩
      · obtain ⟨hk, hn⟩ := ih _ _ _ _ _ _ h
        exact ⟨hk, hn⟩

theorem mergeChildrenLoop_M (fuel : Nat) :
    ∀ st root node snap i st', mergeChildrenLoop fuel st root node snap i = .ok st' →
      pKeep st st' ∧ st'.nodes = st.nodes := by
  induction fuel with
  | zero =>
    intro st root node snap i st' h
    exact absurd h (by intro hh; exact Except.noConfusion hh)
  | succ fuel ih =>
    intro st root node snap i st' h
    rw [mergeChildrenLoop] at h
    split at h
    · obtain rfl : st = st' := by simpa using h
      exact ⟨pKeep_refl st, rfl⟩
    next child hch =>
      split at h
      · dsimp only at h
        split at h
        next e heq => exact absurd h (by intro hh; exact Except.noConfusion hh)
        next ps heq =>
          obtain ⟨hk, hn⟩ := ih _ _ _ _ _ _ h
          have hlen := pyListRemove_len heq
          have hpar2 : (hget (pushParent (pushChild st root child) child root)
              child).parents = (hget st child).parents ++ [root] := by
            rw [parents_pushParent, if_pos rfl, parents_pushChild]
          refine ⟨pKeep_trans (fun j hj => ?_) hk, hn.trans rfl⟩
          rw [hget_hset]
          split
          next hjc =>
            subst hjc
            intro hps
            subst hps
            rw [hpar2, List.length_append] at hlen
            simp only [List.length_nil, List.length_singleton] at hlen
            have : (hget st j).parents.length = 0 := by omega
            exact hj (List.eq_nil_of_length_eq_zero this)
          next hjc =>
            rw [parents_pushParent, if_neg hjc, parents_pushChild]
            exact hj
      · obtain ⟨hk, hn⟩ := ih _ _ _ _ _ _ h
        exact ⟨hk, hn⟩

theorem processMember_M (fuel : Nat) (st : PState) (root : Nat) (rp rc : List Nat)
    (node : Nat) (st' : PState) (h : processMember fuel st root rp rc node = .ok st') :
    pKeep st st' ∧ List.Sublist st'.nodes st.nodes := by
  rw [processMember] at h
  split at h
  next e heq => exact absurd h (by intro hh; exact Except.noConfusion hh)
  next st2 heqP =>
    split at h
    next e heq => exact absurd h (by intro hh; exact Except.noConfusion hh)
    next st3 heqC =>
      split at h
      next e heq => exact absurd h (by intro hh; exact Except.noConfusion hh)
      next ns heqN =>
        dsimp only at h
        split at h
        next e heq => exact absurd h (by intro hh; exact Except.noConfusion hh)
        next cs heqR =>
          obtain rfl :
              hset { st3 with nodes := ns } root
                { hget { st3 with nodes := ns } root with children := cs } = st' := by
            simpa using h
          obtain ⟨hk2, hn2⟩ := mergeParentsLoop_M fuel _ _ _ _ _ _ heqP
          obtain ⟨hk3, hn3⟩ := mergeChildrenLoop_M fuel _ _ _ _ _ _ heqC
          refine ⟨?_, ?_⟩
          · refine pKeep_trans hk2 (pKeep_trans hk3 ?_)
            intro j hj
            rw [parents_hset_children]
            exact hj
          · rw [nodes_hset]
            have hsub : List.Sublist ns st3.nodes := pyListRemove_sub heqN
            rw [hn3, hn2] at hsub
            exact hsub

theorem processMembers_M (fuel : Nat) (root : Nat) (rp rc : List Nat) :
    ∀ mems st st', processMembers fuel st root rp rc mems = .ok st' →
      pKeep st st' ∧ List.Sublist st'.nodes st.nodes := by
  intro mems
  induction mems with
  | nil =>
    intro st st' h
    obtain rfl : st = st' := by simpa [processMembers] using h
    exact ⟨pKeep_refl st, List.Sublist.refl _⟩
  | cons node rest ih =>
    intro st st' h
    rw [processMembers] at h
    split at h
    next e heq => exact absurd h (by intro hh; exact Except.noConfusion hh)
    next st2 heq =>
      obtain ⟨hk2, hn2⟩ := processMember_M fuel _ _ _ _ _ _ heq
      obtain ⟨hk3, hn3⟩ := ih _ _ h
      exact ⟨pKeep_trans hk2 hk3, hn3.trans hn2⟩

theorem processGroups_M (fuel : Nat) :
    ∀ gs st st', processGroups fuel st gs = .ok st' →
      pKeep st st' ∧ List.Sublist st'.nodes st.nodes := by
  intro gs
  induction gs with
  | nil =>
    intro st st' h
    obtain rfl : st = st' := by simpa [processGroups] using h
    exact ⟨pKeep_refl st, List.Sublist.refl _⟩
  | cons g rest ih =>
    intro st st' h
    rw [processGroups.eq_def] at h
    dsimp only at h
    split at h
    · exact ih _ _ h
    · split at h
      · exact ih _ _ h
      next root tail =>
        split at h
        next e heq => exact absurd h (by intro hh; exact Except.noConfusion hh)
        next st2 heq =>
          obtain ⟨hk2, hn2⟩ := processMembers_M fuel _ _ _ _ _ _ heq
          obtain ⟨hk3, hn3⟩ := ih _ _ h
          exact ⟨pKeep_trans hk2 hk3, hn3.trans hn2⟩

theorem minimizeNodes_M (fuel : Nat) (st st' : PState)
    (h : minimizeNodes fuel st = .ok st') : pKeep st st' ∧ List.Sublist st'.nodes st.nodes :=
  processGroups_M fuel _ _ _ h

/- #### Assembling the claim -/

/-- After a successful `Parser.parse` there is a single candidate for a
parentless node on the master list. -/
theorem parserParse_single (fuel : Nat) (strs : List (List Char)) (st1 : PState)
    (h : parserParse fuel strs = .ok st1) :
    Wf st1 ∧ ∃ c0, ∀ i ∈ st1.nodes, (hget st1 i).parents = [] → i = c0 := by
  rw [parserParse.eq_def] at h
  split at h
  · obtain rfl : emptyState = st1 := by simpa using h
    exact ⟨⟨fun i hi => absurd hi (List.not_mem_nil i), List.nodup_nil⟩,
      0, fun i hi => absurd hi (List.not_mem_nil i)⟩
  · exact absurd h (by intro hh; exact Except.noConfusion hh)
  next toks heqT =>
    split at h
    next e heq => exact absurd h (by intro hh; exact Except.noConfusion hh)
    next st2 c0 heq =>
      obtain rfl : st2 = st1 := by simpa using h
      obtain ⟨hwf2, hc0⟩ := parseTokens_inv fuel emptyState toks st2 c0 heq
        (fun i hi => absurd hi (List.not_mem_nil i))
        ⟨fun i hi => absurd hi (List.not_mem_nil i), List.nodup_nil⟩
      exact ⟨hwf2, c0, hc0⟩

theorem length_filter_le_of_imp {α} (p q : α → Bool)
    (hpq : ∀ a, p a = true → q a = true) :
    ∀ l : List α, (l.filter p).length ≤ (l.filter q).length := by
  intro l
  induction l with
  | nil => exact Nat.le_refl _
  | cons a t ih =>
    by_cases hp : p a = true
    · rw [List.filter_cons_of_pos hp, List.filter_cons_of_pos (hpq a hp)]
      simpa using ih
    · rw [List.filter_cons_of_neg (by simpa using hp)]
      by_cases hq : q a = true
      · rw [List.filter_cons_of_pos hq]
        exact Nat.le_succ_of_le ih
      · rw [List.filter_cons_of_neg (by simpa using hq)]
        exact ih

theorem length_le_one_of_nodup_all_eq {l : List Nat} {c : Nat} (hnd : l.Nodup)
    (hall : ∀ x ∈ l, x = c) : l.length ≤ 1 := by
  match l, hnd, hall with
  | [], _, _ => exact Nat.zero_le 1
  | [a], _, _ => exact Nat.le_refl 1
  | a :: b :: t, hnd, hall =>
    exfalso
    have ha : a = c := hall a (List.mem_cons_self _ _)
    have hb : b = c := hall b (List.mem_cons_of_mem _ (List.mem_cons_self _ _))
    have : a ∉ b :: t := (List.nodup_cons.mp hnd).1
    exact this (ha.trans hb.symm ▸ List.mem_cons_self b t)

/-- C4 (amended): on every input on which `ControlFlowGraph.parse`
reports no error, at most one node of the final node list has an empty
`parents` list.  (The original claim's "exactly one" fails: loop
back-edges and the join links can re-parent the entry node, see the
counterexample.) -/
theorem claim_C4_amended_single_entry (fuel : Nat) (strs : List (List Char))
    (st : PState) (es : List (Nat × Nat)) (h : cfgParse fuel strs = .ok (st, es)) :
    (emptyParentNodes st).length ≤ 1 := by
  rw [cfgParse.eq_def] at h
  split at h
  next e heq => exact absurd h (by intro hh; exact Except.noConfusion hh)
  next st1 heqP =>
    split at h
    next e heq => exact absurd h (by intro hh; exact Except.noConfusion hh)
    next st2 heqM =>
      obtain ⟨rfl, rfl⟩ : st2 = st ∧ getEdges st2 = es := by simpa using h
      obtain ⟨hwf1, c0, hc0⟩ := parserParse_single fuel strs st1 heqP
      obtain ⟨hk, hsub⟩ := minimizeNodes_M fuel st1 st2 heqM
      have hall : ∀ x ∈ emptyParentNodes st2, x = c0 := by
        intro x hx
        rw [emptyParentNodes, List.mem_filter] at hx
        obtain ⟨hmem, hemp⟩ := hx
        have hemp2 : (hget st2 x).parents = [] := by
          rcases hq : (hget st2 x).parents with _ | ⟨a, t⟩
          · rfl
          · rw [hq] at hemp
            simp [List.isEmpty] at hemp
        have hemp1 : (hget st1 x).parents = [] := by
          rcases hq : (hget st1 x).parents with _ | ⟨a, t⟩
          · rfl
          · exact absurd (hk x (by rw [hq]; simp)) (by rw [hemp2]; simp)
        exact hc0 x (hsub.subset hmem) hemp1
      have hnd : (emptyParentNodes st2).Nodup :=
        List.Nodup.filter _ (List.Nodup.sublist hsub hwf1.2)
      exact length_le_one_of_nodup_all_eq hnd hall

/-- C4 counterexample: for the single line `while (c) { a; }` the parse
succeeds with 3 nodes and **zero** parentless nodes — the loop's head
gets the back-edge and join parents — falsifying "exactly one". -/
theorem claim_C4_counterexample :
    (cfgParse 100 ["while (c) \x7b a; \x7d".data]).map
        (fun r => (r.1.nodes.length, (emptyParentNodes r.1).length)) = .ok (3, 0) ∧
    ¬ (cfgParse 100 ["while (c) \x7b a; \x7d".data]).map
        (fun r => (r.1.nodes.length, (emptyParentNodes r.1).length)) = .ok (3, 1) := by
  refine ⟨rfl, fun hc => ?_⟩
  have h2 : (Except.ok (3, 0) : Except PyErr (Nat × Nat)) = .ok (3, 1) :=
    Eq.trans (Eq.symm (by rfl)) hc
  simp at h2

/-- The concrete run backing the C4 witness. -/
def c4WitnessResult : PState × List (Nat × Nat) :=
  match cfgParse 40 ["x = 1;".data] with
  | .ok r => r
  | .error _ => (emptyState, [])

/-- Witness for the amended C4: the single line `x = 1;` parses to one
node, and indeed at most one node is parentless. -/
theorem claim_C4_witness :
    cfgParse 40 ["x = 1;".data] = .ok c4WitnessResult ∧
    (emptyParentNodes c4WitnessResult.1).length ≤ 1 :=
  ⟨rfl, claim_C4_amended_single_entry 40 ["x = 1;".data]
    c4WitnessResult.1 c4WitnessResult.2 rfl⟩

end PyCfg
